import Mathlib

/-!
Verification of the Engram SDK core against its specification.

The Rust sources are shallowly embedded: Rust `String`/`&str` values are
modelled as `List Char` (called `Str` below), machine integers as `Nat`,
`f64` money/ratio values as `ℚ`, and fallible operations as `Option`/`Except`.
Each embedded definition is named after (and translated from) the Rust item
it models; the file first gives all definitions, then the theorems.
-/

set_option maxHeartbeats 1000000
set_option maxRecDepth 8000

/-- Rust strings are modelled as lists of unicode scalar values. -/
abbrev Str := List Char

namespace EngramSpec

/-! ## Generic string primitives (models of Rust `str` methods) -/

/-- Model of Rust `char::is_whitespace` restricted to the whitespace
characters that occur in this code base (space, tab, newline, carriage
return); matches `Char.isWhitespace`. -/
def isWs (c : Char) : Bool :=
  c = ' ' || c = '\t' || c = '\n' || c = '\r'

/-- Drop leading characters satisfying `p` (helper for `trim`). -/
def dropWhileP (p : Char → Bool) : Str → Str
  | [] => []
  | c :: cs => if p c then dropWhileP p cs else c :: cs

/-- Model of Rust `str::trim_matches` with predicate `p`: strip matching
characters from both ends. -/
def trimMatches (p : Char → Bool) (s : Str) : Str :=
  (dropWhileP p (dropWhileP p s.reverse).reverse)

/-- Model of Rust `str::trim`. -/
def trim (s : Str) : Str := trimMatches isWs s

/-- Model of Rust `str::starts_with` for a literal pattern. -/
def startsWith (pat s : Str) : Bool := pat.isPrefixOf s

/-- Model of Rust `str::strip_prefix`: `some rest` iff `s = pat ++ rest`. -/
def stripPre (pat s : Str) : Option Str :=
  if startsWith pat s then some (s.drop pat.length) else none

/-- Model of Rust `str::split_once` for a literal pattern: split at the
first occurrence of `pat`. -/
def splitOnceSub (pat : Str) : Str → Option (Str × Str)
  | [] => if pat = [] then some ([], []) else none
  | c :: rest =>
      if startsWith pat (c :: rest) then some ([], (c :: rest).drop pat.length)
      else (splitOnceSub pat rest).map (fun ab => (c :: ab.1, ab.2))

/-- Model of Rust `str::contains` for a literal pattern. -/
def containsSub (pat : Str) : Str → Bool
  | [] => pat = []
  | c :: rest => startsWith pat (c :: rest) || containsSub pat rest

/-- Model of Rust `str::find` for a literal pattern (index of the first
occurrence, counted in characters). -/
def findSub (pat : Str) : Str → Option Nat
  | [] => if pat = [] then some 0 else none
  | c :: rest =>
      if startsWith pat (c :: rest) then some 0
      else (findSub pat rest).map (· + 1)

/-- Split on every occurrence of a single character (model of
`str::split('\n')`-style splitting; total, never empty). -/
def splitChar (ch : Char) : Str → List Str
  | [] => [[]]
  | c :: rest =>
      if c = ch then [] :: splitChar ch rest
      else
        match splitChar ch rest with
        | [] => [[c]]
        | p :: ps => (c :: p) :: ps

/-- Strip one trailing carriage return (helper for `rustLines`). -/
def stripCr (s : Str) : Str :=
  match s.getLast? with
  | some '\r' => s.dropLast
  | _ => s

/-- Model of Rust `str::lines`: split on `'\n'`, treat a final newline as a
terminator rather than a separator, and strip a `'\r'` that preceded each
split point. -/
def rustLines (s : Str) : List Str :=
  let ps := splitChar '\n' s
  ps.dropLast.map stripCr ++
    (match ps.getLast? with
     | some [] => []
     | some l => [l]
     | none => [])

/-- Model of Rust `str::split_whitespace` (maximal nonempty runs of
non-whitespace characters). -/
def splitWs (s : Str) : List Str :=
  (splitChar ' ' (s.map (fun c => if isWs c then ' ' else c))).filter (· ≠ [])

/-- Model of Rust `char::to_lowercase` restricted to its ASCII behaviour
(the heuristics below only ever compare ASCII patterns). -/
def lowerChar (c : Char) : Char := c.toLower

/-- Model of Rust `str::to_lowercase` (characterwise, ASCII behaviour). -/
def lowerStr (s : Str) : Str := s.map lowerChar

/-! ## C2: ref names (`engram-core/src/storage/refs.rs`, `model/engram.rs`) -/

/-- Model of `EngramId::fanout_prefix`: the first two characters, or `"00"`
for identifiers shorter than two characters. -/
def fanout (id : Str) : Str :=
  if 2 ≤ id.length then id.take 2 else "00".data

/-- Model of `engram_ref_name`: `refs/engrams/<fanout>/<id>`. -/
def engramRefName (id : Str) : Str :=
  "refs/engrams/".data ++ fanout id ++ "/".data ++ id

/-! ## JSON values (model of `serde_json::Value` and its compact text form)

JSON numbers are modelled as integers: the repository only ever serializes
token counts and opaque tool inputs, and `serde_json`'s float printing
(shortest round-tripping form) is out of scope for every claim. -/

mutual

inductive Json where
  | null
  | bool (b : Bool)
  | num (n : Int)
  | str (s : Str)
  | arr (elems : JsonList)
  | obj (fields : JsonFields)
deriving DecidableEq

inductive JsonList where
  | nil
  | cons (hd : Json) (tl : JsonList)
deriving DecidableEq

inductive JsonFields where
  | nil
  | cons (key : Str) (val : Json) (tl : JsonFields)
deriving DecidableEq

end

/-- View a `JsonList` as an ordinary list. -/
def JsonList.toList : JsonList → List Json
  | .nil => []
  | .cons j tl => j :: tl.toList

/-- Look up a key in an object's field list (first occurrence, the model of
`serde_json::Value::get`). -/
def fieldsGet : JsonFields → Str → Option Json
  | .nil, _ => none
  | .cons k v tl, q => if k = q then some v else fieldsGet tl q

/-- Model of `Value::get(key)` (object member lookup). -/
def jGet (j : Json) (k : Str) : Option Json :=
  match j with
  | .obj fs => fieldsGet fs k
  | _ => none

/-- Model of `Value::as_str`. -/
def jAsStr : Json → Option Str
  | .str s => some s
  | _ => none

/-- Model of `Value::as_bool`. -/
def jAsBool : Json → Option Bool
  | .bool b => some b
  | _ => none

/-! ### Decimal digits -/

/-- One decimal digit as a character (`0 ≤ d ≤ 9`). -/
def digCh (d : Nat) : Char :=
  match d with
  | 0 => '0' | 1 => '1' | 2 => '2' | 3 => '3' | 4 => '4'
  | 5 => '5' | 6 => '6' | 7 => '7' | 8 => '8' | 9 => '9'
  | _ => '*'

/-- Decimal digits of a positive number, most significant first, in front
of `acc`. -/
def natDigitsCore (n : Nat) (acc : Str) : Str :=
  if h : n = 0 then acc
  else natDigitsCore (n / 10) (digCh (n % 10) :: acc)
termination_by n
decreasing_by exact Nat.div_lt_self (Nat.pos_of_ne_zero h) (by omega)

/-- Decimal rendering of a natural number. -/
def natDigits (n : Nat) : Str :=
  if n = 0 then ['0'] else natDigitsCore n []

/-- Decimal rendering of an integer (model of the `itoa` path used by
`serde_json`). -/
def intDigits (n : Int) : Str :=
  if n < 0 then '-' :: natDigits n.natAbs else natDigits n.toNat

/-- Numeric value of a digit character. -/
def digVal (c : Char) : Nat := c.toNat - 48

/-- Value of a most-significant-first digit string. -/
def digitsVal (ds : Str) : Nat := ds.foldl (fun acc c => acc * 10 + digVal c) 0

/-- Parse a nonempty all-digit string (model of `str::parse::<u64>` on the
inputs this code feeds it). -/
def digitsToNat? (s : Str) : Option Nat :=
  if s ≠ [] ∧ s.all Char.isDigit then some (digitsVal s) else none

/-! ### JSON printing (model of `serde_json::to_string` / `to_writer`) -/

/-- One hexadecimal digit, lowercase (as in `serde_json`'s escape table). -/
def digCh16 (d : Nat) : Char :=
  if d < 10 then digCh d
  else match d with
    | 10 => 'a' | 11 => 'b' | 12 => 'c' | 13 => 'd' | 14 => 'e' | 15 => 'f'
    | _ => '*'

/-- `serde_json`'s string escaping: quote, backslash and ASCII control
characters are escaped, everything else is written verbatim. -/
def escChar (c : Char) : Str :=
  if c = '"' then ['\\', '"']
  else if c = '\\' then ['\\', '\\']
  else if c = '\n' then ['\\', 'n']
  else if c = '\r' then ['\\', 'r']
  else if c = '\t' then ['\\', 't']
  else if c.toNat = 8 then ['\\', 'b']
  else if c.toNat = 12 then ['\\', 'f']
  else if c.toNat < 32 then ['\\', 'u', '0', '0', digCh16 (c.toNat / 16), digCh16 (c.toNat % 16)]
  else [c]

/-- Escape a whole string body. -/
def escStr (s : Str) : Str := (s.map escChar).flatten

mutual

/-- Compact JSON text of a value (model of `serde_json::to_string`). -/
def printJson : Json → Str
  | .null => "null".data
  | .bool true => "true".data
  | .bool false => "false".data
  | .num n => intDigits n
  | .str s => '"' :: (escStr s ++ ['"'])
  | .arr es => '[' :: (printElems es ++ [']'])
  | .obj fs => '\x7b' :: (printFields fs ++ ['\x7d'])

/-- Comma-separated array elements. -/
def printElems : JsonList → Str
  | .nil => []
  | .cons j .nil => printJson j
  | .cons j (.cons j2 tl) => printJson j ++ ',' :: printElems (.cons j2 tl)

/-- Comma-separated object members. -/
def printFields : JsonFields → Str
  | .nil => []
  | .cons k v .nil => printField k v
  | .cons k v (.cons k2 v2 tl) => printField k v ++ ',' :: printFields (.cons k2 v2 tl)

/-- One `"key":value` member. -/
def printField (k : Str) (v : Json) : Str :=
  '"' :: (escStr k ++ '"' :: ':' :: printJson v)

end

/-! ### JSON parsing (model of `serde_json::from_str`'s syntax layer,
restricted to integer numerals; the repository never re-reads floats). -/

/-- Skip JSON whitespace. -/
def skipWs : Str → Str
  | [] => []
  | c :: rest => if c = ' ' || c = '\t' || c = '\n' || c = '\r' then skipWs rest else c :: rest

/-- Hexadecimal digit value. -/
def hexVal? (c : Char) : Option Nat :=
  if c.isDigit then some (c.toNat - 48)
  else if 'a' ≤ c ∧ c ≤ 'f' then some (c.toNat - 87)
  else if 'A' ≤ c ∧ c ≤ 'F' then some (c.toNat - 55)
  else none

/-- Single-character escapes. -/
def unesc (c : Char) : Option Char :=
  if c = '"' then some '"'
  else if c = '\\' then some '\\'
  else if c = '/' then some '/'
  else if c = 'b' then some (Char.ofNat 8)
  else if c = 'f' then some (Char.ofNat 12)
  else if c = 'n' then some '\n'
  else if c = 'r' then some '\r'
  else if c = 't' then some '\t'
  else none

/-- Parse a string body after the opening quote; returns the decoded
characters and the input after the closing quote. -/
def parseStringBody (s : Str) : Option (Str × Str) :=
  match s with
  | [] => none
  | '"' :: rest => some ([], rest)
  | '\\' :: 'u' :: a :: b :: c :: d :: rest =>
      match hexVal? a, hexVal? b, hexVal? c, hexVal? d with
      | some x, some y, some z, some w =>
          let n := ((x * 16 + y) * 16 + z) * 16 + w
          if n.isValidChar then
            (parseStringBody rest).map (fun pr => (Char.ofNat n :: pr.1, pr.2))
          else none
      | _, _, _, _ => none
  | '\\' :: e :: rest =>
      if e = 'u' then none
      else
        match unesc e with
        | some c => (parseStringBody rest).map (fun pr => (c :: pr.1, pr.2))
        | none => none
  | c :: rest => (parseStringBody rest).map (fun pr => (c :: pr.1, pr.2))
termination_by s.length
decreasing_by all_goals (simp_all; try omega)

/-- Longest leading run of decimal digits. -/
def takeDigits : Str → (Str × Str)
  | [] => ([], [])
  | c :: rest =>
      if c.isDigit then
        let pr := takeDigits rest
        (c :: pr.1, pr.2)
      else ([], c :: rest)

/-- Parse an integer numeral. -/
def parseNum (s : Str) : Option (Int × Str) :=
  match s with
  | '-' :: rest =>
      let pr := takeDigits rest
      if pr.1 = [] then none else some (-(digitsVal pr.1 : Int), pr.2)
  | _ =>
      let pr := takeDigits s
      if pr.1 = [] then none else some ((digitsVal pr.1 : Int), pr.2)

mutual

/-- Parse one JSON value (fuel-indexed recursive descent). -/
def parseVal : Nat → Str → Option (Json × Str)
  | 0, _ => none
  | fuel + 1, s =>
      let s1 := skipWs s
      if startsWith "null".data s1 then some (.null, s1.drop 4)
      else if startsWith "true".data s1 then some (.bool true, s1.drop 4)
      else if startsWith "false".data s1 then some (.bool false, s1.drop 5)
      else
        match s1 with
        | '"' :: rest => (parseStringBody rest).map (fun pr => (.str pr.1, pr.2))
        | '[' :: rest =>
            match skipWs rest with
            | ']' :: r2 => some (.arr .nil, r2)
            | r2 => (parseElemsTail fuel r2).map (fun pr => (.arr pr.1, pr.2))
        | '\x7b' :: rest =>
            match skipWs rest with
            | '\x7d' :: r2 => some (.obj .nil, r2)
            | r2 => (parseFieldsTail fuel r2).map (fun pr => (.obj pr.1, pr.2))
        | _ => (parseNum s1).map (fun pr => (.num pr.1, pr.2))

/-- Parse `value (, value)* ]` (a nonempty array tail). -/
def parseElemsTail : Nat → Str → Option (JsonList × Str)
  | 0, _ => none
  | fuel + 1, s =>
      match parseVal fuel s with
      | none => none
      | some (j, r1) =>
          match skipWs r1 with
          | ',' :: r2 => (parseElemsTail fuel r2).map (fun pr => (.cons j pr.1, pr.2))
          | ']' :: r2 => some (.cons j .nil, r2)
          | _ => none

/-- Parse `"key": value (, "key": value)* }` (a nonempty object tail). -/
def parseFieldsTail : Nat → Str → Option (JsonFields × Str)
  | 0, _ => none
  | fuel + 1, s =>
      match skipWs s with
      | '"' :: rest =>
          match parseStringBody rest with
          | none => none
          | some (k, r1) =>
              match skipWs r1 with
              | ':' :: r2 =>
                  match parseVal fuel r2 with
                  | none => none
                  | some (v, r3) =>
                      match skipWs r3 with
                      | ',' :: r4 => (parseFieldsTail fuel r4).map (fun pr => (.cons k v pr.1, pr.2))
                      | '\x7d' :: r4 => some (.cons k v .nil, r4)
                      | _ => none
              | _ => none
      | _ => none

end

mutual

/-- Fuel sufficient to parse the printed form of a value. -/
def jsonSize : Json → Nat
  | .arr es => elemsSize es + 1
  | .obj fs => fieldsSize fs + 1
  | _ => 1

/-- Fuel sufficient for a nonempty array tail. -/
def elemsSize : JsonList → Nat
  | .nil => 1
  | .cons j tl => jsonSize j + elemsSize tl

/-- Fuel sufficient for a nonempty object tail. -/
def fieldsSize : JsonFields → Nat
  | .nil => 1
  | .cons _ v tl => jsonSize v + fieldsSize tl

end

/-! ## The data model (`engram-core/src/model/*.rs`)

Instants (`DateTime<Utc>`) are modelled as abstract `Nat` timestamps and
`f64` dollar amounts as `ℚ`; neither plays a computational role in any
claim. Freshly generated UUID identifiers are modelled as `[]`. -/

/-- Model of `TokenUsage` (`model/token_economics.rs`). -/
structure TokenUsage where
  input_tokens : Nat := 0
  output_tokens : Nat := 0
  cache_read_tokens : Nat := 0
  cache_write_tokens : Nat := 0
  total_tokens : Nat := 0
  cost_usd : Option ℚ := none
deriving DecidableEq

/-- Model of `AgentInfo` (`model/engram.rs`). -/
structure AgentInfo where
  name : Str
  model : Option Str := none
  version : Option Str := none
deriving DecidableEq

/-- Model of `CaptureMode` (`model/engram.rs`): `Wrapper`, `Import`, `Sdk`. -/
inductive CaptureMode where
  | wrapper
  | imported
  | sdk
deriving DecidableEq

/-- Model of `Manifest` (`model/engram.rs`). -/
structure Manifest where
  id : Str := []
  version : Nat := 1
  created_at : Nat := 0
  finished_at : Option Nat := none
  agent : AgentInfo
  git_commits : List Str := []
  token_usage : TokenUsage := {}
  summary : Option Str := none
  tags : List Str := []
  capture_mode : CaptureMode
  source_hash : Option Str := none
deriving DecidableEq

/-- Model of `DeadEnd` (`model/intent.rs`). -/
structure DeadEnd where
  approach : Str
  reason : Str
deriving DecidableEq

/-- Model of `Decision` (`model/intent.rs`). -/
structure Decision where
  description : Str
  rationale : Str
deriving DecidableEq

/-- Model of `Intent` (`model/intent.rs`). -/
structure Intent where
  original_request : Str
  interpreted_goal : Option Str := none
  summary : Option Str := none
  dead_ends : List DeadEnd := []
  decisions : List Decision := []
deriving DecidableEq

/-- Model of `Role` (`model/transcript.rs`). -/
inductive Role where
  | user
  | assistant
  | system
  | tool
deriving DecidableEq

/-- Model of `TranscriptContent` (`model/transcript.rs`). -/
inductive TranscriptContent where
  | text (text : Str)
  | toolUse (tool_name : Str) (tool_id : Str) (input : Json)
  | toolResult (tool_id : Str) (output : Str) (is_error : Bool)
  | thinking (text : Str)
deriving DecidableEq

/-- Model of `TranscriptEntry` (`model/transcript.rs`). -/
structure TranscriptEntry where
  timestamp : Nat
  role : Role
  content : TranscriptContent
  token_count : Option Nat := none
deriving DecidableEq

/-- Model of `Transcript` (`model/transcript.rs`). -/
structure Transcript where
  entries : List TranscriptEntry := []
deriving DecidableEq

/-- Model of `FileChangeType` (`model/operations.rs`). -/
inductive FileChangeType where
  | created
  | modified
  | deleted
  | renamed (fromPath : Str)
deriving DecidableEq

/-- Model of `FileChange` (`model/operations.rs`). -/
structure FileChange where
  path : Str
  change_type : FileChangeType
  lines_added : Option Nat := none
  lines_removed : Option Nat := none
deriving DecidableEq

/-- Model of `ToolCall` (`model/operations.rs`). -/
structure ToolCall where
  timestamp : Nat
  tool_name : Str
  input : Json
  output_summary : Option Str := none
  duration_ms : Option Nat := none
  is_error : Bool := false
deriving DecidableEq

/-- Model of `ShellCommand` (`model/operations.rs`). -/
structure ShellCommand where
  timestamp : Nat
  command : Str
  exit_code : Option Int := none
  duration_ms : Option Nat := none
deriving DecidableEq

/-- Model of `Operations` (`model/operations.rs`). -/
structure Operations where
  tool_calls : List ToolCall := []
  file_changes : List FileChange := []
  shell_commands : List ShellCommand := []
deriving DecidableEq

/-- Model of `RelationType` (`model/lineage.rs`). -/
inductive RelationType where
  | followsFrom
  | motivates
  | dependsOn
  | supersedes
  | conflictsWith
deriving DecidableEq

/-- Model of `Relationship` (`model/lineage.rs`). -/
structure Relationship where
  engram_id : Str
  relation_type : RelationType
  description : Option Str := none
deriving DecidableEq

/-- Model of `Lineage` (`model/lineage.rs`). -/
structure Lineage where
  parent_engram : Option Str := none
  child_engrams : List Str := []
  related_engrams : List Relationship := []
  git_commits : List Str := []
  branch : Option Str := none
deriving DecidableEq

/-- Model of `EngramData` (`model/mod.rs`): the five sub-documents. -/
structure EngramData where
  manifest : Manifest
  intent : Intent
  transcript : Transcript
  operations : Operations
  lineage : Lineage
deriving DecidableEq

/-- The token-accounting invariant of §8 of the specification. -/
def tokenInvariant (u : TokenUsage) : Prop :=
  u.total_tokens =
    u.input_tokens + u.output_tokens + u.cache_read_tokens + u.cache_write_tokens

/-! ## C1 (SDK leg): `EngramSession::add_tokens` (`engram-sdk/src/session.rs`) -/

/-- Model of `EngramSession::add_tokens`: accumulate input/output tokens,
keep a running total, and add any cost onto the (lazily created) sum. -/
def addTokens (u : TokenUsage) (inp outp : Nat) (cost : Option ℚ) : TokenUsage :=
  { u with
    input_tokens := u.input_tokens + inp
    output_tokens := u.output_tokens + outp
    total_tokens := u.total_tokens + (inp + outp)
    cost_usd :=
      match cost with
      | some c => some (u.cost_usd.getD 0 + c)
      | none => u.cost_usd }

/-- Token usage of an SDK session after an arbitrary sequence of
`add_tokens` calls: `EngramSession::begin` starts from
`TokenUsage::default()` and no other SDK method touches the counter;
`build` copies it verbatim into the manifest. -/
def sdkTokenUsage (calls : List (Nat × Nat × Option ℚ)) : TokenUsage :=
  calls.foldl (fun u c => addTokens u c.1 c.2.1 c.2.2) {}

/-- Token usage of a PTY-captured session (`capture/session/builder.rs`):
`TokenUsage::default()`, PTY capture does not know token usage. -/
def ptyTokenUsage : TokenUsage := {}

/-! ## C3: prefix resolution (`engram-core/src/storage/refs.rs`) -/

/-- The two user-visible failures of `resolve_engram_ref`:
`CoreError::NotFound` and the "Ambiguous engram ID prefix" parse error. -/
inductive ResolveErr where
  | notFound
  | ambiguous
deriving DecidableEq

/-- Model of `resolve_engram_ref` over the set `stored` of identifiers that
currently have engram refs. The exact-match branch looks up the ref named
`engram_ref_name(input)` and succeeds iff some stored identifier produces
that exact ref name; the fallback filters all stored identifiers by
`starts_with` and inspects the number of matches. -/
def resolveEngramRef (stored : List Str) (p : Str) : Except ResolveErr Str :=
  if stored.any (fun id => engramRefName id = engramRefName p) then .ok p
  else
    match stored.filter (fun id => startsWith p id) with
    | [] => .error .notFound
    | [id] => .ok id
    | _ => .error .ambiguous

/-! ## C4: snapshot diff (`engram-capture/src/pty/detector.rs`)

A working-tree snapshot is a path-keyed map of content hashes; the `HashMap`
is modelled as an association list with distinct keys (hashes as `List Nat`
byte lists). -/

/-- A snapshot: relative path → SHA-256 of the contents. -/
abbrev Snapshot := List (Str × List Nat)

/-- Lookup in a snapshot (model of `HashMap::get`). -/
def snapGet (m : Snapshot) (p : Str) : Option (List Nat) :=
  (m.find? (fun e => e.1 = p)).map (·.2)

/-- The created/modified check of `detect_changes` for one `after` entry. -/
def detectOne (before : Snapshot) (pa : Str × List Nat) : Option FileChange :=
  match snapGet before pa.1 with
  | none => some { path := pa.1, change_type := .created }
  | some bh =>
      if bh ≠ pa.2 then some { path := pa.1, change_type := .modified }
      else none

/-- The deleted check of `detect_changes` for one `before` entry. -/
def detectDel (after : Snapshot) (pb : Str × List Nat) : Option FileChange :=
  if snapGet after pb.1 = none then some { path := pb.1, change_type := .deleted }
  else none

/-- Model of `detect_changes`: created/modified from the `after` pass,
deleted from the `before` pass, then `sort_by(path)`. -/
def detectChanges (before after : Snapshot) : List FileChange :=
  List.insertionSort (fun a b : FileChange => a.path ≤ b.path)
    (after.filterMap (detectOne before) ++ before.filterMap (detectDel after))

/-! ## C7: commit-message trailers (`engram-core/src/hooks/handlers.rs`) -/

/-- Model of `ActiveSession` (`hooks/session.rs`). -/
structure ActiveSession where
  engram_id : Str
  agent : AgentInfo
  started_at : Nat := 0
  commits : List Str := []
  token_usage : TokenUsage := {}
deriving DecidableEq

/-- Two-decimal rendering of a dollar amount (model of `format!("{cost:.2}")`
on the rationals that stand in for `f64`; rounding to the nearest
hundredth). -/
def costRender (c : ℚ) : Str :=
  let cents : Int := round (c * 100)
  if cents < 0 then
    '-' :: (natDigits (cents.natAbs / 100) ++ '.' :: digCh (cents.natAbs / 10 % 10) :: [digCh (cents.natAbs % 10)])
  else
    natDigits (cents.natAbs / 100) ++ '.' :: digCh (cents.natAbs / 10 % 10) :: [digCh (cents.natAbs % 10)]

/-- Model of `handle_prepare_commit_msg`, as a function from the present
commit-message file contents to the new contents (the `git_dir` lookup of
the active session is the `session` argument; `None` models a missing
session file). -/
def handlePrepareCommitMsg (session : Option ActiveSession) (msg : Str) : Str :=
  match session with
  | none => msg
  | some s =>
      if containsSub "Engram-Id:".data msg then msg
      else
        let m1 := if msg.getLast? = some '\n' then msg else msg ++ ['\n']
        let m2 := m1 ++ ['\n']
        m2 ++ "Engram-Id: ".data ++ s.engram_id ++ ['\n']
           ++ "Engram-Agent: ".data ++ s.agent.name
           ++ (match s.agent.model with
               | some mo => '/' :: mo
               | none => []) ++ ['\n']
           ++ "Engram-Tokens: ".data ++ natDigits s.token_usage.total_tokens ++ ['\n']
           ++ (match s.token_usage.cost_usd with
               | some c => "Engram-Cost: $".data ++ costRender c ++ ['\n']
               | none => [])

/-! ## C9: insight extraction (`engram-capture/src/session/extractor.rs`)

The captured bytes are modelled as the already-UTF-8-decoded text
(`String::from_utf8_lossy`); Rust's byte lengths are modelled through the
UTF-8 size of each character. -/

/-- Rust `str::len` (UTF-8 byte length). -/
def byteLen (s : Str) : Nat := (s.map Char.utf8Size).sum

/-- Strip all trailing `'.'` characters (model of
`str::trim_end_matches('.')`). -/
def trimEndDots (s : Str) : Str :=
  (dropWhileP (fun c => c = '.') s.reverse).reverse

/-- Model of `try_extract_dead_end`. -/
def tryExtractDeadEnd (lower original : Str) : Option DeadEnd :=
  match stripPre "tried ".data lower with
  | some rest =>
      match splitOnceSub " but ".data rest with
      | some (a, r) => some { approach := trim a, reason := trim r }
      | none => tryDeadEnd2 lower original
  | none => tryDeadEnd2 lower original
where
  /-- the `rejected … because …` / `rejected …: …` pattern -/
  tryDeadEnd2 (lower original : Str) : Option DeadEnd :=
    match stripPre "rejected ".data lower with
    | some rest =>
        match (splitOnceSub " because ".data rest).orElse (fun _ => splitOnceSub ": ".data rest) with
        | some (a, r) => some { approach := trim a, reason := trim r }
        | none => tryDeadEnd3 lower original
    | none => tryDeadEnd3 lower original
  /-- the `… didn't work …` pattern -/
  tryDeadEnd3 (lower original : Str) : Option DeadEnd :=
    match findSub " didn't work".data lower with
    | some pos =>
        let approach := original.take pos
        let after := lower.drop (pos + " didn't work".data.length)
        let reason :=
          ((stripPre " because ".data after).orElse
            (fun _ => stripPre ": ".data after)).getD "did not work as expected".data
        if approach ≠ [] ∧ byteLen approach < 80 then
          some { approach := trim approach, reason := trim reason }
        else tryDeadEnd4 lower original
    | none => tryDeadEnd4 lower original
  /-- the `… instead of …` pattern -/
  tryDeadEnd4 (lower original : Str) : Option DeadEnd :=
    if containsSub "instead of ".data lower ∧ byteLen original < 120 then
      match findSub "instead of ".data lower with
      | some pos =>
          let approach := original.drop (pos + "instead of ".data.length)
          let reason := original.take pos
          if approach ≠ [] ∧ byteLen approach < 80 ∧ reason ≠ [] then
            some { approach := trimEndDots (trim approach), reason := trim reason }
          else none
      | none => none
    else none

/-- Model of `try_extract_decision`. -/
def tryExtractDecision (lower original : Str) : Option Decision :=
  match stripPre "decided to ".data lower with
  | some rest =>
      match splitOnceSub " because ".data rest with
      | some (d, r) => some { description := trim d, rationale := trim r }
      | none => tryDecision2 lower original
  | none => tryDecision2 lower original
where
  /-- the `chose … over …` pattern -/
  tryDecision2 (lower original : Str) : Option Decision :=
    if startsWith "chose ".data lower ∧ byteLen original < 120 then
      match (stripPre "chose ".data lower).bind (fun r => splitOnceSub " over ".data r) with
      | some (d, _) => some { description := trim d, rationale := original }
      | none => none
    else none

/-- Model of `Vec::dedup_by`: remove elements equal (under `p`) to the most
recently retained element; `p` receives the candidate first and the
retained element second, as in Rust. -/
def dedupByGo (p : α → α → Bool) (prev : α) : List α → List α
  | [] => []
  | y :: ys => if p y prev then dedupByGo p prev ys else y :: dedupByGo p y ys

/-- Model of `Vec::dedup_by` (entry point). -/
def dedupBy (p : α → α → Bool) : List α → List α
  | [] => []
  | x :: xs => x :: dedupByGo p x xs

/-- Model of `ExtractedInsights`. -/
structure ExtractedInsights where
  dead_ends : List DeadEnd
  decisions : List Decision
deriving DecidableEq

/-- Model of `extract_insights`: scan lines, skip short ones, collect both
pattern families, then `dedup_by` on the first field. -/
def extractInsights (text : Str) : ExtractedInsights :=
  let state := (rustLines text).foldl
    (fun (acc : List DeadEnd × List Decision) line =>
      let trimmed := trim line
      if trimmed = [] ∨ byteLen trimmed < 10 then acc
      else
        let lower := lowerStr trimmed
        let acc1 :=
          match tryExtractDeadEnd lower trimmed with
          | some de => (acc.1 ++ [de], acc.2)
          | none => acc
        match tryExtractDecision lower trimmed with
        | some d => (acc1.1, acc1.2 ++ [d])
        | none => acc1)
    ([], [])
  { dead_ends := dedupBy (fun a b => a.approach = b.approach) state.1
    decisions := dedupBy (fun a b => a.description = b.description) state.2 }

/-! ## C5: Intent ↔ Markdown (`engram-core/src/model/intent.rs`) -/

/-- Model of `Intent::to_markdown`. -/
def toMarkdown (i : Intent) : Str :=
  "# Intent\n\n".data ++ i.original_request ++ ['\n']
  ++ (match i.interpreted_goal with
      | some g => "\n## Interpreted Goal\n\n".data ++ g ++ ['\n']
      | none => [])
  ++ (match i.summary with
      | some s => "\n## Summary\n\n".data ++ s ++ ['\n']
      | none => [])
  ++ (if i.dead_ends = [] then [] else
      "\n## Dead Ends\n\n".data ++
        (i.dead_ends.map (fun de =>
          "- **".data ++ de.approach ++ "**: ".data ++ de.reason ++ ['\n'])).flatten)
  ++ (if i.decisions = [] then [] else
      "\n## Decisions\n\n".data ++
        (i.decisions.map (fun d =>
          "- **".data ++ d.description ++ "**: ".data ++ d.rationale ++ ['\n'])).flatten)

/-- Parser state of `Intent::from_markdown` (the local mutable variables of
the Rust function; `cur` is the `current_section` label). -/
structure MdState where
  original_request : Str := []
  interpreted_goal : Option Str := none
  summary : Option Str := none
  dead_ends : List DeadEnd := []
  decisions : List Decision := []
  cur : Str := "intent".data
  content : Str := []
deriving DecidableEq

/-- Model of `Intent::save_section`. -/
def saveSection (st : MdState) : MdState :=
  let t := trim st.content
  if t = [] then st
  else if st.cur = "intent".data then { st with original_request := t }
  else if st.cur = "goal".data then { st with interpreted_goal := some t }
  else if st.cur = "summary".data then { st with summary := some t }
  else st

/-- Enter a new section after saving the current one. -/
def mdSwitch (st : MdState) (next : Str) : MdState :=
  let st := saveSection st
  { st with cur := next, content := [] }

/-- One line of `Intent::from_markdown`'s loop. -/
def mdStep (st : MdState) (line : Str) : MdState :=
  if startsWith "# Intent".data line then { st with cur := "intent".data, content := [] }
  else if startsWith "## Original Request".data line then mdSwitch st "intent".data
  else if startsWith "## Interpreted Goal".data line then mdSwitch st "goal".data
  else if startsWith "## Summary".data line then mdSwitch st "summary".data
  else if startsWith "## Dead Ends".data line then mdSwitch st "dead_ends".data
  else if startsWith "## Decisions".data line then mdSwitch st "decisions".data
  else if st.cur = "dead_ends".data then
    match stripPre "- **".data line with
    | some entry =>
        match splitOnceSub "**: ".data entry with
        | some (a, r) => { st with dead_ends := st.dead_ends ++ [{ approach := a, reason := r }] }
        | none => st
    | none => st
  else if st.cur = "decisions".data then
    match stripPre "- **".data line with
    | some entry =>
        match splitOnceSub "**: ".data entry with
        | some (d, r) => { st with decisions := st.decisions ++ [{ description := d, rationale := r }] }
        | none => st
    | none => st
  else
    if st.content ≠ [] ∨ line ≠ [] then
      { st with content := (if st.content ≠ [] then st.content ++ ['\n'] else st.content) ++ line }
    else st

/-- Model of `Intent::from_markdown` (the Rust function always returns
`Ok`, so the `Result` wrapper is dropped). -/
def fromMarkdown (md : Str) : Intent :=
  let st := saveSection ((rustLines md).foldl mdStep {})
  { original_request := st.original_request
    interpreted_goal := st.interpreted_goal
    summary := st.summary
    dead_ends := st.dead_ends
    decisions := st.decisions }

/-! ## C6: Transcript ↔ JSONL (`engram-core/src/model/transcript.rs`)

`chrono` timestamps serialize to an RFC 3339 string and deserialize back to
the same instant; the abstract `Nat` instants are rendered as their decimal
digits inside a JSON string, which models exactly the properties used:
injectivity and exact re-parsing. -/

/-- Timestamp rendering (stand-in for the RFC 3339 form). -/
def tsRender (n : Nat) : Str := natDigits n

/-- Timestamp parsing. -/
def tsParse? (s : Str) : Option Nat := digitsToNat? s

/-- `Role`'s snake_case serde names. -/
def roleStr : Role → Str
  | .user => "user".data
  | .assistant => "assistant".data
  | .system => "system".data
  | .tool => "tool".data

/-- Parse a serde role name. -/
def roleOfStr? (s : Str) : Option Role :=
  if s = "user".data then some .user
  else if s = "assistant".data then some .assistant
  else if s = "system".data then some .system
  else if s = "tool".data then some .tool
  else none

/-- serde encoding of `TranscriptContent` (internally tagged with `type`). -/
def encodeContent : TranscriptContent → Json
  | .text t =>
      .obj (.cons "type".data (.str "text".data)
        (.cons "text".data (.str t) .nil))
  | .toolUse n i inp =>
      .obj (.cons "type".data (.str "tool_use".data)
        (.cons "tool_name".data (.str n)
          (.cons "tool_id".data (.str i)
            (.cons "input".data inp .nil))))
  | .toolResult i out err =>
      .obj (.cons "type".data (.str "tool_result".data)
        (.cons "tool_id".data (.str i)
          (.cons "output".data (.str out)
            (.cons "is_error".data (.bool err) .nil))))
  | .thinking t =>
      .obj (.cons "type".data (.str "thinking".data)
        (.cons "text".data (.str t) .nil))

/-- serde encoding of `TranscriptEntry` (fields in declaration order;
`token_count` omitted when `None`). -/
def encodeEntry (e : TranscriptEntry) : Json :=
  .obj (.cons "timestamp".data (.str (tsRender e.timestamp))
    (.cons "role".data (.str (roleStr e.role))
      (.cons "content".data (encodeContent e.content)
        (match e.token_count with
         | some n => .cons "token_count".data (.num (n : Int)) .nil
         | none => .nil))))

/-- serde decoding of `TranscriptContent`. -/
def decodeContent (j : Json) : Option TranscriptContent :=
  match (jGet j "type".data).bind jAsStr with
  | some t =>
      if t = "text".data then
        ((jGet j "text".data).bind jAsStr).map .text
      else if t = "tool_use".data then
        match (jGet j "tool_name".data).bind jAsStr,
              (jGet j "tool_id".data).bind jAsStr,
              jGet j "input".data with
        | some n, some i, some inp => some (.toolUse n i inp)
        | _, _, _ => none
      else if t = "tool_result".data then
        match (jGet j "tool_id".data).bind jAsStr,
              (jGet j "output".data).bind jAsStr,
              (jGet j "is_error".data).bind jAsBool with
        | some i, some out, some err => some (.toolResult i out err)
        | _, _, _ => none
      else if t = "thinking".data then
        ((jGet j "text".data).bind jAsStr).map .thinking
      else none
  | none => none

/-- serde decoding of `TranscriptEntry`. -/
def decodeEntry (j : Json) : Option TranscriptEntry :=
  match ((jGet j "timestamp".data).bind jAsStr).bind tsParse?,
        ((jGet j "role".data).bind jAsStr).bind roleOfStr?,
        (jGet j "content".data).bind decodeContent with
  | some ts, some r, some c =>
      match jGet j "token_count".data with
      | none => some { timestamp := ts, role := r, content := c, token_count := none }
      | some (.num n) =>
          if n < 0 then none
          else some { timestamp := ts, role := r, content := c, token_count := some n.toNat }
      | some _ => none
  | _, _, _ => none

/-- Model of `Transcript::to_jsonl`: one compact JSON object per entry,
each followed by a newline. -/
def toJsonl (t : Transcript) : Str :=
  (t.entries.map (fun e => printJson (encodeEntry e) ++ ['\n'])).flatten

/-- Parse one JSONL line (model of `serde_json::from_str::<TranscriptEntry>`:
parse a value, insist on end of input after trailing whitespace, decode). -/
def lineDecode (line : Str) : Option TranscriptEntry :=
  match parseVal (line.length + 1) line with
  | some (j, rest) => if skipWs rest = [] then decodeEntry j else none
  | none => none

/-- Model of `Transcript::from_jsonl`: split lines, skip blank ones, parse
each; any line failure fails the whole read. -/
def fromJsonl (s : Str) : Option Transcript :=
  (((rustLines s).filter (fun l => trim l ≠ [])).mapM lineDecode).map Transcript.mk

/-! ## SHA-256 (model of the `sha2` crate, FIPS 180-4, over byte lists) -/

/-- Truncate to 32 bits. -/
def w32 (x : Nat) : Nat := x % 4294967296

/-- 32-bit rotate right. -/
def rotr32 (n x : Nat) : Nat := (x >>> n) + ((x % 2 ^ n) <<< (32 - n))

/-- 32-bit bitwise complement. -/
def notW (x : Nat) : Nat := 4294967295 - w32 x

/-- SHA-256 `Ch`. -/
def shaCh (x y z : Nat) : Nat := (x &&& y) ^^^ (notW x &&& z)

/-- SHA-256 `Maj`. -/
def shaMaj (x y z : Nat) : Nat := (x &&& y) ^^^ (x &&& z) ^^^ (y &&& z)

/-- SHA-256 `Σ0`. -/
def bSig0 (x : Nat) : Nat := rotr32 2 x ^^^ rotr32 13 x ^^^ rotr32 22 x

/-- SHA-256 `Σ1`. -/
def bSig1 (x : Nat) : Nat := rotr32 6 x ^^^ rotr32 11 x ^^^ rotr32 25 x

/-- SHA-256 `σ0`. -/
def sSig0 (x : Nat) : Nat := rotr32 7 x ^^^ rotr32 18 x ^^^ (x >>> 3)

/-- SHA-256 `σ1`. -/
def sSig1 (x : Nat) : Nat := rotr32 17 x ^^^ rotr32 19 x ^^^ (x >>> 10)

/-- The 64 SHA-256 round constants (FIPS 180-4 §4.2.2, in decimal). -/
def shaK : List Nat :=
  [1116352408, 1899447441, 3049323471, 3921009573, 961987163, 1508970993,
   2453635748, 2870763221, 3624381080, 310598401, 607225278, 1426881987,
   1925078388, 2162078206, 2614888103, 3248222580, 3835390401, 4022224774,
   264347078, 604807628, 770255983, 1249150122, 1555081692, 1996064986,
   2554220882, 2821834349, 2952996808, 3210313671, 3336571891, 3584528711,
   113926993, 338241895, 666307205, 773529912, 1294757372, 1396182291,
   1695183700, 1986661051, 2177026350, 2456956037, 2730485921, 2820302411,
   3259730800, 3345764771, 3516065817, 3600352804, 4094571909, 275423344,
   430227734, 506948616, 659060556, 883997877, 958139571, 1322822218,
   1537002063, 1747873779, 1955562222, 2024104815, 2227730452, 2361852424,
   2428436474, 2756734187, 3204031479, 3329325298]

/-- The initial SHA-256 hash state (FIPS 180-4 §5.3.3, in decimal). -/
def shaH0 : List Nat :=
  [1779033703, 3144134277, 1013904242, 2773480762,
   1359893119, 2600822924, 528734635, 1541459225]

/-- Big-endian 8-byte encoding. -/
def be64 (n : Nat) : List Nat :=
  [n >>> 56 % 256, n >>> 48 % 256, n >>> 40 % 256, n >>> 32 % 256,
   n >>> 24 % 256, n >>> 16 % 256, n >>> 8 % 256, n % 256]

/-- SHA-256 message padding. -/
def sha256Pad (msg : List Nat) : List Nat :=
  let z := (119 - msg.length % 64) % 64
  msg ++ [128] ++ List.replicate z 0 ++ be64 (msg.length * 8)

/-- Group bytes into big-endian 32-bit words. -/
def bytesToWords : List Nat → List Nat
  | a :: b :: c :: d :: rest => (((a * 256 + b) * 256 + c) * 256 + d) :: bytesToWords rest
  | _ => []

/-- Split a word list into 16-word blocks. -/
def chunk16 : List Nat → List (List Nat)
  | [] => []
  | w :: rest => ((w :: rest).take 16) :: chunk16 ((w :: rest).drop 16)
termination_by ws => ws.length
decreasing_by simp; omega

/-- Extend the 16-word block by `fuel` scheduled words. -/
def extendW (w : List Nat) : Nat → List Nat
  | 0 => w
  | fuel + 1 =>
      let l := w.length
      extendW (w ++ [w32 (sSig1 (w.getD (l - 2) 0) + w.getD (l - 7) 0 +
                          sSig0 (w.getD (l - 15) 0) + w.getD (l - 16) 0)]) fuel

/-- The eight working variables of the compression loop. -/
structure Sha8 where
  a : Nat
  b : Nat
  c : Nat
  d : Nat
  e : Nat
  f : Nat
  g : Nat
  h : Nat

/-- One compression round. -/
def shaRound (st : Sha8) (kw : Nat × Nat) : Sha8 :=
  let t1 := w32 (st.h + bSig1 st.e + shaCh st.e st.f st.g + kw.1 + kw.2)
  let t2 := w32 (bSig0 st.a + shaMaj st.a st.b st.c)
  { a := w32 (t1 + t2), b := st.a, c := st.b, d := st.c,
    e := w32 (st.d + t1), f := st.e, g := st.f, h := st.g }

/-- Compress one 16-word block into the hash state. -/
def shaCompress (hs : List Nat) (block : List Nat) : List Nat :=
  let w := extendW block 48
  let st0 : Sha8 :=
    { a := hs.getD 0 0, b := hs.getD 1 0, c := hs.getD 2 0, d := hs.getD 3 0,
      e := hs.getD 4 0, f := hs.getD 5 0, g := hs.getD 6 0, h := hs.getD 7 0 }
  let st := (shaK.zip w).foldl shaRound st0
  List.zipWith (fun x y => w32 (x + y)) hs [st.a, st.b, st.c, st.d, st.e, st.f, st.g, st.h]

/-- SHA-256 digest (32 bytes) of a byte list. -/
def sha256 (msg : List Nat) : List Nat :=
  let hs := (chunk16 (bytesToWords (sha256Pad msg))).foldl shaCompress shaH0
  (hs.map (fun w => [w >>> 24 % 256, w >>> 16 % 256, w >>> 8 % 256, w % 256])).flatten

/-- Lowercase hex of one byte. -/
def hexByte (b : Nat) : Str := [digCh16 (b / 16), digCh16 (b % 16)]

/-- Model of `format!("{:x}", Sha256::digest(bytes))`. -/
def sha256Hex (msg : List Nat) : Str := ((sha256 msg).map hexByte).flatten

/-- UTF-8 encoding of a character (model of `str::as_bytes`). -/
def utf8Enc (c : Char) : List Nat :=
  let n := c.toNat
  if n < 128 then [n]
  else if n < 2048 then [192 + n / 64, 128 + n % 64]
  else if n < 65536 then [224 + n / 4096, 128 + n / 64 % 64, 128 + n % 64]
  else [240 + n / 262144, 128 + n / 4096 % 64, 128 + n / 64 % 64, 128 + n % 64]

/-- UTF-8 bytes of a string. -/
def strBytes (s : Str) : List Nat := (s.map utf8Enc).flatten

/-! ## C8 / C1 (Aider leg): the Aider importer
(`engram-capture/src/import/aider.rs`) -/

/-- Model of the simple decimal subset of `str::parse::<f64>` that the
token lines exercise (`D+`, `D+.D*`, `.D+`); exact rational arithmetic
stands in for `f64`. -/
def parseDecimalQ (s : Str) : Option ℚ :=
  match splitChar '.' s with
  | [ip] => if ip ≠ [] ∧ ip.all Char.isDigit then some ((digitsVal ip : ℚ)) else none
  | [ip, fp] =>
      if (ip ≠ [] ∨ fp ≠ []) ∧ ip.all Char.isDigit ∧ fp.all Char.isDigit then
        some ((digitsVal ip : ℚ) + (digitsVal fp : ℚ) / (10 ^ fp.length : ℚ))
      else none
  | _ => none

/-- `as u64` on the nonnegative values this code produces. -/
def ratTruncToNat (q : ℚ) : Nat := q.floor.toNat

/-- Model of `str::strip_suffix(char)`. -/
def stripSuffixCh (c : Char) (s : Str) : Option Str :=
  match s.getLast? with
  | some l => if l = c then some s.dropLast else none
  | none => none

/-- Model of `extract_token_count`. -/
def extractTokenCount (s : Str) : Option Nat := go (splitWs s)
where
  /-- scan the whitespace-separated words -/
  go : List Str → Option Nat
  | [] => none
  | w :: ws =>
      let word := trimMatches
        (fun c => !(c.isDigit || c = '.' || c = 'k' || c = 'K' || c = 'm' || c = 'M')) w
      if word = [] then go ws
      else
        match (stripSuffixCh 'k' word).orElse (fun _ => stripSuffixCh 'K' word) with
        | some numStr =>
            match parseDecimalQ numStr with
            | some q => some (ratTruncToNat (q * 1000))
            | none => go ws
        | none =>
            match (stripSuffixCh 'm' word).orElse (fun _ => stripSuffixCh 'M' word) with
            | some numStr =>
                match parseDecimalQ numStr with
                | some q => some (ratTruncToNat (q * 1000000))
                | none => go ws
            | none =>
                match digitsToNat? word with
                | some n => some n
                | none => go ws

/-- Model of `extract_cost`. -/
def extractCost (s : Str) : Option ℚ := go (splitWs s)
where
  /-- scan the whitespace-separated words -/
  go : List Str → Option ℚ
  | [] => none
  | w :: ws =>
      match stripPre "$".data w with
      | some numStr =>
          match parseDecimalQ numStr with
          | some c => some c
          | none => go ws
      | none => go ws

/-- Model of `parse_token_line`: fold the comma-separated parts into the
running `(sent, received, cost)` accumulators. -/
def parseTokenLine (line : Str) (sent received : Nat) (cost : ℚ) : Nat × Nat × ℚ :=
  (splitChar ',' line).foldl
    (fun acc part0 =>
      let part := trim part0
      let acc1 :=
        if containsSub "sent".data part then
          match extractTokenCount part with
          | some n => (acc.1 + n, acc.2.1, acc.2.2)
          | none => acc
        else acc
      let acc2 :=
        if containsSub "received".data part then
          match extractTokenCount part with
          | some n => (acc1.1, acc1.2.1 + n, acc1.2.2)
          | none => acc1
        else acc1
      if containsSub "$".data part then
        match extractCost part with
        | some c => (acc2.1, acc2.2.1, acc2.2.2 + c)
        | none => acc2
      else acc2)
    (sent, received, cost)

/-- Accumulator of `parse_aider_session`'s line loop. -/
structure AiderAcc where
  entries : List TranscriptEntry := []
  original_request : Str := []
  sent : Nat := 0
  received : Nat := 0
  cost : ℚ := 0
  role : Option Role := none
  text : Str := []

/-- Model of `flush_entry`. -/
def flushEntry (entries : List TranscriptEntry) (role : Option Role) (text : Str)
    (now : Nat) : List TranscriptEntry :=
  match role with
  | some r =>
      let t := trim text
      if t = [] then entries
      else entries ++ [{ timestamp := now, role := r, content := .text t, token_count := none }]
  | none => entries

/-- One line of `parse_aider_session`'s loop. -/
def aiderStep (now : Nat) (st : AiderAcc) (line : Str) : AiderAcc :=
  match stripPre "#### ".data line with
  | some userMsg =>
      let entries := flushEntry st.entries st.role st.text now
      let msg := trim userMsg
      let or2 := if st.original_request = [] ∧ msg ≠ [] then msg else st.original_request
      let entries2 :=
        if msg ≠ [] then
          entries ++ [{ timestamp := now, role := .user, content := .text msg, token_count := none }]
        else entries
      { st with entries := entries2, original_request := or2, role := none, text := [] }
  | none =>
      if startsWith "> ".data line then
        let toolText := (stripPre "> ".data line).getD line
        if startsWith "Tokens:".data toolText then
          let r := parseTokenLine toolText st.sent st.received st.cost
          { st with sent := r.1, received := r.2.1, cost := r.2.2 }
        else st
      else if line ≠ [] then
        let role := if st.role = none then some .assistant else st.role
        let text := (if st.text ≠ [] then st.text ++ ['\n'] else st.text) ++ line
        { st with role := role, text := text }
      else st

/-- The ≤100-byte summary snippet shared by the importers: a maximal prefix
of whole characters within `n` bytes (`&s[..100]` on the ASCII inputs the
code slices). -/
def takeBytes (n : Nat) : Str → Str
  | [] => []
  | c :: cs => if c.utf8Size ≤ n then c :: takeBytes (n - c.utf8Size) cs else []

/-- The importers' summary rule: truncate at 100 bytes with `"..."`, fall
back to a fixed label when the request is empty. -/
def summaryOf (fallback orig : Str) : Str :=
  if 100 < byteLen orig then takeBytes 100 orig ++ "...".data
  else if orig = [] then fallback
  else orig

/-- Model of `parse_aider_session`. `now` is the single `Utc::now()` instant
the Rust function takes at entry. The function never returns `Err`, so the
`Result` wrapper is dropped. -/
def parseAiderSession (now : Nat) (sessionText : Str) : Option EngramData :=
  let st := (rustLines sessionText).foldl (aiderStep now) {}
  let entries := flushEntry st.entries st.role st.text now
  if entries = [] then none
  else
    let usage : TokenUsage :=
      { input_tokens := st.sent
        output_tokens := st.received
        total_tokens := st.sent + st.received
        cost_usd := if 0 < st.cost then some st.cost else none }
    let summ := summaryOf "Imported Aider session".data st.original_request
    some
      { manifest :=
          { id := []
            version := 1
            created_at := now
            finished_at := some now
            agent := { name := "aider".data }
            git_commits := []
            token_usage := usage
            summary := some summ
            tags := []
            capture_mode := .imported
            source_hash := none }
        intent :=
          { original_request :=
              if st.original_request = [] then "Imported Aider session".data
              else st.original_request
            interpreted_goal := none
            summary := some summ
            dead_ends := []
            decisions := [] }
        transcript := { entries := entries }
        operations := {}
        lineage := {} }

/-- Model of `str::split` for a literal pattern (every non-overlapping
occurrence, left to right); fuel-driven, `s.length` steps always suffice
because each split consumes at least one character. -/
def splitSubAux (pat : Str) : Nat → Str → List Str
  | 0, s => [s]
  | fuel + 1, s =>
      match splitOnceSub pat s with
      | none => [s]
      | some (a, b) => a :: splitSubAux pat fuel b

/-- Model of `str::split` for a literal nonempty pattern. -/
def splitSub (pat s : Str) : List Str :=
  if pat = [] then [s] else splitSubAux pat s.length s

/-- Model of `parse_aider_history`: split at session markers, parse each
piece after the first, and fall back to the whole file when no session
produced entries. -/
def parseAiderHistory (now : Nat) (content : Str) : List EngramData :=
  let sessions := splitSub "# aider chat started at".data content
  let engrams := (sessions.drop 1).filterMap (parseAiderSession now)
  if engrams = [] ∧ trim content ≠ [] then
    match parseAiderSession now content with
    | some e => [e]
    | none => []
  else engrams

/-- The per-sub-session source hash: `SHA256("<file-hash>:<index>")`. -/
def sessionSourceHash (fileHash : Str) (i : Nat) : Str :=
  sha256Hex (strBytes (fileHash ++ ":".data ++ natDigits i))

/-- Model of `AiderImporter::import_history` (after the file read): hash the
file, parse the sessions, and stamp the `i`-th session with
`SHA256(file_hash:i)`. -/
def importHistory (now : Nat) (content : Str) : List EngramData :=
  let fileHash := sha256Hex (strBytes content)
  (parseAiderHistory now content).mapIdx (fun i e =>
    { e with manifest := { e.manifest with source_hash := some (sessionSourceHash fileHash i) } })

/-! ## C10 / C1 (Claude Code leg): the Claude Code importer
(`engram-capture/src/import/claude_code.rs`)

The session dump is modelled after serde's line-by-line decoding: a list of
`ClaudeEntry` records (unparseable JSONL lines are skipped by the Rust code
before this loop, and timestamps arrive as `Option`, the result of
`t.parse::<DateTime<Utc>>().ok()`). -/

/-- Model of the `ClaudeUsage` serde struct. -/
structure ClaudeUsage where
  input_tokens : Option Nat := none
  output_tokens : Option Nat := none
  cache_creation_input_tokens : Option Nat := none
  cache_read_input_tokens : Option Nat := none
deriving DecidableEq

/-- Model of the `ClaudeMessage` serde struct (`content` defaults to
`Value::Null`). -/
structure ClaudeMessage where
  role : Str
  content : Json := .null
  model : Option Str := none
  usage : Option ClaudeUsage := none
deriving DecidableEq

/-- Model of the `ClaudeEntry` serde struct (the unused `uuid` fields are
omitted). -/
structure ClaudeEntry where
  entry_type : Str
  timestamp : Option Nat := none
  message : Option ClaudeMessage := none
  is_sidechain : Option Bool := none
deriving DecidableEq

/-- The importer's loop accumulator (the local mutable variables of
`parse_claude_code_session`). -/
structure ClaudeAcc where
  first_timestamp : Option Nat := none
  last_timestamp : Option Nat := none
  model_name : Option Str := none
  token_usage : TokenUsage := {}
  transcript_entries : List TranscriptEntry := []
  tool_calls : List ToolCall := []
  file_changes : List FileChange := []
  original_request : Str := []
deriving DecidableEq

/-- Process one content block of a Claude message (the body of the
`for block in blocks` loop). -/
def claudeBlockStep (now : Nat) (role : Role) (ts : Option Nat) (acc : ClaudeAcc)
    (block : Json) : ClaudeAcc :=
  let blockType := ((jGet block "type".data).bind jAsStr).getD []
  if blockType = "text".data then
    let text := ((jGet block "text".data).bind jAsStr).getD []
    let acc :=
      if role = .user ∧ acc.original_request = [] then { acc with original_request := text }
      else acc
    { acc with transcript_entries := acc.transcript_entries ++
        [{ timestamp := ts.getD now, role := role, content := .text text, token_count := none }] }
  else if blockType = "tool_use".data then
    let toolName := ((jGet block "name".data).bind jAsStr).getD "unknown".data
    let toolId := ((jGet block "id".data).bind jAsStr).getD []
    let input := (jGet block "input".data).getD .null
    let acc :=
      if toolName = "Write".data ∨ toolName = "Edit".data ∨ toolName = "NotebookEdit".data then
        match (jGet input "file_path".data).bind jAsStr with
        | some path =>
            let changeType : FileChangeType :=
              if toolName = "Write".data then .created else .modified
            if acc.file_changes.any (fun fc => fc.path = path) then acc
            else
              { acc with file_changes := acc.file_changes ++
                  [{ path := path, change_type := changeType,
                     lines_added := none, lines_removed := none }] }
        | none => acc
      else acc
    let acc :=
      { acc with tool_calls := acc.tool_calls ++
          ([{ timestamp := ts.getD now, tool_name := toolName, input := input,
              output_summary := none, duration_ms := none, is_error := false }] :
            List ToolCall) }
    { acc with transcript_entries := acc.transcript_entries ++
        ([{ timestamp := ts.getD now, role := role,
            content := .toolUse toolName toolId input, token_count := none }] :
          List TranscriptEntry) }
  else if blockType = "tool_result".data then
    let toolId := ((jGet block "tool_use_id".data).bind jAsStr).getD []
    let output := ((jGet block "content".data).bind jAsStr).getD []
    let isErr := ((jGet block "is_error".data).bind jAsBool).getD false
    { acc with transcript_entries := acc.transcript_entries ++
        [{ timestamp := ts.getD now, role := .tool,
           content := .toolResult toolId output isErr, token_count := none }] }
  else if blockType = "thinking".data then
    let text := ((jGet block "thinking".data).bind jAsStr).getD []
    if text ≠ [] then
      { acc with transcript_entries := acc.transcript_entries ++
          [{ timestamp := ts.getD now, role := role, content := .thinking text,
             token_count := none }] }
    else acc
  else acc

/-- The timestamp bookkeeping at the top of the entry loop. -/
def claudeTsUpdate (acc : ClaudeAcc) (ts : Option Nat) : ClaudeAcc :=
  match ts with
  | some t =>
      { acc with
        first_timestamp := if acc.first_timestamp = none then some t else acc.first_timestamp
        last_timestamp := some t }
  | none => acc

/-- Capture the model name from the first assistant message. -/
def claudeModelUpdate (acc : ClaudeAcc) (msg : ClaudeMessage) : ClaudeAcc :=
  if msg.role = "assistant".data ∧ acc.model_name = none then
    { acc with model_name := msg.model }
  else acc

/-- Accumulate the four token-usage counters of one message. -/
def claudeUsageUpdate (acc : ClaudeAcc) (msg : ClaudeMessage) : ClaudeAcc :=
  match msg.usage with
  | some usage =>
      { acc with token_usage :=
          { acc.token_usage with
            input_tokens := acc.token_usage.input_tokens + usage.input_tokens.getD 0
            output_tokens := acc.token_usage.output_tokens + usage.output_tokens.getD 0
            cache_read_tokens :=
              acc.token_usage.cache_read_tokens + usage.cache_read_input_tokens.getD 0
            cache_write_tokens :=
              acc.token_usage.cache_write_tokens + usage.cache_creation_input_tokens.getD 0 } }
  | none => acc

/-- The `match msg.role … _ => continue` dispatch. -/
def claudeRole? (msg : ClaudeMessage) : Option Role :=
  if msg.role = "user".data then some .user
  else if msg.role = "assistant".data then some .assistant
  else none

/-- Process the content of one message (string body or block array). -/
def claudeContentStep (now : Nat) (role : Role) (ts : Option Nat) (acc : ClaudeAcc) :
    Json → ClaudeAcc
  | .str text =>
      let acc :=
        if role = .user ∧ acc.original_request = [] then
          { acc with original_request := text }
        else acc
      { acc with transcript_entries := acc.transcript_entries ++
          [{ timestamp := ts.getD now, role := role, content := .text text,
             token_count := none }] }
  | .arr blocks => blocks.toList.foldl (claudeBlockStep now role ts) acc
  | _ => acc

/-- Process one decoded message. -/
def claudeMsgStep (now : Nat) (ts : Option Nat) (acc : ClaudeAcc) (msg : ClaudeMessage) :
    ClaudeAcc :=
  let acc := claudeModelUpdate acc msg
  let acc := claudeUsageUpdate acc msg
  match claudeRole? msg with
  | none => acc
  | some role => claudeContentStep now role ts acc msg.content

/-- Process one entry of the session (the body of the `for entry in
&entries` loop). -/
def claudeStep (now : Nat) (acc : ClaudeAcc) (entry : ClaudeEntry) : ClaudeAcc :=
  if entry.entry_type ≠ "user".data ∧ entry.entry_type ≠ "assistant".data then acc
  else if entry.is_sidechain = some true then acc
  else
    let ts := entry.timestamp
    let acc := claudeTsUpdate acc ts
    match entry.message with
    | none => acc
    | some msg => claudeMsgStep now ts acc msg

/-- Model of `parse_claude_code_session` (after serde decoding).
`agentVersion` is the `version` field read from the first raw JSONL line, a
stage outside this loop. -/
def parseClaudeCodeSession (now : Nat) (entries : List ClaudeEntry)
    (agentVersion : Option Str) : EngramData :=
  let acc := entries.foldl (claudeStep now) {}
  let usage :=
    { acc.token_usage with
      total_tokens :=
        acc.token_usage.input_tokens + acc.token_usage.output_tokens +
        acc.token_usage.cache_read_tokens + acc.token_usage.cache_write_tokens }
  let createdAt := acc.first_timestamp.getD now
  let finishedAt := acc.last_timestamp.getD now
  let summ := summaryOf "Imported Claude Code session".data acc.original_request
  { manifest :=
      { id := []
        version := 1
        created_at := createdAt
        finished_at := some finishedAt
        agent := { name := "claude-code".data, model := acc.model_name, version := agentVersion }
        git_commits := []
        token_usage := usage
        summary := some summ
        tags := []
        capture_mode := .imported
        source_hash := none }
    intent :=
      { original_request :=
          if acc.original_request = [] then "Imported Claude Code session".data
          else acc.original_request
        interpreted_goal := none
        summary := some summ
        dead_ends := []
        decisions := [] }
    transcript := { entries := acc.transcript_entries }
    operations :=
      { tool_calls := acc.tool_calls
        file_changes := acc.file_changes
        shell_commands := [] }
    lineage := {} }

/-- The qualifying file event of one content block: the `(tool_name,
file_path)` pair the file-change tracker inspects for a `tool_use` block of
a `Write`/`Edit`/`NotebookEdit` tool carrying a string `file_path`. This is
the specification-side view against which C10 is stated. -/
def blockEvents (block : Json) : List (Str × Str) :=
  if ((jGet block "type".data).bind jAsStr).getD [] = "tool_use".data then
    let toolName := ((jGet block "name".data).bind jAsStr).getD "unknown".data
    let input := (jGet block "input".data).getD .null
    if toolName = "Write".data ∨ toolName = "Edit".data ∨
       toolName = "NotebookEdit".data then
      match (jGet input "file_path".data).bind jAsStr with
      | some path => [(toolName, path)]
      | none => []
    else []
  else []

/-- The qualifying file events of one decoded message (empty unless the
message has a processed role and an array body). -/
def msgEvents (msg : ClaudeMessage) : List (Str × Str) :=
  if msg.role = "user".data ∨ msg.role = "assistant".data then
    match msg.content with
    | .arr blocks => blocks.toList.flatMap blockEvents
    | _ => []
  else []

/-- The qualifying file events of one session entry (empty unless the entry
is a processed, non-sidechain user/assistant message with an array body). -/
def entryEvents (entry : ClaudeEntry) : List (Str × Str) :=
  if entry.entry_type ≠ "user".data ∧ entry.entry_type ≠ "assistant".data then []
  else if entry.is_sidechain = some true then []
  else
    match entry.message with
    | none => []
    | some msg => msgEvents msg

/-- All qualifying file events of a session, in processing order. -/
def claudeFileEvents (entries : List ClaudeEntry) : List (Str × Str) :=
  entries.flatMap entryEvents

/-- The change kind the importer records for a qualifying tool
(`Created` for `Write`, `Modified` otherwise). -/
def claudeChangeKind (tool : Str) : FileChangeType :=
  if tool = "Write".data then .created else .modified

/-- The file-change tracker's push: add an entry for the event's path
unless one is already present. -/
def pushIfNew (fcs : List FileChange) (ev : Str × Str) : List FileChange :=
  if fcs.any (fun fc => fc.path = ev.2) then fcs
  else fcs ++ [{ path := ev.2, change_type := claudeChangeKind ev.1 }]

/-! ## Spec-side predicates for C5 -/

/-- A line that `Intent::from_markdown` treats as a section heading. -/
def headerLine (l : Str) : Bool :=
  startsWith "# Intent".data l ||
  startsWith "## Original Request".data l ||
  startsWith "## Interpreted Goal".data l ||
  startsWith "## Summary".data l ||
  startsWith "## Dead Ends".data l ||
  startsWith "## Decisions".data l

/-- "Section-header-safe" as the claim words it: no line of the field
begins with one of the fixed section headings. -/
def sectionHeaderSafeStr (s : Str) : Bool :=
  (rustLines s).all (fun l => !headerLine l)

/-- The claim's hypothesis: every field of the Intent contains
section-header-safe content. -/
def sectionHeaderSafeIntent (i : Intent) : Bool :=
  sectionHeaderSafeStr i.original_request &&
  i.interpreted_goal.all sectionHeaderSafeStr &&
  i.summary.all sectionHeaderSafeStr &&
  i.dead_ends.all (fun de => sectionHeaderSafeStr de.approach && sectionHeaderSafeStr de.reason) &&
  i.decisions.all (fun d => sectionHeaderSafeStr d.description && sectionHeaderSafeStr d.rationale)

/-- Round-trip safety of a block field (request / goal / summary): no
heading-shaped line, no carriage returns, and stable under `trim` (the
parser trims each section body). -/
def blockSafe (s : Str) : Bool :=
  trim s = s && !s.contains '\r' && (rustLines s).all (fun l => !headerLine l)

/-- The list-item separator `**: `. -/
def itemSep : Str := "**: ".data

/-- Round-trip safety of one `- **key**: value` list item: both fields are
single-line without carriage returns, and the separator written between
them is its own first occurrence. -/
def itemSafe (a r : Str) : Bool :=
  !a.contains '\n' && !r.contains '\n' && !a.contains '\r' && !r.contains '\r' &&
  !containsSub itemSep ((a ++ itemSep).dropLast)

/-- The amended hypothesis of C5: all fields round-trip-safe, optional
block fields nonempty. -/
def safeIntent (i : Intent) : Bool :=
  blockSafe i.original_request &&
  i.interpreted_goal.all (fun g => blockSafe g && g ≠ []) &&
  i.summary.all (fun s => blockSafe s && s ≠ []) &&
  i.dead_ends.all (fun de => itemSafe de.approach de.reason) &&
  i.decisions.all (fun d => itemSafe d.description d.rationale)

/-- The C5 counterexample: a dead-end approach containing the separator.
Every field is section-header-safe, yet the separator `**: ` inside the
approach shifts the parse split. -/
def cexIntent : Intent :=
  { original_request := "Fix".data
    dead_ends := [{ approach := "x**: y".data, reason := "z".data }] }

/-- The C9 counterexample input: three dead-end lines whose first and third
approaches coincide but are separated by a different one, so the adjacent
`dedup_by` keeps both. -/
def cexInsightText : Str :=
  "tried aa but xx\ntried bb but yy\ntried aa but zz\n".data

/-- Newline-prefixed concatenation of lines (the shape `Intent::from_markdown`
builds when it pushes `'\n'` before each accumulated line). -/
def nlTail (ls : List Str) : Str := (ls.map (fun l => '\n' :: l)).flatten

/-- Join lines with newlines (inverse of line splitting on `'\n'`). -/
def nlJoin : List Str → Str
  | [] => []
  | l :: ls => l ++ nlTail ls

/-- The Interpreted Goal block of `Intent::to_markdown` (empty when absent). -/
def goalSeg : Option Str → Str
  | some g => "\n## Interpreted Goal\n\n".data ++ g ++ ['\n']
  | none => []

/-- The Summary block of `Intent::to_markdown` (empty when absent). -/
def sumSeg : Option Str → Str
  | some s => "\n## Summary\n\n".data ++ s ++ ['\n']
  | none => []

/-- The Dead Ends block of `Intent::to_markdown` (empty when the list is). -/
def deSeg (des : List DeadEnd) : Str :=
  if des = [] then [] else
    "\n## Dead Ends\n\n".data ++
      (des.map (fun de =>
        "- **".data ++ de.approach ++ "**: ".data ++ de.reason ++ ['\n'])).flatten

/-- The Decisions block of `Intent::to_markdown` (empty when the list is). -/
def decSeg (dcs : List Decision) : Str :=
  if dcs = [] then [] else
    "\n## Decisions\n\n".data ++
      (dcs.map (fun d =>
        "- **".data ++ d.description ++ "**: ".data ++ d.rationale ++ ['\n'])).flatten

/-- Run `Intent::from_markdown`'s loop over a piece of text from a given
state and apply the final `save_section`. -/
def mdRun (st : MdState) (s : Str) : MdState :=
  saveSection ((rustLines s).foldl mdStep st)

/-- A fully populated round-trip-safe intent (concrete instance of the
amended C5 hypothesis). -/
def wIntent : Intent :=
  { original_request := "Fix the flaky retry loop".data
    interpreted_goal := some "Make retries deterministic".data
    summary := some "Rewrote the backoff logic".data
    dead_ends := [{ approach := "hard sleeps".data, reason := "still flaky".data }]
    decisions := [{ description := "inject clock".data, rationale := "testable".data }] }

/-- A vacuous record (used as the `Option.getD` default in statements that
index into an import's output; its token usage trivially satisfies the
accounting invariant). -/
def emptyEngram : EngramData :=
  { manifest := { agent := { name := [] }, capture_mode := .sdk }
    intent := { original_request := [] }
    transcript := {}
    operations := {}
    lineage := {} }

/-! # Theorems -/

/-! ## Generic string lemmas -/

theorem startsWith_iff {p s : Str} : startsWith p s = true ↔ p <+: s := by
  simp [startsWith, List.isPrefixOf_iff_prefix]

theorem startsWith_append (p r : Str) : startsWith p (p ++ r) = true :=
  startsWith_iff.mpr (List.prefix_append p r)

theorem stripPre_append (p r : Str) : stripPre p (p ++ r) = some r := by
  simp [stripPre, startsWith_append, List.drop_left]

theorem stripPre_eq_some {p s r : Str} (h : stripPre p s = some r) : s = p ++ r := by
  unfold stripPre at h
  split at h
  · rename_i hs
    obtain ⟨t, ht⟩ := startsWith_iff.mp hs
    cases h
    subst ht
    simp [List.drop_left]
  · exact absurd h (by simp)

theorem containsSub_cons (pat : Str) (c : Char) (rest : Str) :
    containsSub pat (c :: rest) = (startsWith pat (c :: rest) || containsSub pat rest) := by
  simp [containsSub]

theorem containsSub_of_eq_append {pat s a b : Str} (h : s = a ++ (pat ++ b)) :
    containsSub pat s = true := by
  subst h
  induction a with
  | nil =>
      cases hp : pat ++ b with
      | nil =>
          have : pat = [] := by
            cases pat with
            | nil => rfl
            | cons c t => simp at hp
          simp [containsSub, this]
      | cons c t =>
          rw [List.nil_append, containsSub_cons]
          have hsw : startsWith pat (c :: t) = true := by
            rw [← hp]; exact startsWith_append pat b
          rw [hsw]
          simp
  | cons x a' ih =>
      rw [List.cons_append, containsSub_cons, ih]
      simp

/-! ## C1 helper lemmas -/

theorem tokenInvariant_addTokens {u : TokenUsage} (h : tokenInvariant u)
    (inp outp : Nat) (cost : Option ℚ) : tokenInvariant (addTokens u inp outp cost) := by
  unfold tokenInvariant addTokens at *
  simp only
  omega

theorem tokenInvariant_sdk_foldl (calls : List (Nat × Nat × Option ℚ)) :
    ∀ u : TokenUsage, tokenInvariant u →
      tokenInvariant (calls.foldl (fun u c => addTokens u c.1 c.2.1 c.2.2) u) := by
  induction calls with
  | nil => intro u h; exact h
  | cons c cs ih =>
      intro u h
      exact ih _ (tokenInvariant_addTokens h c.1 c.2.1 c.2.2)

theorem tokenInvariant_parseAiderSession {now : Nat} {txt : Str} {e : EngramData}
    (h : parseAiderSession now txt = some e) :
    tokenInvariant e.manifest.token_usage := by
  unfold parseAiderSession at h
  dsimp only at h
  split at h
  · exact absurd h (by simp)
  · cases h
    simp [tokenInvariant]

theorem tokenInvariant_parseAiderHistory {now : Nat} {content : Str} {e : EngramData}
    (h : e ∈ parseAiderHistory now content) :
    tokenInvariant e.manifest.token_usage := by
  unfold parseAiderHistory at h
  dsimp only at h
  split at h
  · split at h
    · rename_i e0 heq
      rcases List.mem_singleton.mp h with rfl
      exact tokenInvariant_parseAiderSession heq
    · exact absurd h (by simp)
  · obtain ⟨txt, _, hp⟩ := List.mem_filterMap.mp h
    exact tokenInvariant_parseAiderSession hp

theorem containsSub_append_left (pat a b : Str) (h : containsSub pat b = true) :
    containsSub pat (a ++ b) = true := by
  induction a with
  | nil => simp only [List.nil_append]; exact h
  | cons x a' ih => rw [List.cons_append, containsSub_cons, ih]; simp

theorem containsSub_of_startsWith {pat s : Str} (h : startsWith pat s = true) :
    containsSub pat s = true := by
  cases s with
  | nil =>
      have hp : pat = [] := List.prefix_nil.mp (startsWith_iff.mp h)
      simp [containsSub, hp]
  | cons c rest => rw [containsSub_cons, h]; simp

theorem getElem?_mapIdx (l : List α) (f : ℕ → α → β) (i : ℕ) :
    (l.mapIdx f)[i]? = (l[i]?).map (f i) := by
  by_cases h : i < l.length
  · have h' : i < (l.mapIdx f).length := by simp [List.length_mapIdx]; exact h
    rw [List.getElem?_eq_getElem h', List.getElem?_eq_getElem h]
    have hg := List.get_mapIdx l f i h h'
    simp only [List.get_eq_getElem] at hg
    simp [hg]
  · rw [List.getElem?_eq_none (by simpa [List.length_mapIdx] using Nat.le_of_not_lt h),
        List.getElem?_eq_none (Nat.le_of_not_lt h)]
    rfl

theorem importHistory_getElem? (now : Nat) (content : Str) (i : Nat) :
    (importHistory now content)[i]? =
      ((parseAiderHistory now content)[i]?).map (fun e =>
        { e with manifest := { e.manifest with
            source_hash := some (sessionSourceHash (sha256Hex (strBytes content)) i) } }) := by
  unfold importHistory
  exact getElem?_mapIdx _ _ i

/-! ## The claims C1, C2, C7 -/

/-- C1: on every manifest the system writes (Claude Code import, Aider
import, SDK session, PTY capture), `total_tokens` equals
`input_tokens + output_tokens + cache_read_tokens + cache_write_tokens`. -/
theorem C1_total_tokens_invariant :
    (∀ (now : Nat) (entries : List ClaudeEntry) (ver : Option Str),
        tokenInvariant (parseClaudeCodeSession now entries ver).manifest.token_usage) ∧
    (∀ (now : Nat) (content : Str) (i : Nat),
        tokenInvariant
          (((importHistory now content)[i]?).getD emptyEngram).manifest.token_usage) ∧
    (∀ calls : List (Nat × Nat × Option ℚ), tokenInvariant (sdkTokenUsage calls)) ∧
    tokenInvariant ptyTokenUsage := by
  refine ⟨?_, ?_, ?_, ?_⟩
  · intro now entries ver
    simp [parseClaudeCodeSession, tokenInvariant]
  · intro now content i
    rw [importHistory_getElem?]
    cases hq : (parseAiderHistory now content)[i]? with
    | none => simp [tokenInvariant, emptyEngram]
    | some e =>
        have he : e ∈ parseAiderHistory now content := List.getElem?_mem hq
        have hti := tokenInvariant_parseAiderHistory he
        simp only [tokenInvariant] at hti ⊢
        simpa using hti
  · intro calls
    exact tokenInvariant_sdk_foldl calls {} (by simp [tokenInvariant])
  · simp [tokenInvariant, ptyTokenUsage]

/-- C2: for every identifier `I` (identifiers are at least two characters),
the ref name is `refs/engrams/ + I[0:2] + / + I`, and every ref the system
builds lies under the `refs/engrams/` prefix. -/
theorem C2_ref_name (id : Str) (h : 2 ≤ id.length) :
    engramRefName id = "refs/engrams/".data ++ id.take 2 ++ "/".data ++ id ∧
    ∀ j : Str, "refs/engrams/".data <+: engramRefName j := by
  constructor
  · simp [engramRefName, fanout, h]
  · intro j
    unfold engramRefName
    simp only [← List.append_assoc]
    exact List.prefix_append _ _

/-- Witness for C2 at the identifier from the repository's own unit test. -/
theorem C2_ref_name_witness :
    engramRefName "abcdef1234567890abcdef1234567890".data =
      "refs/engrams/".data ++ ("abcdef1234567890abcdef1234567890".data).take 2 ++
        "/".data ++ "abcdef1234567890abcdef1234567890".data ∧
    "refs/engrams/".data <+: engramRefName "a".data :=
  ⟨(C2_ref_name "abcdef1234567890abcdef1234567890".data (by decide)).1,
   (C2_ref_name "abcdef1234567890abcdef1234567890".data (by decide)).2 "a".data⟩

theorem handleMsg_of_contains (s : ActiveSession) {m : Str}
    (h : containsSub "Engram-Id:".data m = true) :
    handlePrepareCommitMsg (some s) m = m := by
  simp [handlePrepareCommitMsg, h]

/-- C7: the prepare-commit-msg handler is a fixed point: applying it twice
to any commit-message file under any session state yields the same contents
as applying it once, because a message that already contains an
`Engram-Id:` trailer is left unchanged. -/
theorem C7_trailer_fixed_point (session : Option ActiveSession) (msg : Str) :
    handlePrepareCommitMsg session (handlePrepareCommitMsg session msg) =
      handlePrepareCommitMsg session msg := by
  cases session with
  | none => rfl
  | some s =>
      by_cases h : containsSub "Engram-Id:".data msg = true
      · rw [handleMsg_of_contains s h]
        exact handleMsg_of_contains s h
      · have hres : containsSub "Engram-Id:".data (handlePrepareCommitMsg (some s) msg) = true := by
          simp only [handlePrepareCommitMsg]
          rw [if_neg h]
          simp only [List.append_assoc]
          apply containsSub_append_left
          apply containsSub_append_left
          apply containsSub_of_startsWith
          exact startsWith_iff.mpr
            (List.IsPrefix.trans (by decide) (List.prefix_append "Engram-Id: ".data _))
        rw [handleMsg_of_contains s hres]

/-! ## C3: prefix resolution -/

theorem fanout_length (id : Str) : (fanout id).length = 2 := by
  unfold fanout
  split
  · simp; omega
  · rfl

theorem engramRefName_drop (id : Str) : (engramRefName id).drop 16 = id := by
  have hl : (("refs/engrams/".data ++ fanout id ++ "/".data)).length = 16 := by
    simp [fanout_length]
  unfold engramRefName
  rw [← hl]
  rw [List.append_assoc, List.append_assoc, ← List.append_assoc]
  exact List.drop_left _ _

theorem engramRefName_inj {a b : Str} (h : engramRefName a = engramRefName b) : a = b := by
  have := congrArg (List.drop 16) h
  rwa [engramRefName_drop, engramRefName_drop] at this

theorem resolve_exact_cond (stored : List Str) (p : Str) :
    (stored.any (fun id => engramRefName id = engramRefName p)) = true ↔ p ∈ stored := by
  constructor
  · intro h
    obtain ⟨id, hid, he⟩ := List.any_eq_true.mp h
    have := engramRefName_inj (of_decide_eq_true he)
    exact this ▸ hid
  · intro h
    exact List.any_eq_true.mpr ⟨p, h, by simp⟩

/-- C3: resolving a string `p` against the stored identifier set: an exact
match wins; otherwise a prefix of exactly one stored identifier resolves to
it, zero matches fail not-found, and two or more matches fail ambiguous. -/
theorem C3_prefix_resolution (stored : List Str) (p : Str) :
    (p ∈ stored → resolveEngramRef stored p = .ok p) ∧
    (p ∉ stored → ∀ x ∈ stored, startsWith p x = true →
      stored.countP (fun id => startsWith p id) = 1 →
      resolveEngramRef stored p = .ok x) ∧
    (p ∉ stored → stored.countP (fun id => startsWith p id) = 0 →
      resolveEngramRef stored p = .error .notFound) ∧
    (p ∉ stored → 2 ≤ stored.countP (fun id => startsWith p id) →
      resolveEngramRef stored p = .error .ambiguous) := by
  have hcount : stored.countP (fun id => startsWith p id) =
      (stored.filter (fun id => startsWith p id)).length :=
    List.countP_eq_length_filter _ _
  refine ⟨?_, ?_, ?_, ?_⟩
  · intro hmem
    unfold resolveEngramRef
    rw [if_pos ((resolve_exact_cond stored p).mpr hmem)]
  · intro hnm x hx hpx hone
    unfold resolveEngramRef
    rw [if_neg (fun hc => hnm ((resolve_exact_cond stored p).mp hc))]
    rw [hcount] at hone
    obtain ⟨y, hy⟩ := List.length_eq_one.mp hone
    have hxy : x ∈ stored.filter (fun id => startsWith p id) :=
      List.mem_filter.mpr ⟨hx, by simpa using hpx⟩
    rw [hy] at hxy ⊢
    rcases List.mem_singleton.mp hxy with rfl
    rfl
  · intro hnm hzero
    unfold resolveEngramRef
    rw [if_neg (fun hc => hnm ((resolve_exact_cond stored p).mp hc))]
    rw [hcount] at hzero
    rw [List.length_eq_zero.mp hzero]
  · intro hnm htwo
    unfold resolveEngramRef
    rw [if_neg (fun hc => hnm ((resolve_exact_cond stored p).mp hc))]
    rw [hcount] at htwo
    rcases hf : stored.filter (fun id => startsWith p id) with _ | ⟨a, _ | ⟨b, t⟩⟩
    · rw [hf] at htwo; simp at htwo
    · rw [hf] at htwo; simp at htwo
    · rfl

/-- Witness for C3: a two-element store, exercising the unique-prefix
branch on the inputs of the repository's `test_resolve_prefix`. -/
theorem C3_prefix_resolution_witness :
    resolveEngramRef ["abcc".data, "abcdef12".data] "abcd".data = .ok "abcdef12".data :=
  (C3_prefix_resolution ["abcc".data, "abcdef12".data] "abcd".data).2.1
    (by decide) "abcdef12".data (by decide) (by decide) (by decide)

/-! ## C4: snapshot diff -/

theorem snapKeys_val_eq {m : Snapshot} (h : (m.map Prod.fst).Nodup) {p : Str}
    {v w : List Nat} (h1 : (p, v) ∈ m) (h2 : (p, w) ∈ m) : v = w := by
  induction m with
  | nil => cases h1
  | cons e t ih =>
      rw [List.map_cons, List.nodup_cons] at h
      rcases List.mem_cons.mp h1 with h1 | h1 <;> rcases List.mem_cons.mp h2 with h2 | h2
      · rw [← h2] at h1
        exact congrArg Prod.snd h1
      · exact absurd (List.mem_map.mpr ⟨(p, w), h2, by rw [← h1]⟩) h.1
      · exact absurd (List.mem_map.mpr ⟨(p, v), h1, by rw [← h2]⟩) h.1
      · exact ih h.2 h1 h2

theorem snapGet_eq_none_iff {m : Snapshot} {p : Str} :
    snapGet m p = none ↔ p ∉ m.map Prod.fst := by
  unfold snapGet
  rw [Option.map_eq_none', List.find?_eq_none]
  constructor
  · intro h hp
    obtain ⟨e, he, hfst⟩ := List.mem_map.mp hp
    have hne : ¬ e.1 = p := by simpa using h e he
    exact hne hfst
  · intro h e he
    simp only [decide_eq_true_eq]
    intro hc
    exact h (List.mem_map.mpr ⟨e, he, hc⟩)

theorem mem_of_snapGet_eq_some {m : Snapshot} {p : Str} {v : List Nat}
    (h : snapGet m p = some v) : (p, v) ∈ m := by
  unfold snapGet at h
  rcases he : (m.find? fun e => e.1 = p) with _ | e
  · rw [he] at h; cases h
  · rw [he] at h
    have hmem := List.mem_of_find?_eq_some he
    have hfst : e.1 = p := by have := List.find?_some he; simpa using this
    have hv : e.2 = v := by simpa using h
    have heq : e = (p, v) := by cases e; simp_all
    exact heq ▸ hmem

theorem snapGet_eq_some_of_mem {m : Snapshot} (h : (m.map Prod.fst).Nodup) {p : Str}
    {v : List Nat} (hm : (p, v) ∈ m) : snapGet m p = some v := by
  rcases hw : snapGet m p with _ | w
  · exact absurd (List.mem_map.mpr ⟨(p, v), hm, rfl⟩) (snapGet_eq_none_iff.mp hw)
  · rw [snapKeys_val_eq h hm (mem_of_snapGet_eq_some hw)]

theorem mem_detectChanges_iff (before after : Snapshot) (c : FileChange) :
    c ∈ detectChanges before after ↔
      c ∈ after.filterMap (detectOne before) ∨ c ∈ before.filterMap (detectDel after) := by
  unfold detectChanges
  rw [List.mem_insertionSort, List.mem_append]

theorem detectOne_eq_some {before : Snapshot} {pa : Str × List Nat} {c : FileChange} :
    detectOne before pa = some c ↔
      (snapGet before pa.1 = none ∧ c = { path := pa.1, change_type := .created }) ∨
      (∃ bh, snapGet before pa.1 = some bh ∧ bh ≠ pa.2 ∧
        c = { path := pa.1, change_type := .modified }) := by
  unfold detectOne
  rcases h : snapGet before pa.1 with _ | bh
  · simp [eq_comm]
  · by_cases hne : bh ≠ pa.2 <;> simp [hne, eq_comm]

theorem detectDel_eq_some {after : Snapshot} {pb : Str × List Nat} {c : FileChange} :
    detectDel after pb = some c ↔
      snapGet after pb.1 = none ∧ c = { path := pb.1, change_type := .deleted } := by
  unfold detectDel
  by_cases h : snapGet after pb.1 = none <;> simp [h, eq_comm]

/-- C4: for path-keyed snapshots, the computed change list contains exactly
the created / modified / deleted entries, nothing for unchanged paths, and
is sorted ascending by path. -/
theorem C4_snapshot_diff (before after : Snapshot)
    (hb : (before.map Prod.fst).Nodup) (ha : (after.map Prod.fst).Nodup) :
    (∀ p : Str,
      (({ path := p, change_type := .created : FileChange } ∈ detectChanges before after) ↔
        (p ∈ after.map Prod.fst ∧ p ∉ before.map Prod.fst)) ∧
      (({ path := p, change_type := .modified : FileChange } ∈ detectChanges before after) ↔
        (∃ hB hA, (p, hB) ∈ before ∧ (p, hA) ∈ after ∧ hB ≠ hA)) ∧
      (({ path := p, change_type := .deleted : FileChange } ∈ detectChanges before after) ↔
        (p ∈ before.map Prod.fst ∧ p ∉ after.map Prod.fst)) ∧
      (∀ h : List Nat, (p, h) ∈ before → (p, h) ∈ after →
        ∀ c ∈ detectChanges before after, c.path ≠ p)) ∧
    (detectChanges before after).Sorted (fun a b => a.path ≤ b.path) := by
  constructor
  · intro p
    refine ⟨?_, ?_, ?_, ?_⟩
    · rw [mem_detectChanges_iff]
      constructor
      · rintro (h | h)
        · obtain ⟨pa, hpa, hone⟩ := List.mem_filterMap.mp h
          rcases detectOne_eq_some.mp hone with ⟨hn, hc⟩ | ⟨bh, _, _, hc⟩
          · have hp : pa.1 = p := (congrArg FileChange.path hc).symm
            rw [hp] at hn
            exact ⟨List.mem_map.mpr ⟨pa, hpa, hp⟩, snapGet_eq_none_iff.mp hn⟩
          · exact absurd (congrArg FileChange.change_type hc) (by simp)
        · obtain ⟨pb, _, hdel⟩ := List.mem_filterMap.mp h
          rcases detectDel_eq_some.mp hdel with ⟨_, hc⟩
          exact absurd (congrArg FileChange.change_type hc) (by simp)
      · rintro ⟨hin, hout⟩
        obtain ⟨pa, hpa, hfst⟩ := List.mem_map.mp hin
        left
        refine List.mem_filterMap.mpr ⟨pa, hpa, detectOne_eq_some.mpr (Or.inl ⟨?_, by rw [hfst]⟩)⟩
        rw [hfst]
        exact snapGet_eq_none_iff.mpr hout
    · rw [mem_detectChanges_iff]
      constructor
      · rintro (h | h)
        · obtain ⟨pa, hpa, hone⟩ := List.mem_filterMap.mp h
          rcases detectOne_eq_some.mp hone with ⟨_, hc⟩ | ⟨bh, hsome, hne, hc⟩
          · exact absurd (congrArg FileChange.change_type hc) (by simp)
          · have hp : pa.1 = p := (congrArg FileChange.path hc).symm
            rw [hp] at hsome
            refine ⟨bh, pa.2, mem_of_snapGet_eq_some hsome, ?_, hne⟩
            have : pa = (p, pa.2) := by
              cases pa; simp_all
            exact this ▸ hpa
        · obtain ⟨pb, _, hdel⟩ := List.mem_filterMap.mp h
          rcases detectDel_eq_some.mp hdel with ⟨_, hc⟩
          exact absurd (congrArg FileChange.change_type hc) (by simp)
      · rintro ⟨hB, hA, hmB, hmA, hne⟩
        left
        refine List.mem_filterMap.mpr
          ⟨(p, hA), hmA, detectOne_eq_some.mpr (Or.inr ⟨hB, ?_, ?_, rfl⟩)⟩
        · exact snapGet_eq_some_of_mem hb hmB
        · simpa using hne
    · rw [mem_detectChanges_iff]
      constructor
      · rintro (h | h)
        · obtain ⟨pa, hpa, hone⟩ := List.mem_filterMap.mp h
          rcases detectOne_eq_some.mp hone with ⟨_, hc⟩ | ⟨bh, _, _, hc⟩ <;>
            exact absurd (congrArg FileChange.change_type hc) (by simp)
        · obtain ⟨pb, hpb, hdel⟩ := List.mem_filterMap.mp h
          rcases detectDel_eq_some.mp hdel with ⟨hn, hc⟩
          have hp : pb.1 = p := (congrArg FileChange.path hc).symm
          rw [hp] at hn
          exact ⟨List.mem_map.mpr ⟨pb, hpb, hp⟩, snapGet_eq_none_iff.mp hn⟩
      · rintro ⟨hin, hout⟩
        obtain ⟨pb, hpb, hfst⟩ := List.mem_map.mp hin
        right
        refine List.mem_filterMap.mpr ⟨pb, hpb, detectDel_eq_some.mpr ⟨?_, by rw [hfst]⟩⟩
        rw [hfst]
        exact snapGet_eq_none_iff.mpr hout
    · intro h hmB hmA c hc hcp
      rw [mem_detectChanges_iff] at hc
      rcases hc with hc | hc
      · obtain ⟨pa, hpa, hone⟩ := List.mem_filterMap.mp hc
        rcases detectOne_eq_some.mp hone with ⟨hn, hceq⟩ | ⟨bh, hsome, hne, hceq⟩
        · have hp1 : pa.1 = p := by rw [hceq] at hcp; exact hcp
          rw [hp1] at hn
          exact snapGet_eq_none_iff.mp hn (List.mem_map.mpr ⟨(p, h), hmB, rfl⟩)
        · have hp1 : pa.1 = p := by rw [hceq] at hcp; exact hcp
          rw [hp1] at hsome
          have hbh : bh = h := by
            have hsg := snapGet_eq_some_of_mem hb hmB
            rw [hsg] at hsome
            exact (Option.some.inj hsome).symm
          have hA2 : pa.2 = h := by
            have hpaA : (p, pa.2) ∈ after := by
              have hpe : pa = (p, pa.2) := by cases pa; simp_all
              exact hpe ▸ hpa
            exact snapKeys_val_eq ha hpaA hmA
          rw [hbh, hA2] at hne
          exact hne rfl
      · obtain ⟨pb, hpb, hdel⟩ := List.mem_filterMap.mp hc
        rcases detectDel_eq_some.mp hdel with ⟨hn, hceq⟩
        have hp1 : pb.1 = p := by rw [hceq] at hcp; exact hcp
        rw [hp1] at hn
        exact snapGet_eq_none_iff.mp hn (List.mem_map.mpr ⟨(p, h), hmA, rfl⟩)
  · haveI : IsTotal FileChange (fun a b => a.path ≤ b.path) := ⟨fun a b => le_total _ _⟩
    haveI : IsTrans FileChange (fun a b => a.path ≤ b.path) := ⟨fun _ _ _ => le_trans⟩
    exact List.sorted_insertionSort _ _

/-- Witness for C4: the scratch-tree scenario of §8 of the spec
(`a.txt` modified, `b.txt` deleted, `c.txt` created). -/
theorem C4_snapshot_diff_witness :
    (({ path := "c.txt".data, change_type := .created : FileChange } ∈
        detectChanges [("a.txt".data, [0]), ("b.txt".data, [1])]
          [("a.txt".data, [2]), ("c.txt".data, [3])]) ↔
      ("c.txt".data ∈ ([("a.txt".data, [2]), ("c.txt".data, [3])] : Snapshot).map Prod.fst ∧
        "c.txt".data ∉ ([("a.txt".data, [0]), ("b.txt".data, [1])] : Snapshot).map Prod.fst)) ∧
    (detectChanges [("a.txt".data, [0]), ("b.txt".data, [1])]
        [("a.txt".data, [2]), ("c.txt".data, [3])]).Sorted (fun a b => a.path ≤ b.path) :=
  ⟨((C4_snapshot_diff [("a.txt".data, [0]), ("b.txt".data, [1])]
      [("a.txt".data, [2]), ("c.txt".data, [3])] (by decide) (by decide)).1 "c.txt".data).1,
   (C4_snapshot_diff [("a.txt".data, [0]), ("b.txt".data, [1])]
      [("a.txt".data, [2]), ("c.txt".data, [3])] (by decide) (by decide)).2⟩

/-! ## C9: insight deduplication -/

theorem chain'_dedupByGo (p : α → α → Bool) :
    ∀ (xs : List α) (prev : α),
      List.Chain' (fun a b => p b a = false) (prev :: dedupByGo p prev xs) := by
  intro xs
  induction xs with
  | nil => intro prev; simp [dedupByGo]
  | cons y ys ih =>
      intro prev
      unfold dedupByGo
      by_cases h : p y prev = true
      · rw [if_pos h]
        exact ih prev
      · rw [if_neg h]
        exact List.chain'_cons.mpr ⟨Bool.eq_false_iff.mpr h, ih y⟩

theorem chain'_dedupBy (p : α → α → Bool) (l : List α) :
    List.Chain' (fun a b => p b a = false) (dedupBy p l) := by
  cases l with
  | nil => simp [dedupBy]
  | cons x xs => exact chain'_dedupByGo p xs x

/-- C9 counterexample: on `cexInsightText` the extractor returns dead-end
approaches `aa`, `bb`, `aa` — two entries with equal `approach` survive,
because `Vec::dedup_by` removes only consecutive duplicates. -/
theorem C9_dedup_counterexample :
    ((extractInsights cexInsightText).dead_ends.map DeadEnd.approach) =
      ["aa".data, "bb".data, "aa".data] ∧
    ¬ ((extractInsights cexInsightText).dead_ends.map DeadEnd.approach).Nodup := by
  constructor
  · decide
  · decide

/-- C9 (amended): for every captured output, the dead-ends list contains no
two *consecutive* entries with equal `approach`, and the decisions list no
two consecutive entries with equal `description` (Rust's `Vec::dedup_by`
deduplicates adjacent elements only). -/
theorem C9_dedup_adjacent (text : Str) :
    List.Chain' (fun a b => a.approach ≠ b.approach) (extractInsights text).dead_ends ∧
    List.Chain' (fun a b => a.description ≠ b.description) (extractInsights text).decisions := by
  unfold extractInsights
  dsimp only
  constructor
  · apply List.Chain'.imp ?_ (chain'_dedupBy _ _)
    intro a b h heq
    rw [heq] at h
    simp at h
  · apply List.Chain'.imp ?_ (chain'_dedupBy _ _)
    intro a b h heq
    rw [heq] at h
    simp at h

/-! ## C8: Aider source hashes -/

/-- C8: the `i`-th (0-based) imported Aider sub-session carries
`source_hash = SHA256("<hex SHA256 of file>:<i>")` (in lowercase hex over
the UTF-8 bytes), for every position that exists; being a pure function of
the file contents, a second import of the same file reproduces the same
sequence hash-for-hash. -/
theorem C8_aider_session_hash (now : Nat) (content : Str) (i : Nat) :
    ((importHistory now content)[i]?).map (fun e => e.manifest.source_hash) =
      ((parseAiderHistory now content)[i]?).map (fun _ =>
        some (sha256Hex (strBytes (sha256Hex (strBytes content) ++ ":".data ++ natDigits i)))) := by
  rw [importHistory_getElem?]
  cases (parseAiderHistory now content)[i]? with
  | none => rfl
  | some e => rfl

/-! ## C10: first Write/Edit wins in the Claude Code importer -/

theorem claudeBlockStep_file_changes (now : Nat) (role : Role) (ts : Option Nat)
    (acc : ClaudeAcc) (block : Json) :
    (claudeBlockStep now role ts acc block).file_changes =
      (blockEvents block).foldl pushIfNew acc.file_changes := by
  unfold claudeBlockStep blockEvents
  by_cases h1 : ((jGet block "type".data).bind jAsStr).getD [] = "text".data
  · have h2 : ¬ ((jGet block "type".data).bind jAsStr).getD [] = "tool_use".data := by
      rw [h1]; decide
    rw [if_pos h1, if_neg h2]
    split <;> rfl
  · rw [if_neg h1]
    by_cases h2 : ((jGet block "type".data).bind jAsStr).getD [] = "tool_use".data
    · rw [if_pos h2, if_pos h2]
      dsimp only
      by_cases h3 : ((jGet block "name".data).bind jAsStr).getD "unknown".data = "Write".data ∨
          ((jGet block "name".data).bind jAsStr).getD "unknown".data = "Edit".data ∨
          ((jGet block "name".data).bind jAsStr).getD "unknown".data = "NotebookEdit".data
      · rw [if_pos h3, if_pos h3]
        rcases hfp : (jGet ((jGet block "input".data).getD Json.null) "file_path".data).bind jAsStr
          with _ | path
        · simp [pushIfNew]
        · simp only [List.foldl_cons, List.foldl_nil]
          unfold pushIfNew claudeChangeKind
          dsimp only
          split <;> rfl
      · rw [if_neg h3, if_neg h3]
        rfl
    · rw [if_neg h2, if_neg h2]
      by_cases h4 : ((jGet block "type".data).bind jAsStr).getD [] = "tool_result".data
      · rw [if_pos h4]; rfl
      · rw [if_neg h4]
        by_cases h5 : ((jGet block "type".data).bind jAsStr).getD [] = "thinking".data
        · rw [if_pos h5]
          dsimp only
          split <;> rfl
        · rw [if_neg h5]
          rfl

theorem claudeBlocks_file_changes (now : Nat) (role : Role) (ts : Option Nat) :
    ∀ (blocks : List Json) (acc : ClaudeAcc),
      (blocks.foldl (claudeBlockStep now role ts) acc).file_changes =
        (blocks.flatMap blockEvents).foldl pushIfNew acc.file_changes := by
  intro blocks
  induction blocks with
  | nil => intro acc; rfl
  | cons b bs ih =>
      intro acc
      rw [List.foldl_cons, ih, List.flatMap_cons, List.foldl_append,
        claudeBlockStep_file_changes]

theorem claudeTsUpdate_file_changes (acc : ClaudeAcc) (ts : Option Nat) :
    (claudeTsUpdate acc ts).file_changes = acc.file_changes := by
  unfold claudeTsUpdate
  split <;> rfl

theorem claudeModelUpdate_file_changes (acc : ClaudeAcc) (msg : ClaudeMessage) :
    (claudeModelUpdate acc msg).file_changes = acc.file_changes := by
  unfold claudeModelUpdate
  split <;> rfl

theorem claudeUsageUpdate_file_changes (acc : ClaudeAcc) (msg : ClaudeMessage) :
    (claudeUsageUpdate acc msg).file_changes = acc.file_changes := by
  unfold claudeUsageUpdate
  split <;> rfl

theorem claudeContentStep_file_changes (now : Nat) (role : Role) (ts : Option Nat)
    (acc : ClaudeAcc) (c : Json) :
    (claudeContentStep now role ts acc c).file_changes =
      (match c with
       | .arr blocks => (blocks.toList.flatMap blockEvents).foldl pushIfNew acc.file_changes
       | _ => acc.file_changes) := by
  cases c with
  | arr blocks => exact claudeBlocks_file_changes now role ts blocks.toList acc
  | str text =>
      unfold claudeContentStep
      dsimp only
      split <;> rfl
  | null => rfl
  | bool b => rfl
  | num n => rfl
  | obj fs => rfl

theorem claudeRole?_none_iff (msg : ClaudeMessage) :
    claudeRole? msg = none ↔ ¬ (msg.role = "user".data ∨ msg.role = "assistant".data) := by
  unfold claudeRole?
  by_cases h1 : msg.role = "user".data
  · simp [h1]
  · by_cases h2 : msg.role = "assistant".data <;> simp [h1, h2]

theorem claudeMsgStep_file_changes (now : Nat) (ts : Option Nat) (acc : ClaudeAcc)
    (msg : ClaudeMessage) :
    (claudeMsgStep now ts acc msg).file_changes =
      (msgEvents msg).foldl pushIfNew acc.file_changes := by
  unfold claudeMsgStep msgEvents
  rcases hro : claudeRole? msg with _ | role
  · rw [if_neg ((claudeRole?_none_iff msg).mp hro)]
    rw [claudeUsageUpdate_file_changes, claudeModelUpdate_file_changes]
    rfl
  · have hcond : msg.role = "user".data ∨ msg.role = "assistant".data := by
      by_contra hc
      rw [← claudeRole?_none_iff msg] at hc
      rw [hro] at hc
      cases hc
    rw [if_pos hcond, claudeContentStep_file_changes,
      claudeUsageUpdate_file_changes, claudeModelUpdate_file_changes]
    cases msg.content <;> rfl

theorem claudeStep_file_changes (now : Nat) (acc : ClaudeAcc) (entry : ClaudeEntry) :
    (claudeStep now acc entry).file_changes =
      (entryEvents entry).foldl pushIfNew acc.file_changes := by
  unfold claudeStep entryEvents
  by_cases h1 : entry.entry_type ≠ "user".data ∧ entry.entry_type ≠ "assistant".data
  · rw [if_pos h1, if_pos h1]
    rfl
  · rw [if_neg h1, if_neg h1]
    by_cases h2 : entry.is_sidechain = some true
    · rw [if_pos h2, if_pos h2]
      rfl
    · rw [if_neg h2, if_neg h2]
      dsimp only
      rcases hmsg : entry.message with _ | msg
      · rw [claudeTsUpdate_file_changes]
        rfl
      · rw [claudeMsgStep_file_changes, claudeTsUpdate_file_changes]

theorem claudeFold_file_changes (now : Nat) :
    ∀ (entries : List ClaudeEntry) (acc : ClaudeAcc),
      ((entries.foldl (claudeStep now) acc).file_changes =
        (claudeFileEvents entries).foldl pushIfNew acc.file_changes) := by
  intro entries
  induction entries with
  | nil => intro acc; rfl
  | cons e es ih =>
      intro acc
      rw [List.foldl_cons, ih]
      unfold claudeFileEvents
      rw [List.flatMap_cons, List.foldl_append, claudeStep_file_changes]

theorem pushIfNew_filter (p : Str) :
    ∀ (evs : List (Str × Str)) (fcs : List FileChange),
      (evs.foldl pushIfNew fcs).filter (fun c => c.path = p) =
        fcs.filter (fun c => c.path = p) ++
          (if fcs.any (fun c => c.path = p) then []
           else
             match evs.find? (fun ev => ev.2 = p) with
             | none => []
             | some ev => [{ path := p, change_type := claudeChangeKind ev.1 }]) := by
  intro evs
  induction evs with
  | nil =>
      intro fcs
      rcases h : fcs.any (fun c => c.path = p) <;> simp [h]
  | cons ev evs ih =>
      intro fcs
      rw [List.foldl_cons, ih (pushIfNew fcs ev)]
      by_cases hA : fcs.any (fun c => c.path = ev.2) = true
      · have hpush : pushIfNew fcs ev = fcs := by
          unfold pushIfNew
          rw [if_pos hA]
        rw [hpush]
        by_cases hev : ev.2 = p
        · have hp : fcs.any (fun c => c.path = p) = true := by rw [← hev]; exact hA
          rw [if_pos hp, if_pos hp]
        · have hfind : (ev :: evs).find? (fun e => e.2 = p) = evs.find? (fun e => e.2 = p) := by
            rw [List.find?_cons_of_neg]
            simp [hev]
          rw [hfind]
      · have hpush : pushIfNew fcs ev = fcs ++ [{ path := ev.2, change_type := claudeChangeKind ev.1 }] := by
          unfold pushIfNew
          rw [if_neg hA]
        rw [hpush]
        by_cases hev : ev.2 = p
        · have hp : fcs.any (fun c => c.path = p) = false := by
            rw [← hev]
            exact Bool.not_eq_true _ ▸ (by simpa using hA)
          have hfil : (fcs ++ [{ path := ev.2, change_type := claudeChangeKind ev.1 : FileChange }]).filter
              (fun c => c.path = p) =
              fcs.filter (fun c => c.path = p) ++ [{ path := ev.2, change_type := claudeChangeKind ev.1 }] := by
            rw [List.filter_append]
            simp [hev]
          have hany : (fcs ++ [{ path := ev.2, change_type := claudeChangeKind ev.1 : FileChange }]).any
              (fun c => c.path = p) = true := by
            rw [List.any_append]
            simp [hev]
          rw [hfil, hany, if_pos rfl, if_neg (by rw [hp]; exact Bool.false_ne_true)]
          rw [List.find?_cons_of_pos _ (by simp [hev])]
          simp [hev, List.append_assoc]
        · have hfil : (fcs ++ [{ path := ev.2, change_type := claudeChangeKind ev.1 : FileChange }]).filter
              (fun c => c.path = p) = fcs.filter (fun c => c.path = p) := by
            rw [List.filter_append]
            simp [hev]
          have hany : (fcs ++ [{ path := ev.2, change_type := claudeChangeKind ev.1 : FileChange }]).any
              (fun c => c.path = p) = fcs.any (fun c => c.path = p) := by
            rw [List.any_append]
            simp [hev]
          rw [hfil, hany]
          rw [List.find?_cons_of_neg _ (by simp [hev])]

/-- C10: the imported record's `file_changes` has at most one entry per
path: the entry created at the path's first qualifying `Write` / `Edit` /
`NotebookEdit` tool use, with kind `Created` exactly when that first tool
is `Write`; later tool uses on the same path change nothing. -/
theorem C10_first_tool_use_wins (now : Nat) (entries : List ClaudeEntry)
    (ver : Option Str) (p : Str) :
    ((parseClaudeCodeSession now entries ver).operations.file_changes).filter
        (fun c => c.path = p) =
      (match (claudeFileEvents entries).find? (fun ev => ev.2 = p) with
       | none => []
       | some ev =>
           [{ path := p,
              change_type := if ev.1 = "Write".data then .created else .modified }]) := by
  have hops : (parseClaudeCodeSession now entries ver).operations.file_changes =
      (entries.foldl (claudeStep now) {}).file_changes := rfl
  rw [hops, claudeFold_file_changes]
  have := pushIfNew_filter p (claudeFileEvents entries) []
  simpa [claudeChangeKind] using this

/-! ## Decimal digit lemmas (shared by C6) -/

theorem digCh_isDigit {d : Nat} (h : d < 10) : (digCh d).isDigit = true := by
  interval_cases d <;> decide

theorem digVal_digCh {d : Nat} (h : d < 10) : digVal (digCh d) = d := by
  interval_cases d <;> decide

theorem natDigitsCore_eq (m : Nat) (acc : Str) :
    natDigitsCore m acc =
      if m = 0 then acc else natDigitsCore (m / 10) (digCh (m % 10) :: acc) := by
  rw [natDigitsCore]
  by_cases h : m = 0
  · rw [dif_pos h, if_pos h]
  · rw [dif_neg h, if_neg h]

theorem natDigitsCore_shift (n : Nat) :
    ∀ acc, natDigitsCore n acc = natDigitsCore n [] ++ acc := by
  induction n using Nat.strong_induction_on with
  | _ n ih =>
      intro acc
      by_cases h : n = 0
      · subst h
        simp [natDigitsCore_eq]
      · rw [natDigitsCore_eq n acc, natDigitsCore_eq n [], if_neg h, if_neg h]
        have hlt : n / 10 < n := Nat.div_lt_self (Nat.pos_of_ne_zero h) (by omega)
        rw [ih _ hlt (digCh (n % 10) :: acc), ih _ hlt [digCh (n % 10)]]
        simp

theorem natDigitsCore_all_digits (n : Nat) :
    (natDigitsCore n []).all Char.isDigit = true := by
  induction n using Nat.strong_induction_on with
  | _ n ih =>
      by_cases h : n = 0
      · rw [natDigitsCore_eq, if_pos h]
        rfl
      · rw [natDigitsCore_eq, if_neg h, natDigitsCore_shift]
        have hlt : n / 10 < n := Nat.div_lt_self (Nat.pos_of_ne_zero h) (by omega)
        rw [List.all_append, ih _ hlt]
        simp [digCh_isDigit (Nat.mod_lt n (by omega))]

theorem natDigits_all_digits (n : Nat) : (natDigits n).all Char.isDigit = true := by
  unfold natDigits
  split
  · rfl
  · exact natDigitsCore_all_digits n

theorem natDigitsCore_ne_nil {n : Nat} (h : n ≠ 0) : natDigitsCore n [] ≠ [] := by
  rw [natDigitsCore_eq, if_neg h, natDigitsCore_shift]
  simp

theorem natDigits_ne_nil (n : Nat) : natDigits n ≠ [] := by
  unfold natDigits
  split
  · simp
  · exact natDigitsCore_ne_nil (by assumption)

theorem digitsVal_from_acc (b : Str) :
    ∀ acc : Nat, b.foldl (fun acc c => acc * 10 + digVal c) acc =
      acc * 10 ^ b.length + digitsVal b := by
  induction b with
  | nil => intro acc; simp [digitsVal]
  | cons c t ih =>
      intro acc
      rw [List.foldl_cons]
      rw [ih (acc * 10 + digVal c)]
      unfold digitsVal
      rw [List.foldl_cons, ih (0 * 10 + digVal c)]
      simp [List.length_cons]
      unfold digitsVal
      ring

theorem digitsVal_append (a b : Str) :
    digitsVal (a ++ b) = digitsVal a * 10 ^ b.length + digitsVal b := by
  unfold digitsVal
  rw [List.foldl_append]
  exact digitsVal_from_acc b _

theorem digitsVal_natDigitsCore (n : Nat) : digitsVal (natDigitsCore n []) = n := by
  induction n using Nat.strong_induction_on with
  | _ n ih =>
      by_cases h : n = 0
      · rw [natDigitsCore_eq, if_pos h, h]
        rfl
      · rw [natDigitsCore_eq, if_neg h, natDigitsCore_shift]
        have hlt : n / 10 < n := Nat.div_lt_self (Nat.pos_of_ne_zero h) (by omega)
        rw [digitsVal_append, ih _ hlt]
        have : digitsVal [digCh (n % 10)] = n % 10 := by
          unfold digitsVal
          simp [digVal_digCh (Nat.mod_lt n (by omega))]
        rw [this]
        simp
        omega

theorem digitsVal_natDigits (n : Nat) : digitsVal (natDigits n) = n := by
  unfold natDigits
  split
  · simp [digitsVal, digVal]
    omega
  · exact digitsVal_natDigitsCore n

theorem digitsToNat?_natDigits (n : Nat) : digitsToNat? (natDigits n) = some n := by
  unfold digitsToNat?
  rw [if_pos ⟨natDigits_ne_nil n, natDigits_all_digits n⟩, digitsVal_natDigits]

theorem tsParse?_tsRender (n : Nat) : tsParse? (tsRender n) = some n :=
  digitsToNat?_natDigits n

/-! ## JSON string-body parsing (C6) -/

theorem psb_quote (r : Str) : parseStringBody ('"' :: r) = some ([], r) := by
  rw [parseStringBody]

theorem psb_other {c : Char} (hc1 : c ≠ '"') (hc2 : c ≠ '\\') (s : Str) :
    parseStringBody (c :: s) = (parseStringBody s).map (fun pr => (c :: pr.1, pr.2)) := by
  rw [parseStringBody.eq_def]
  split <;> simp_all

theorem psb_esc (e : Char) (he : e ≠ 'u') (ch : Char) (hu : unesc e = some ch) (s : Str) :
    parseStringBody ('\\' :: e :: s) =
      (parseStringBody s).map (fun pr => (ch :: pr.1, pr.2)) := by
  rw [parseStringBody.eq_def]
  split
  any_goals simp_all
  all_goals
    (rename_i hx heq
     exact absurd heq.2.symm (hx _ _ heq.1.symm))

theorem psb_u (a b c d : Char) (s : Str) :
    parseStringBody ('\\' :: 'u' :: a :: b :: c :: d :: s) =
      (match hexVal? a, hexVal? b, hexVal? c, hexVal? d with
       | some x, some y, some z, some w =>
           if (((x * 16 + y) * 16 + z) * 16 + w).isValidChar then
             (parseStringBody s).map
               (fun pr => (Char.ofNat (((x * 16 + y) * 16 + z) * 16 + w) :: pr.1, pr.2))
           else none
       | _, _, _, _ => none) := by
  rw [parseStringBody.eq_def]
  split
  any_goals simp_all
  all_goals
    (rename_i hx heq
     first
     | exact absurd heq.2.symm (hx _ _ heq.1.symm)
     | exact absurd heq.2.symm (hx _ _ _ _ _ heq.1.symm))

theorem hexVal?_digCh16 {v : Nat} (h : v < 16) : hexVal? (digCh16 v) = some v := by
  interval_cases v <;> decide

theorem psb_escStr (s : Str) : ∀ r : Str, parseStringBody (escStr s ++ '"' :: r) = some (s, r) := by
  induction s with
  | nil =>
      intro r
      have h : escStr [] = [] := rfl
      rw [h, List.nil_append, psb_quote]
  | cons c t ih =>
      intro r
      have hsplit : escStr (c :: t) = escChar c ++ escStr t := by
        simp [escStr]
      rw [hsplit, List.append_assoc]
      by_cases h1 : c = '"'
      · subst h1
        rw [show escChar '"' = ['\\', '"'] from rfl]
        rw [show (['\\', '"'] : Str) ++ (escStr t ++ '"' :: r) =
          '\\' :: '"' :: (escStr t ++ '"' :: r) from rfl]
        rw [psb_esc '"' (by decide) '"' (by decide), ih r]
        rfl
      by_cases h2 : c = '\\'
      · subst h2
        rw [show escChar '\\' = ['\\', '\\'] from rfl]
        rw [show (['\\', '\\'] : Str) ++ (escStr t ++ '"' :: r) =
          '\\' :: '\\' :: (escStr t ++ '"' :: r) from rfl]
        rw [psb_esc '\\' (by decide) '\\' (by decide), ih r]
        rfl
      by_cases h3 : c = '\n'
      · subst h3
        rw [show escChar '\n' = ['\\', 'n'] from rfl]
        rw [show (['\\', 'n'] : Str) ++ (escStr t ++ '"' :: r) =
          '\\' :: 'n' :: (escStr t ++ '"' :: r) from rfl]
        rw [psb_esc 'n' (by decide) '\n' (by decide), ih r]
        rfl
      by_cases h4 : c = '\r'
      · subst h4
        rw [show escChar '\r' = ['\\', 'r'] from rfl]
        rw [show (['\\', 'r'] : Str) ++ (escStr t ++ '"' :: r) =
          '\\' :: 'r' :: (escStr t ++ '"' :: r) from rfl]
        rw [psb_esc 'r' (by decide) '\r' (by decide), ih r]
        rfl
      by_cases h5 : c = '\t'
      · subst h5
        rw [show escChar '\t' = ['\\', 't'] from rfl]
        rw [show (['\\', 't'] : Str) ++ (escStr t ++ '"' :: r) =
          '\\' :: 't' :: (escStr t ++ '"' :: r) from rfl]
        rw [psb_esc 't' (by decide) '\t' (by decide), ih r]
        rfl
      by_cases h6 : c.toNat = 8
      · have hesc : escChar c = ['\\', 'b'] := by
          unfold escChar
          rw [if_neg h1, if_neg h2, if_neg h3, if_neg h4, if_neg h5, if_pos h6]
        rw [hesc]
        rw [show (['\\', 'b'] : Str) ++ (escStr t ++ '"' :: r) =
          '\\' :: 'b' :: (escStr t ++ '"' :: r) from rfl]
        rw [psb_esc 'b' (by decide) (Char.ofNat 8) (by decide), ih r]
        have hc : Char.ofNat 8 = c := by
          rw [← h6, Char.ofNat_toNat]
        simpa using hc
      by_cases h7 : c.toNat = 12
      · have hesc : escChar c = ['\\', 'f'] := by
          unfold escChar
          rw [if_neg h1, if_neg h2, if_neg h3, if_neg h4, if_neg h5, if_neg h6, if_pos h7]
        rw [hesc]
        rw [show (['\\', 'f'] : Str) ++ (escStr t ++ '"' :: r) =
          '\\' :: 'f' :: (escStr t ++ '"' :: r) from rfl]
        rw [psb_esc 'f' (by decide) (Char.ofNat 12) (by decide), ih r]
        have hc : Char.ofNat 12 = c := by
          rw [← h7, Char.ofNat_toNat]
        simpa using hc
      by_cases h8 : c.toNat < 32
      · have hesc : escChar c =
            ['\\', 'u', '0', '0', digCh16 (c.toNat / 16), digCh16 (c.toNat % 16)] := by
          unfold escChar
          rw [if_neg h1, if_neg h2, if_neg h3, if_neg h4, if_neg h5, if_neg h6, if_neg h7,
            if_pos h8]
        rw [hesc]
        rw [show (['\\', 'u', '0', '0', digCh16 (c.toNat / 16), digCh16 (c.toNat % 16)] : Str) ++
              (escStr t ++ '"' :: r) =
            '\\' :: 'u' :: '0' :: '0' :: digCh16 (c.toNat / 16) :: digCh16 (c.toNat % 16) ::
              (escStr t ++ '"' :: r) from rfl]
        rw [psb_u]
        rw [show hexVal? '0' = some 0 from rfl,
          hexVal?_digCh16 (Nat.div_lt_of_lt_mul (by omega)),
          hexVal?_digCh16 (Nat.mod_lt _ (by omega))]
        have hn : ((0 * 16 + 0) * 16 + c.toNat / 16) * 16 + c.toNat % 16 = c.toNat := by
          omega
        dsimp only
        rw [hn]
        have hvalid : c.toNat.isValidChar := by
          left
          omega
        rw [if_pos hvalid, ih r]
        simp
      · have hesc : escChar c = [c] := by
          unfold escChar
          rw [if_neg h1, if_neg h2, if_neg h3, if_neg h4, if_neg h5, if_neg h6, if_neg h7,
            if_neg h8]
        rw [hesc]
        rw [show ([c] : Str) ++ (escStr t ++ '"' :: r) = c :: (escStr t ++ '"' :: r) from rfl]
        rw [psb_other h1 h2, ih r]
        rfl

/-! ## JSON numeral and whitespace lemmas (C6) -/

theorem isDigit_ne {c d : Char} (h : c.isDigit = true) (hd : d.isDigit = false) : c ≠ d := by
  intro he
  rw [he, hd] at h
  cases h

theorem isDigit_not_ws {c : Char} (h : c.isDigit = true) : isWs c = false := by
  have h1 : c ≠ ' ' := isDigit_ne h (by decide)
  have h2 : c ≠ '\t' := isDigit_ne h (by decide)
  have h3 : c ≠ '\n' := isDigit_ne h (by decide)
  have h4 : c ≠ '\r' := isDigit_ne h (by decide)
  simp [isWs, h1, h2, h3, h4]

theorem skipWs_cons (c : Char) (s : Str) :
    skipWs (c :: s) = if isWs c then skipWs s else c :: s := rfl

theorem skipWs_cons_not_ws {c : Char} (h : isWs c = false) (s : Str) :
    skipWs (c :: s) = c :: s := by
  rw [skipWs_cons, h]
  simp

theorem startsWith_cons_false {p c : Char} (h : p ≠ c) (ps cs : Str) :
    startsWith (p :: ps) (c :: cs) = false := by
  have hb : (p == c) = false := beq_eq_false_iff_ne.mpr h
  show (p == c && List.isPrefixOf ps cs) = false
  rw [hb, Bool.false_and]

theorem startsWith_false_of_head {p : Str} {c : Char} (hp : p.head? = some c) {d : Char}
    (hne : c ≠ d) (cs : Str) : startsWith p (d :: cs) = false := by
  match p, hp with
  | p0 :: ps, hp =>
      have h0 : p0 = c := by simpa using hp
      subst h0
      exact startsWith_cons_false hne ps cs

theorem head_delim {c : Char} (h : c.isDigit = false) (r : Str) :
    ∀ d ∈ (c :: r).head?, d.isDigit = false := by
  intro d hd
  have hcd : c = d := by simpa using hd
  rw [← hcd]
  exact h

theorem head_delim_nil : ∀ d ∈ ([] : Str).head?, d.isDigit = false := by
  intro d hd
  simp at hd

theorem takeDigits_append (ds : Str) (hds : ds.all Char.isDigit = true) (r : Str)
    (hr : ∀ c ∈ r.head?, c.isDigit = false) : takeDigits (ds ++ r) = (ds, r) := by
  induction ds with
  | nil =>
      simp only [List.nil_append]
      cases r with
      | nil => rfl
      | cons c cs =>
          have hc : c.isDigit = false := hr c rfl
          rw [takeDigits]
          simp [hc]
  | cons c cs ih =>
      simp only [List.all_cons, Bool.and_eq_true] at hds
      rw [List.cons_append, takeDigits]
      simp [hds.1, ih hds.2]

theorem parseNum_cons_not_neg {c : Char} (h : c ≠ '-') (s : Str) :
    parseNum (c :: s) =
      (let pr := takeDigits (c :: s)
       if pr.1 = [] then none else some ((digitsVal pr.1 : Int), pr.2)) := by
  rw [parseNum.eq_def]
  split <;> simp_all

theorem parseNum_intDigits (m : Int) (r : Str)
    (hr : ∀ c ∈ r.head?, c.isDigit = false) :
    parseNum (intDigits m ++ r) = some (m, r) := by
  by_cases hm : m < 0
  · rw [intDigits, if_pos hm, List.cons_append, parseNum]
    have ht := takeDigits_append (natDigits m.natAbs) (natDigits_all_digits _) r hr
    simp only [ht]
    rw [if_neg (natDigits_ne_nil _), digitsVal_natDigits]
    have hcast : -((m.natAbs : Int)) = m := by omega
    rw [hcast]
  · rw [intDigits, if_neg hm]
    cases hnd : natDigits m.toNat with
    | nil => exact absurd hnd (natDigits_ne_nil _)
    | cons c ds =>
        have hall := natDigits_all_digits m.toNat
        rw [hnd] at hall
        simp only [List.all_cons, Bool.and_eq_true] at hall
        have hc : c ≠ '-' := isDigit_ne hall.1 (by decide)
        rw [List.cons_append, parseNum_cons_not_neg hc]
        have ht := takeDigits_append (natDigits m.toNat) (natDigits_all_digits _) r hr
        rw [hnd, List.cons_append] at ht
        dsimp only
        rw [ht]
        rw [if_neg (by rw [← hnd]; exact natDigits_ne_nil _), ← hnd, digitsVal_natDigits]
        have hcast : ((m.toNat : Int)) = m := Int.toNat_of_nonneg (not_lt.mp hm)
        rw [hcast]

/-! ## One-step reductions of `parseVal` on each printed head (C6) -/

theorem parseVal_null (fuel : Nat) (r : Str) :
    parseVal (fuel + 1) ("null".data ++ r) = some (.null, r) := by
  rw [parseVal]
  dsimp only
  rw [List.cons_append, skipWs_cons_not_ws (by decide), ← List.cons_append]
  rw [show (['n', 'u', 'l', 'l'] : Str) = "null".data from rfl, startsWith_append]
  simp only [if_true]
  rw [show (4 : Nat) = "null".data.length from rfl, List.drop_left]

theorem parseVal_true (fuel : Nat) (r : Str) :
    parseVal (fuel + 1) ("true".data ++ r) = some (.bool true, r) := by
  rw [parseVal]
  dsimp only
  rw [List.cons_append, skipWs_cons_not_ws (by decide)]
  rw [startsWith_false_of_head (p := "null".data) (c := 'n') rfl (by decide)]
  rw [← List.cons_append, show (['t', 'r', 'u', 'e'] : Str) = "true".data from rfl,
    startsWith_append]
  simp only [Bool.false_eq_true, if_false, if_true]
  rw [show (4 : Nat) = "true".data.length from rfl, List.drop_left]

theorem parseVal_false (fuel : Nat) (r : Str) :
    parseVal (fuel + 1) ("false".data ++ r) = some (.bool false, r) := by
  rw [parseVal]
  dsimp only
  rw [List.cons_append, skipWs_cons_not_ws (by decide)]
  rw [startsWith_false_of_head (p := "null".data) (c := 'n') rfl (by decide),
    startsWith_false_of_head (p := "true".data) (c := 't') rfl (by decide)]
  rw [← List.cons_append, show (['f', 'a', 'l', 's', 'e'] : Str) = "false".data from rfl,
    startsWith_append]
  simp only [Bool.false_eq_true, if_false, if_true]
  rw [show (5 : Nat) = "false".data.length from rfl, List.drop_left]

theorem parseVal_str (fuel : Nat) (s r : Str) :
    parseVal (fuel + 1) ('"' :: (escStr s ++ '"' :: r)) = some (.str s, r) := by
  rw [parseVal]
  dsimp only
  rw [skipWs_cons_not_ws (by decide)]
  rw [startsWith_false_of_head (p := "null".data) (c := 'n') rfl (by decide),
    startsWith_false_of_head (p := "true".data) (c := 't') rfl (by decide),
    startsWith_false_of_head (p := "false".data) (c := 'f') rfl (by decide)]
  simp only [Bool.false_eq_true, if_false]
  rw [psb_escStr]
  rfl

theorem parseVal_other (fuel : Nat) (c : Char) (cs : Str)
    (hws : isWs c = false) (h1 : c ≠ 'n') (h2 : c ≠ 't') (h3 : c ≠ 'f')
    (h4 : c ≠ '"') (h5 : c ≠ '[') (h6 : c ≠ '\x7b') :
    parseVal (fuel + 1) (c :: cs) = (parseNum (c :: cs)).map (fun pr => (.num pr.1, pr.2)) := by
  rw [parseVal]
  dsimp only
  rw [skipWs_cons_not_ws hws]
  rw [startsWith_false_of_head (p := "null".data) (c := 'n') rfl (Ne.symm h1),
    startsWith_false_of_head (p := "true".data) (c := 't') rfl (Ne.symm h2),
    startsWith_false_of_head (p := "false".data) (c := 'f') rfl (Ne.symm h3)]
  simp only [Bool.false_eq_true, if_false]
  split
  · rename_i heq
    injection heq with hc _
    exact absurd hc h4
  · rename_i heq
    injection heq with hc _
    exact absurd hc h5
  · rename_i heq
    injection heq with hc _
    exact absurd hc h6
  · rfl

theorem parseVal_num (fuel : Nat) (m : Int) (r : Str)
    (hr : ∀ c ∈ r.head?, c.isDigit = false) :
    parseVal (fuel + 1) (intDigits m ++ r) = some (.num m, r) := by
  obtain ⟨c, cs, hc, hch⟩ : ∃ c cs, intDigits m ++ r = c :: cs ∧ (c = '-' ∨ c.isDigit = true) := by
    rw [intDigits]
    split
    · exact ⟨'-', natDigits m.natAbs ++ r, by simp, Or.inl rfl⟩
    · cases hnd : natDigits m.toNat with
      | nil => exact absurd hnd (natDigits_ne_nil _)
      | cons c0 ds =>
          refine ⟨c0, ds ++ r, by simp, Or.inr ?_⟩
          have hall := natDigits_all_digits m.toNat
          rw [hnd] at hall
          simp only [List.all_cons, Bool.and_eq_true] at hall
          exact hall.1
  have hfacts : isWs c = false ∧ c ≠ 'n' ∧ c ≠ 't' ∧ c ≠ 'f' ∧ c ≠ '"' ∧ c ≠ '[' ∧
      c ≠ '\x7b' := by
    rcases hch with rfl | hd
    · exact ⟨by decide, by decide, by decide, by decide, by decide, by decide, by decide⟩
    · exact ⟨isDigit_not_ws hd, isDigit_ne hd (by decide), isDigit_ne hd (by decide),
        isDigit_ne hd (by decide), isDigit_ne hd (by decide), isDigit_ne hd (by decide),
        isDigit_ne hd (by decide)⟩
  rw [hc, parseVal_other fuel c cs hfacts.1 hfacts.2.1 hfacts.2.2.1 hfacts.2.2.2.1
    hfacts.2.2.2.2.1 hfacts.2.2.2.2.2.1 hfacts.2.2.2.2.2.2]
  rw [← hc, parseNum_intDigits m r hr]
  rfl

theorem parseVal_arr_nil (fuel : Nat) (r : Str) :
    parseVal (fuel + 1) ('[' :: ']' :: r) = some (.arr .nil, r) := by
  rw [parseVal]
  dsimp only
  rw [skipWs_cons_not_ws (by decide)]
  rw [startsWith_false_of_head (p := "null".data) (c := 'n') rfl (by decide),
    startsWith_false_of_head (p := "true".data) (c := 't') rfl (by decide),
    startsWith_false_of_head (p := "false".data) (c := 'f') rfl (by decide)]
  simp only [Bool.false_eq_true, if_false]
  rw [skipWs_cons_not_ws (by decide)]
  split
  · rename_i heq
    injection heq with _ hr2
    rw [hr2]
  · rename_i hx
    exact absurd rfl (hx r)

theorem parseVal_arr_go (fuel : Nat) (c : Char) (cs : Str) (hws : isWs c = false)
    (hne : c ≠ ']') :
    parseVal (fuel + 1) ('[' :: c :: cs) =
      (parseElemsTail fuel (c :: cs)).map (fun pr => (.arr pr.1, pr.2)) := by
  rw [parseVal]
  dsimp only
  rw [skipWs_cons_not_ws (by decide)]
  rw [startsWith_false_of_head (p := "null".data) (c := 'n') rfl (by decide),
    startsWith_false_of_head (p := "true".data) (c := 't') rfl (by decide),
    startsWith_false_of_head (p := "false".data) (c := 'f') rfl (by decide)]
  simp only [Bool.false_eq_true, if_false]
  rw [skipWs_cons_not_ws hws]
  split
  · rename_i heq
    injection heq with hc _
    exact absurd hc hne
  · rfl

theorem parseVal_obj_nil (fuel : Nat) (r : Str) :
    parseVal (fuel + 1) ('\x7b' :: '\x7d' :: r) = some (.obj .nil, r) := by
  rw [parseVal]
  dsimp only
  rw [skipWs_cons_not_ws (by decide)]
  rw [startsWith_false_of_head (p := "null".data) (c := 'n') rfl (by decide),
    startsWith_false_of_head (p := "true".data) (c := 't') rfl (by decide),
    startsWith_false_of_head (p := "false".data) (c := 'f') rfl (by decide)]
  simp only [Bool.false_eq_true, if_false]
  rw [skipWs_cons_not_ws (by decide)]
  split
  · rename_i heq
    injection heq with _ hr2
    rw [hr2]
  · rename_i hx
    exact absurd rfl (hx r)

theorem parseVal_obj_go (fuel : Nat) (c : Char) (cs : Str) (hws : isWs c = false)
    (hne : c ≠ '\x7d') :
    parseVal (fuel + 1) ('\x7b' :: c :: cs) =
      (parseFieldsTail fuel (c :: cs)).map (fun pr => (.obj pr.1, pr.2)) := by
  rw [parseVal]
  dsimp only
  rw [skipWs_cons_not_ws (by decide)]
  rw [startsWith_false_of_head (p := "null".data) (c := 'n') rfl (by decide),
    startsWith_false_of_head (p := "true".data) (c := 't') rfl (by decide),
    startsWith_false_of_head (p := "false".data) (c := 'f') rfl (by decide)]
  simp only [Bool.false_eq_true, if_false]
  rw [skipWs_cons_not_ws hws]
  split
  · rename_i heq
    injection heq with hc _
    exact absurd hc hne
  · rfl

/-! ## Print/parse roundtrip for JSON values (C6) -/

theorem jsonSize_pos (j : Json) : 1 ≤ jsonSize j := by
  match j with
  | .null => exact Nat.le.refl
  | .bool _ => exact Nat.le.refl
  | .num _ => exact Nat.le.refl
  | .str _ => exact Nat.le.refl
  | .arr es => rw [jsonSize]; omega
  | .obj fs => rw [jsonSize]; omega

theorem elemsSize_pos (es : JsonList) : 1 ≤ elemsSize es := by
  match es with
  | .nil => exact Nat.le.refl
  | .cons j tl => have := jsonSize_pos j; rw [elemsSize]; omega

theorem fieldsSize_pos (fs : JsonFields) : 1 ≤ fieldsSize fs := by
  match fs with
  | .nil => exact Nat.le.refl
  | .cons k v tl => have := jsonSize_pos v; rw [fieldsSize]; omega

theorem printJson_head (j : Json) :
    ∃ c cs, printJson j = c :: cs ∧ isWs c = false ∧ c ≠ ']' ∧ c ≠ '\x7d' := by
  match j with
  | .null => exact ⟨'n', ['u', 'l', 'l'], by rw [printJson], by decide, by decide, by decide⟩
  | .bool true => exact ⟨'t', ['r', 'u', 'e'], by rw [printJson], by decide, by decide, by decide⟩
  | .bool false =>
      exact ⟨'f', ['a', 'l', 's', 'e'], by rw [printJson], by decide, by decide, by decide⟩
  | .str s => exact ⟨'"', escStr s ++ ['"'], by rw [printJson], by decide, by decide, by decide⟩
  | .arr es =>
      exact ⟨'[', printElems es ++ [']'], by rw [printJson], by decide, by decide, by decide⟩
  | .obj fs =>
      exact ⟨'\x7b', printFields fs ++ ['\x7d'], by rw [printJson], by decide, by decide,
        by decide⟩
  | .num m =>
      rw [show printJson (.num m) = intDigits m from by rw [printJson], intDigits]
      split
      · exact ⟨'-', natDigits m.natAbs, rfl, by decide, by decide, by decide⟩
      · cases hnd : natDigits m.toNat with
        | nil => exact absurd hnd (natDigits_ne_nil _)
        | cons c0 ds =>
            have hall := natDigits_all_digits m.toNat
            rw [hnd] at hall
            simp only [List.all_cons, Bool.and_eq_true] at hall
            exact ⟨c0, ds, rfl, isDigit_not_ws hall.1, isDigit_ne hall.1 (by decide),
              isDigit_ne hall.1 (by decide)⟩

mutual

theorem parseVal_print (j : Json) (fuel : Nat) (r : Str) (hf : jsonSize j ≤ fuel)
    (hr : ∀ c ∈ r.head?, c.isDigit = false) :
    parseVal fuel (printJson j ++ r) = some (j, r) := by
  match fuel, j with
  | 0, j => exact absurd hf (by have := jsonSize_pos j; omega)
  | fuel + 1, .null =>
      rw [show printJson Json.null = "null".data from by rw [printJson]]
      exact parseVal_null fuel r
  | fuel + 1, .bool true =>
      rw [show printJson (Json.bool true) = "true".data from by rw [printJson]]
      exact parseVal_true fuel r
  | fuel + 1, .bool false =>
      rw [show printJson (Json.bool false) = "false".data from by rw [printJson]]
      exact parseVal_false fuel r
  | fuel + 1, .num m =>
      rw [show printJson (Json.num m) = intDigits m from by rw [printJson]]
      exact parseVal_num fuel m r hr
  | fuel + 1, .str s =>
      rw [show printJson (.str s) ++ r = '"' :: (escStr s ++ '"' :: r) from by
        rw [show printJson (.str s) = '"' :: (escStr s ++ ['"']) from by rw [printJson]]; simp]
      exact parseVal_str fuel s r
  | fuel + 1, .arr .nil =>
      rw [show printJson (.arr .nil) ++ r = '[' :: ']' :: r from by
        rw [show printJson (.arr .nil) = '[' :: (printElems .nil ++ [']']) from by
          rw [printJson]]
        rw [printElems]
        rfl]
      exact parseVal_arr_nil fuel r
  | fuel + 1, .arr (.cons j2 tl) =>
      have hsz : elemsSize (.cons j2 tl) ≤ fuel := by
        have e : jsonSize (.arr (.cons j2 tl)) = elemsSize (.cons j2 tl) + 1 := by
          rw [jsonSize]
        omega
      obtain ⟨c, cs, hc, hws, hbr, _⟩ := printJson_head j2
      obtain ⟨cs2, hcs2⟩ : ∃ cs2, printElems (.cons j2 tl) ++ ']' :: r = c :: cs2 := by
        match tl with
        | .nil =>
            exact ⟨cs ++ ']' :: r, by
              rw [show printElems (.cons j2 .nil) = printJson j2 from by rw [printElems], hc]
              rfl⟩
        | .cons j3 tl3 =>
            exact ⟨cs ++ (',' :: printElems (.cons j3 tl3) ++ ']' :: r), by
              rw [show printElems (.cons j2 (.cons j3 tl3)) =
                printJson j2 ++ ',' :: printElems (.cons j3 tl3) from by rw [printElems], hc]
              simp⟩
      rw [show printJson (.arr (.cons j2 tl)) ++ r =
          '[' :: (printElems (.cons j2 tl) ++ ']' :: r) from by
        rw [show printJson (.arr (.cons j2 tl)) =
          '[' :: (printElems (.cons j2 tl) ++ [']']) from by rw [printJson]]
        simp]
      rw [hcs2, parseVal_arr_go fuel c cs2 hws hbr, ← hcs2]
      rw [parseElems_print (.cons j2 tl) (by intro h; cases h) fuel r hsz]
      rfl
  | fuel + 1, .obj .nil =>
      rw [show printJson (.obj .nil) ++ r = '\x7b' :: '\x7d' :: r from by
        rw [show printJson (.obj .nil) = '\x7b' :: (printFields .nil ++ ['\x7d']) from by
          rw [printJson]]
        rw [printFields]
        rfl]
      exact parseVal_obj_nil fuel r
  | fuel + 1, .obj (.cons k v tl) =>
      have hsz : fieldsSize (.cons k v tl) ≤ fuel := by
        have e : jsonSize (.obj (.cons k v tl)) = fieldsSize (.cons k v tl) + 1 := by
          rw [jsonSize]
        omega
      obtain ⟨cs2, hcs2⟩ : ∃ cs2, printFields (.cons k v tl) ++ '\x7d' :: r = '"' :: cs2 := by
        match tl with
        | .nil =>
            exact ⟨(escStr k ++ '"' :: ':' :: printJson v) ++ '\x7d' :: r, by
              rw [show printFields (.cons k v .nil) =
                '"' :: (escStr k ++ '"' :: ':' :: printJson v) from by
                  rw [printFields, printField]]
              rfl⟩
        | .cons k3 v3 tl3 =>
            exact ⟨(escStr k ++ '"' :: ':' :: printJson v) ++
                (',' :: printFields (.cons k3 v3 tl3) ++ '\x7d' :: r), by
              rw [show printFields (.cons k v (.cons k3 v3 tl3)) =
                ('"' :: (escStr k ++ '"' :: ':' :: printJson v)) ++
                  ',' :: printFields (.cons k3 v3 tl3) from by
                    rw [printFields, printField]]
              simp⟩
      rw [show printJson (.obj (.cons k v tl)) ++ r =
          '\x7b' :: (printFields (.cons k v tl) ++ '\x7d' :: r) from by
        rw [show printJson (.obj (.cons k v tl)) =
          '\x7b' :: (printFields (.cons k v tl) ++ ['\x7d']) from by rw [printJson]]
        simp]
      rw [hcs2, parseVal_obj_go fuel '"' cs2 (by decide) (by decide), ← hcs2]
      rw [parseFields_print (.cons k v tl) (by intro h; cases h) fuel r hsz]
      rfl

theorem parseElems_print (es : JsonList) (hne : es ≠ .nil) (fuel : Nat) (r : Str)
    (hf : elemsSize es ≤ fuel) :
    parseElemsTail fuel (printElems es ++ ']' :: r) = some (es, r) := by
  match fuel, es with
  | fuel, .nil => exact absurd rfl hne
  | 0, .cons j tl =>
      refine absurd hf ?_
      have hjp := jsonSize_pos j
      have e : elemsSize (.cons j tl) = jsonSize j + elemsSize tl := by rw [elemsSize]
      omega
  | fuel + 1, .cons j .nil =>
      have hj : jsonSize j ≤ fuel := by
        have e : elemsSize (.cons j .nil) = jsonSize j + 1 := by rw [elemsSize, elemsSize]
        omega
      have h1 := parseVal_print j fuel (']' :: r) hj (head_delim (by decide) r)
      rw [show printElems (.cons j .nil) = printJson j from by rw [printElems]]
      rw [parseElemsTail, h1]
      dsimp only
      rw [skipWs_cons_not_ws (by decide)]
      split
      · rename_i r2 heq
        injection heq with hh _
        exact absurd hh (by decide)
      · rename_i r2 heq
        injection heq with _ ht
        rw [← ht]
      · rename_i _hx hy
        exact absurd rfl (hy r)
  | fuel + 1, .cons j (.cons j2 tl) =>
      have e : elemsSize (.cons j (.cons j2 tl)) = jsonSize j + elemsSize (.cons j2 tl) := by
        rw [elemsSize]
      have hj : jsonSize j ≤ fuel := by have := elemsSize_pos (.cons j2 tl); omega
      have htl : elemsSize (.cons j2 tl) ≤ fuel := by have := jsonSize_pos j; omega
      have h1 := parseVal_print j fuel (',' :: (printElems (.cons j2 tl) ++ ']' :: r)) hj
        (head_delim (by decide) _)
      rw [show printElems (.cons j (.cons j2 tl)) ++ ']' :: r =
          printJson j ++ ',' :: (printElems (.cons j2 tl) ++ ']' :: r) from by
        rw [show printElems (.cons j (.cons j2 tl)) =
          printJson j ++ ',' :: printElems (.cons j2 tl) from by rw [printElems]]
        simp]
      rw [parseElemsTail, h1]
      dsimp only
      rw [skipWs_cons_not_ws (by decide)]
      split
      · rename_i r2 heq
        injection heq with _ ht
        rw [← ht, parseElems_print (.cons j2 tl) (by intro h; cases h) fuel r htl]
        rfl
      · rename_i r2 heq
        injection heq with hh _
        exact absurd hh (by decide)
      · rename_i hx _hy
        exact absurd rfl (hx _)

theorem parseFields_print (fs : JsonFields) (hne : fs ≠ .nil) (fuel : Nat) (r : Str)
    (hf : fieldsSize fs ≤ fuel) :
    parseFieldsTail fuel (printFields fs ++ '\x7d' :: r) = some (fs, r) := by
  match fuel, fs with
  | fuel, .nil => exact absurd rfl hne
  | 0, .cons k v tl =>
      refine absurd hf ?_
      have hvp := jsonSize_pos v
      have e : fieldsSize (.cons k v tl) = jsonSize v + fieldsSize tl := by rw [fieldsSize]
      omega
  | fuel + 1, .cons k v .nil =>
      have hv : jsonSize v ≤ fuel := by
        have e : fieldsSize (.cons k v .nil) = jsonSize v + 1 := by rw [fieldsSize, fieldsSize]
        omega
      have h1 := parseVal_print v fuel ('\x7d' :: r) hv (head_delim (by decide) r)
      rw [show printFields (.cons k v .nil) ++ '\x7d' :: r =
          '"' :: (escStr k ++ '"' :: ':' :: (printJson v ++ '\x7d' :: r)) from by
        rw [show printFields (.cons k v .nil) =
          '"' :: (escStr k ++ '"' :: ':' :: printJson v) from by rw [printFields, printField]]
        simp]
      rw [parseFieldsTail]
      rw [skipWs_cons_not_ws (by decide)]
      split
      · rename_i rest heq
        injection heq with _ hrest
        rw [← hrest, psb_escStr]
        dsimp only
        rw [skipWs_cons_not_ws (by decide)]
        split
        · rename_i r2 heq2
          injection heq2 with _ h2
          rw [← h2, h1]
          dsimp only
          rw [skipWs_cons_not_ws (by decide)]
          split
          · rename_i r4 heq3
            injection heq3 with hh _
            exact absurd hh (by decide)
          · rename_i r4 heq3
            injection heq3 with _ ht
            rw [← ht]
          · rename_i _hx hy
            exact absurd rfl (hy r)
        · rename_i hx
          exact absurd rfl (hx (printJson v ++ '\x7d' :: r))
      · rename_i hx
        exact absurd rfl (hx (escStr k ++ '"' :: ':' :: (printJson v ++ '\x7d' :: r)))
  | fuel + 1, .cons k v (.cons k3 v3 tl3) =>
      have e : fieldsSize (.cons k v (.cons k3 v3 tl3)) =
        jsonSize v + fieldsSize (.cons k3 v3 tl3) := by rw [fieldsSize]
      have hv : jsonSize v ≤ fuel := by have := fieldsSize_pos (.cons k3 v3 tl3); omega
      have htl : fieldsSize (.cons k3 v3 tl3) ≤ fuel := by have := jsonSize_pos v; omega
      have h1 := parseVal_print v fuel
        (',' :: (printFields (.cons k3 v3 tl3) ++ '\x7d' :: r)) hv (head_delim (by decide) _)
      rw [show printFields (.cons k v (.cons k3 v3 tl3)) ++ '\x7d' :: r =
          '"' :: (escStr k ++ '"' :: ':' ::
            (printJson v ++ ',' :: (printFields (.cons k3 v3 tl3) ++ '\x7d' :: r))) from by
        rw [show printFields (.cons k v (.cons k3 v3 tl3)) =
          ('"' :: (escStr k ++ '"' :: ':' :: printJson v)) ++
            ',' :: printFields (.cons k3 v3 tl3) from by rw [printFields, printField]]
        simp]
      rw [parseFieldsTail]
      rw [skipWs_cons_not_ws (by decide)]
      split
      · rename_i rest heq
        injection heq with _ hrest
        rw [← hrest, psb_escStr]
        dsimp only
        rw [skipWs_cons_not_ws (by decide)]
        split
        · rename_i r2 heq2
          injection heq2 with _ h2
          rw [← h2, h1]
          dsimp only
          rw [skipWs_cons_not_ws (by decide)]
          split
          · rename_i r4 heq3
            injection heq3 with _ ht
            rw [← ht, parseFields_print (.cons k3 v3 tl3) (by intro h; cases h) fuel r htl]
            rfl
          · rename_i r4 heq3
            injection heq3 with hh _
            exact absurd hh (by decide)
          · rename_i hx _hy
            exact absurd rfl (hx _)
        · rename_i hx
          exact absurd rfl (hx _)
      · rename_i hx
        exact absurd rfl (hx _)

end

/-! ## Fuel adequacy: the printed form is at least as long as the size (C6) -/

theorem jsonSize_base (j : Json) (h1 : ∀ es, j ≠ Json.arr es) (h2 : ∀ fs, j ≠ Json.obj fs) :
    jsonSize j = 1 := by
  rw [jsonSize]
  · exact fun es h => absurd h (h1 es)
  · exact fun fs h => absurd h (h2 fs)

mutual

theorem jsonSize_le_print (j : Json) : jsonSize j ≤ (printJson j).length := by
  match j with
  | .null =>
      rw [jsonSize_base _ (fun _ h => Json.noConfusion h) (fun _ h => Json.noConfusion h),
        printJson]
      decide
  | .bool true =>
      rw [jsonSize_base _ (fun _ h => Json.noConfusion h) (fun _ h => Json.noConfusion h),
        printJson]
      decide
  | .bool false =>
      rw [jsonSize_base _ (fun _ h => Json.noConfusion h) (fun _ h => Json.noConfusion h),
        printJson]
      decide
  | .num m =>
      rw [jsonSize_base _ (fun _ h => Json.noConfusion h) (fun _ h => Json.noConfusion h),
        printJson]
      rw [intDigits]
      split
      · simp
      · have := natDigits_ne_nil m.toNat
        have hp : 0 < (natDigits m.toNat).length := List.length_pos.mpr this
        omega
  | .str s =>
      rw [jsonSize_base _ (fun _ h => Json.noConfusion h) (fun _ h => Json.noConfusion h),
        printJson]
      simp
  | .arr es =>
      have ih := elemsSize_le_print es
      rw [jsonSize, printJson]
      simp only [List.length_cons, List.length_append, List.length_singleton]
      omega
  | .obj fs =>
      have ih := fieldsSize_le_print fs
      rw [jsonSize, printJson]
      simp only [List.length_cons, List.length_append, List.length_singleton]
      omega

theorem elemsSize_le_print (es : JsonList) : elemsSize es ≤ (printElems es).length + 1 := by
  match es with
  | .nil => rw [elemsSize, printElems]; decide
  | .cons j .nil =>
      have ih := jsonSize_le_print j
      rw [elemsSize, elemsSize, printElems]
      omega
  | .cons j (.cons j2 tl) =>
      have ih := jsonSize_le_print j
      have ih2 := elemsSize_le_print (.cons j2 tl)
      rw [elemsSize, printElems]
      simp only [List.length_append, List.length_cons]
      omega

theorem fieldsSize_le_print (fs : JsonFields) : fieldsSize fs ≤ (printFields fs).length + 1 := by
  match fs with
  | .nil => rw [fieldsSize, printFields]; decide
  | .cons k v .nil =>
      have ih := jsonSize_le_print v
      rw [fieldsSize, fieldsSize, printFields, printField]
      simp only [List.length_cons, List.length_append]
      omega
  | .cons k v (.cons k3 v3 tl3) =>
      have ih := jsonSize_le_print v
      have ih2 := fieldsSize_le_print (.cons k3 v3 tl3)
      rw [fieldsSize, printFields, printField]
      simp only [List.length_cons, List.length_append]
      omega

end

/-! ## Entry-level decode/encode and line handling (C6) -/

theorem decodeEntry_encode (e : TranscriptEntry) : decodeEntry (encodeEntry e) = some e := by
  obtain ⟨ts, role, content, tc⟩ := e
  cases content <;> cases tc <;> cases role <;>
    simp [encodeEntry, encodeContent, decodeEntry, decodeContent, jGet, fieldsGet,
      jAsStr, jAsBool, roleStr, roleOfStr?, tsParse?_tsRender, Int.toNat_natCast]

theorem lineDecode_encode (e : TranscriptEntry) :
    lineDecode (printJson (encodeEntry e)) = some e := by
  unfold lineDecode
  have hsz : jsonSize (encodeEntry e) ≤ (printJson (encodeEntry e)).length + 1 :=
    le_trans (jsonSize_le_print _) (Nat.le_succ _)
  have h := parseVal_print (encodeEntry e) ((printJson (encodeEntry e)).length + 1) []
    hsz head_delim_nil
  rw [List.append_nil] at h
  rw [h]
  simp [skipWs, decodeEntry_encode]

theorem digCh_not_nl (d : Nat) : digCh d ≠ '\n' ∧ digCh d ≠ '\r' := by
  unfold digCh
  split <;> exact ⟨by decide, by decide⟩

theorem digCh16_not_nl (d : Nat) : digCh16 d ≠ '\n' ∧ digCh16 d ≠ '\r' := by
  unfold digCh16
  split
  · exact digCh_not_nl d
  · split <;> exact ⟨by decide, by decide⟩

theorem escChar_not_nl (c : Char) : ∀ x ∈ escChar c, x ≠ '\n' ∧ x ≠ '\r' := by
  unfold escChar
  split_ifs with h1 h2 h3 h4 h5 h6 h7 h8 <;> intro x hx
  · simp at hx; rcases hx with rfl | rfl <;> exact ⟨by decide, by decide⟩
  · simp at hx; rcases hx with rfl | rfl <;> exact ⟨by decide, by decide⟩
  · simp at hx; rcases hx with rfl | rfl <;> exact ⟨by decide, by decide⟩
  · simp at hx; rcases hx with rfl | rfl <;> exact ⟨by decide, by decide⟩
  · simp at hx; rcases hx with rfl | rfl <;> exact ⟨by decide, by decide⟩
  · simp at hx; rcases hx with rfl | rfl <;> exact ⟨by decide, by decide⟩
  · simp at hx; rcases hx with rfl | rfl <;> exact ⟨by decide, by decide⟩
  · simp at hx
    rcases hx with rfl | rfl | rfl | rfl | rfl
    · exact ⟨by decide, by decide⟩
    · exact ⟨by decide, by decide⟩
    · exact ⟨by decide, by decide⟩
    · exact digCh16_not_nl _
    · exact digCh16_not_nl _
  · simp at hx
    subst hx
    constructor
    · intro hc; rw [hc] at h8; exact h8 (by decide)
    · intro hc; rw [hc] at h8; exact h8 (by decide)

mutual

theorem printJson_not_nl (j : Json) : ∀ x ∈ printJson j, x ≠ '\n' ∧ x ≠ '\r' := by
  match j with
  | .null =>
      rw [printJson]
      intro x hx
      simp at hx
      rcases hx with rfl | rfl | rfl | rfl <;> exact ⟨by decide, by decide⟩
  | .bool true =>
      rw [printJson]
      intro x hx
      simp at hx
      rcases hx with rfl | rfl | rfl | rfl <;> exact ⟨by decide, by decide⟩
  | .bool false =>
      rw [printJson]
      intro x hx
      simp at hx
      rcases hx with rfl | rfl | rfl | rfl | rfl <;> exact ⟨by decide, by decide⟩
  | .num m =>
      rw [printJson]
      intro x hx
      rw [intDigits] at hx
      have hdig : ∀ n, x ∈ natDigits n → x ≠ '\n' ∧ x ≠ '\r' := by
        intro n hn
        have hall := natDigits_all_digits n
        rw [List.all_eq_true] at hall
        exact ⟨isDigit_ne (hall x hn) (by decide), isDigit_ne (hall x hn) (by decide)⟩
      by_cases hm : m < 0
      · rw [if_pos hm] at hx
        rcases List.mem_cons.mp hx with rfl | hx2
        · exact ⟨by decide, by decide⟩
        · exact hdig _ hx2
      · rw [if_neg hm] at hx
        exact hdig _ hx
  | .str s =>
      rw [printJson]
      intro x hx
      rcases List.mem_cons.mp hx with rfl | hx2
      · exact ⟨by decide, by decide⟩
      rcases List.mem_append.mp hx2 with hx3 | hx3
      · unfold escStr at hx3
        obtain ⟨l, hl, hxl⟩ := List.mem_flatten.mp hx3
        obtain ⟨c, _, hc⟩ := List.mem_map.mp hl
        rw [← hc] at hxl
        exact escChar_not_nl c x hxl
      · simp at hx3
        subst hx3
        exact ⟨by decide, by decide⟩
  | .arr es =>
      rw [printJson]
      intro x hx
      rcases List.mem_cons.mp hx with rfl | hx2
      · exact ⟨by decide, by decide⟩
      rcases List.mem_append.mp hx2 with hx3 | hx3
      · exact printElems_not_nl es x hx3
      · simp at hx3
        subst hx3
        exact ⟨by decide, by decide⟩
  | .obj fs =>
      rw [printJson]
      intro x hx
      rcases List.mem_cons.mp hx with rfl | hx2
      · exact ⟨by decide, by decide⟩
      rcases List.mem_append.mp hx2 with hx3 | hx3
      · exact printFields_not_nl fs x hx3
      · simp at hx3
        subst hx3
        exact ⟨by decide, by decide⟩

theorem printElems_not_nl (es : JsonList) : ∀ x ∈ printElems es, x ≠ '\n' ∧ x ≠ '\r' := by
  match es with
  | .nil =>
      rw [printElems]
      intro x hx
      cases hx
  | .cons j .nil =>
      rw [printElems]
      exact printJson_not_nl j
  | .cons j (.cons j2 tl) =>
      rw [printElems]
      intro x hx
      rcases List.mem_append.mp hx with hx2 | hx2
      · exact printJson_not_nl j x hx2
      rcases List.mem_cons.mp hx2 with rfl | hx3
      · exact ⟨by decide, by decide⟩
      · exact printElems_not_nl (.cons j2 tl) x hx3

theorem printFields_not_nl (fs : JsonFields) : ∀ x ∈ printFields fs, x ≠ '\n' ∧ x ≠ '\r' := by
  match fs with
  | .nil =>
      rw [printFields]
      intro x hx
      cases hx
  | .cons k v .nil =>
      rw [printFields]
      exact printField_not_nl k v
  | .cons k v (.cons k3 v3 tl3) =>
      rw [printFields]
      intro x hx
      rcases List.mem_append.mp hx with hx2 | hx2
      · exact printField_not_nl k v x hx2
      rcases List.mem_cons.mp hx2 with rfl | hx3
      · exact ⟨by decide, by decide⟩
      · exact printFields_not_nl (.cons k3 v3 tl3) x hx3

theorem printField_not_nl (k : Str) (v : Json) : ∀ x ∈ printField k v, x ≠ '\n' ∧ x ≠ '\r' := by
  rw [printField]
  intro x hx
  rcases List.mem_cons.mp hx with rfl | hx2
  · exact ⟨by decide, by decide⟩
  rcases List.mem_append.mp hx2 with hx3 | hx3
  · unfold escStr at hx3
    obtain ⟨l, hl, hxl⟩ := List.mem_flatten.mp hx3
    obtain ⟨c, _, hc⟩ := List.mem_map.mp hl
    rw [← hc] at hxl
    exact escChar_not_nl c x hxl
  rcases List.mem_cons.mp hx3 with rfl | hx4
  · exact ⟨by decide, by decide⟩
  rcases List.mem_cons.mp hx4 with rfl | hx5
  · exact ⟨by decide, by decide⟩
  · exact printJson_not_nl v x hx5

end

/-! ## `str::lines` on printed JSONL text (C6) -/

theorem dropWhileP_forall {p : Char → Bool} {l : Str} (h : dropWhileP p l = []) :
    ∀ c ∈ l, p c = true := by
  induction l with
  | nil => intro c hc; cases hc
  | cons c cs ih =>
      rw [dropWhileP] at h
      by_cases hp : p c = true
      · rw [if_pos hp] at h
        intro d hd
        rcases List.mem_cons.mp hd with rfl | hd2
        · exact hp
        · exact ih h d hd2
      · rw [if_neg hp] at h
        cases h

theorem mem_dropWhileP_or {p : Char → Bool} {l : Str} {c : Char} (hc : c ∈ l) :
    p c = true ∨ c ∈ dropWhileP p l := by
  induction l with
  | nil => cases hc
  | cons d ds ih =>
      rw [dropWhileP]
      by_cases hp : p d = true
      · rw [if_pos hp]
        rcases List.mem_cons.mp hc with rfl | h2
        · exact Or.inl hp
        · exact ih h2
      · rw [if_neg hp]
        exact Or.inr hc

theorem trim_ne_nil {l : Str} {c : Char} (hc : c ∈ l) (hw : isWs c = false) : trim l ≠ [] := by
  intro h
  unfold trim trimMatches at h
  rcases mem_dropWhileP_or (p := isWs) (List.mem_reverse.mpr hc) with h1 | h1
  · rw [hw] at h1; cases h1
  rcases mem_dropWhileP_or (p := isWs) (List.mem_reverse.mpr h1) with h2 | h2
  · rw [hw] at h2; cases h2
  · rw [h] at h2; cases h2

theorem splitChar_ne_nil (ch : Char) (s : Str) : splitChar ch s ≠ [] := by
  match s with
  | [] => simp [splitChar]
  | c :: rest =>
      rw [splitChar]
      split
      · simp
      · split <;> simp

theorem splitChar_append_no (l : Str) (hl : ∀ c ∈ l, c ≠ '\n') (rest : Str) :
    splitChar '\n' (l ++ '\n' :: rest) = l :: splitChar '\n' rest := by
  induction l with
  | nil =>
      rw [List.nil_append, splitChar, if_pos rfl]
  | cons c cs ih =>
      have hc : c ≠ '\n' := hl c (List.mem_cons_self c cs)
      rw [List.cons_append, splitChar, if_neg hc]
      rw [ih (fun d hd => hl d (List.mem_cons_of_mem _ hd))]

theorem stripCr_no {l : Str} (h : ∀ c ∈ l, c ≠ '\r') : stripCr l = l := by
  unfold stripCr
  split
  · rename_i heq
    exact absurd rfl (h '\r' (List.mem_of_getLast?_eq_some heq))
  · rfl

theorem rustLines_cons_line (l : Str) (hnl : ∀ c ∈ l, c ≠ '\n') (hcr : ∀ c ∈ l, c ≠ '\r')
    (rest : Str) : rustLines (l ++ '\n' :: rest) = l :: rustLines rest := by
  unfold rustLines
  rw [splitChar_append_no l hnl rest]
  cases hxs : splitChar '\n' rest with
  | nil => exact absurd hxs (splitChar_ne_nil _ _)
  | cons x xs =>
      dsimp only
      rw [List.dropLast_cons₂, List.getLast?_cons_cons]
      rw [List.map_cons, stripCr_no hcr]
      rfl

theorem toJsonl_cons (e : TranscriptEntry) (es : List TranscriptEntry) :
    toJsonl ⟨e :: es⟩ = printJson (encodeEntry e) ++ '\n' :: toJsonl ⟨es⟩ := by
  unfold toJsonl
  simp

theorem fromJsonl_aux (es : List TranscriptEntry) :
    ((rustLines (toJsonl ⟨es⟩)).filter (fun l => trim l ≠ [])).mapM lineDecode = some es := by
  induction es with
  | nil => rfl
  | cons e es ih =>
      have hline := printJson_not_nl (encodeEntry e)
      rw [toJsonl_cons]
      rw [rustLines_cons_line _ (fun c hc => (hline c hc).1) (fun c hc => (hline c hc).2)]
      obtain ⟨c, cs, hc, hws, _, _⟩ := printJson_head (encodeEntry e)
      have htr : trim (printJson (encodeEntry e)) ≠ [] :=
        trim_ne_nil (by rw [hc]; exact List.mem_cons_self c cs) hws
      rw [List.filter_cons_of_pos (by simpa using htr)]
      rw [List.mapM_cons, lineDecode_encode, ih]
      rfl

/-- **C6** (`Transcript::to_jsonl` / `Transcript::from_jsonl`,
`engram-core/src/model/transcript.rs`): for every `Transcript` `T`,
deserializing its JSONL serialization yields the original transcript:
`Transcript::from_jsonl(T.to_jsonl()) == Ok(T)`. -/
theorem C6_jsonl_roundtrip (t : Transcript) : fromJsonl (toJsonl t) = some t := by
  obtain ⟨es⟩ := t
  unfold fromJsonl
  rw [fromJsonl_aux es]
  rfl

/-! ## String lemmas for the Markdown round trip (C5) -/

theorem dropWhileP_head {p : Char → Bool} {l : Str} {c : Char} {cs : Str}
    (h : dropWhileP p l = c :: cs) : p c = false := by
  induction l with
  | nil => cases h
  | cons d ds ih =>
      rw [dropWhileP] at h
      by_cases hp : p d = true
      · rw [if_pos hp] at h
        exact ih h
      · rw [if_neg hp] at h
        injection h with h1 _
        rw [← h1]
        exact Bool.eq_false_iff.mpr hp

theorem trim_head {b : Str} (hb : trim b = b) {c : Char} {cs : Str} (hcons : b = c :: cs) :
    isWs c = false := by
  unfold trim trimMatches at hb
  rw [hcons] at hb
  exact dropWhileP_head hb

theorem dropWhileP_length_le (p : Char → Bool) (l : Str) :
    (dropWhileP p l).length ≤ l.length := by
  induction l with
  | nil => exact Nat.le.refl
  | cons c cs ih =>
      rw [dropWhileP]
      by_cases hp : p c = true
      · rw [if_pos hp]
        simp only [List.length_cons]
        omega
      · rw [if_neg hp]

theorem dropWhileP_eq_self_of_length {p : Char → Bool} {l : Str}
    (h : (dropWhileP p l).length = l.length) : dropWhileP p l = l := by
  induction l with
  | nil => rfl
  | cons c cs ih =>
      rw [dropWhileP] at h ⊢
      by_cases hp : p c = true
      · rw [if_pos hp] at h
        have := dropWhileP_length_le p cs
        simp only [List.length_cons] at h
        omega
      · rw [if_neg hp]

theorem trim_last {b : Str} (hb : trim b = b) {c : Char} (hlast : b.getLast? = some c) :
    isWs c = false := by
  unfold trim trimMatches at hb
  have h1 : (dropWhileP isWs ((dropWhileP isWs b.reverse).reverse)).length = b.length := by
    rw [hb]
  have h2 := dropWhileP_length_le isWs ((dropWhileP isWs b.reverse).reverse)
  have h3 := dropWhileP_length_le isWs b.reverse
  rw [List.length_reverse] at h2
  have h4 : (dropWhileP isWs b.reverse).length = b.reverse.length := by
    rw [List.length_reverse]
    have hrev : b.reverse.length = b.length := List.length_reverse b
    omega
  have h5 : dropWhileP isWs b.reverse = b.reverse := dropWhileP_eq_self_of_length h4
  cases hrev : b.reverse with
  | nil =>
      rw [show b = b.reverse.reverse from (List.reverse_reverse b).symm, hrev] at hlast
      cases hlast
  | cons d ds =>
      have hd : isWs d = false := by
        rw [hrev] at h5
        exact dropWhileP_head h5
      have : b.getLast? = some d := by
        rw [← List.head?_reverse, hrev]
        rfl
      rw [this] at hlast
      injection hlast with he
      rw [← he]
      exact hd

theorem trim_append_nl (b : Str) : trim (b ++ ['\n']) = trim b := by
  unfold trim trimMatches
  rw [List.reverse_append]
  rw [show (['\n'] : Str).reverse ++ b.reverse = '\n' :: b.reverse from by simp]
  rw [show dropWhileP isWs ('\n' :: b.reverse) = dropWhileP isWs b.reverse from by
    rw [dropWhileP, if_pos (by decide)]]

theorem splitChar_sep (ch : Char) (b rest : Str) :
    splitChar ch (b ++ ch :: rest) = splitChar ch b ++ splitChar ch rest := by
  induction b with
  | nil =>
      rw [List.nil_append]
      rw [show splitChar ch (ch :: rest) = [] :: splitChar ch rest from by
        rw [splitChar, if_pos rfl]]
      rfl
  | cons c cs ih =>
      rw [List.cons_append, splitChar]
      by_cases hc : c = ch
      · rw [if_pos hc, ih]
        rw [show splitChar ch (c :: cs) = [] :: splitChar ch cs from by
          rw [splitChar, if_pos hc]]
        rfl
      · rw [if_neg hc, ih]
        rw [show splitChar ch (c :: cs) =
          (match splitChar ch cs with
           | [] => [[c]]
           | p :: ps => (c :: p) :: ps) from by rw [splitChar, if_neg hc]]
        cases hcs : splitChar ch cs with
        | nil => exact absurd hcs (splitChar_ne_nil _ _)
        | cons p ps => rfl

theorem splitChar_chars (ch : Char) (s : Str) :
    ∀ p ∈ splitChar ch s, ∀ c ∈ p, c ∈ s := by
  induction s with
  | nil =>
      intro p hp c hc
      simp [splitChar] at hp
      rw [hp] at hc
      cases hc
  | cons d ds ih =>
      intro p hp c hc
      rw [splitChar] at hp
      by_cases hd : d = ch
      · rw [if_pos hd] at hp
        rcases List.mem_cons.mp hp with rfl | hp2
        · cases hc
        · exact List.mem_cons_of_mem _ (ih p hp2 c hc)
      · rw [if_neg hd] at hp
        cases hds : splitChar ch ds with
        | nil => exact absurd hds (splitChar_ne_nil _ _)
        | cons q qs =>
            rw [hds] at hp
            rcases List.mem_cons.mp hp with rfl | hp2
            · rcases List.mem_cons.mp hc with rfl | hc2
              · exact List.mem_cons_self _ _
              · exact List.mem_cons_of_mem _
                  (ih q (by rw [hds]; exact List.mem_cons_self _ _) c hc2)
            · exact List.mem_cons_of_mem _
                (ih p (by rw [hds]; exact List.mem_cons_of_mem _ hp2) c hc)

theorem nlTail_eq_nlJoin {ps : List Str} (h : ps ≠ []) : nlTail ps = '\n' :: nlJoin ps := by
  match ps with
  | [] => exact absurd rfl h
  | p :: ps2 =>
      rw [nlJoin]
      unfold nlTail
      rw [List.map_cons, List.flatten_cons]
      rfl

theorem splitChar_nlJoin (b : Str) : nlJoin (splitChar '\n' b) = b := by
  induction b with
  | nil => rfl
  | cons c cs ih =>
      rw [splitChar]
      by_cases hc : c = '\n'
      · rw [if_pos hc, nlJoin, List.nil_append,
          nlTail_eq_nlJoin (splitChar_ne_nil '\n' cs), ih, hc]
      · rw [if_neg hc]
        cases hcs : splitChar '\n' cs with
        | nil => exact absurd hcs (splitChar_ne_nil _ _)
        | cons p ps =>
            rw [hcs] at ih
            rw [nlJoin] at ih ⊢
            rw [List.cons_append, ih]

theorem splitChar_getLast_ne_nil {b : Str} (hne : b ≠ []) (hlast : b.getLast? ≠ some '\n')
    {p : Str} (hp : (splitChar '\n' b).getLast? = some p) : p ≠ [] := by
  induction b generalizing p with
  | nil => exact absurd rfl hne
  | cons c cs ih =>
      rw [splitChar] at hp
      by_cases hc : c = '\n'
      · subst hc
        rw [if_pos rfl] at hp
        cases cs with
        | nil => simp at hlast
        | cons d ds =>
            cases hsp : splitChar '\n' (d :: ds) with
            | nil => exact absurd hsp (splitChar_ne_nil _ _)
            | cons y ys =>
                rw [hsp, List.getLast?_cons_cons] at hp
                rw [← hsp] at hp
                exact ih (by simp) (by rwa [List.getLast?_cons_cons] at hlast) hp
      · rw [if_neg hc] at hp
        cases hcs : splitChar '\n' cs with
        | nil => exact absurd hcs (splitChar_ne_nil _ _)
        | cons q qs =>
            rw [hcs] at hp
            cases qs with
            | nil =>
                simp at hp
                rw [← hp]
                simp
            | cons q2 qs2 =>
                rw [List.getLast?_cons_cons] at hp
                cases cs with
                | nil =>
                    rw [show splitChar '\n' [] = [[]] from rfl] at hcs
                    injection hcs with _ hqs
                    cases hqs
                | cons d ds =>
                    have hq2 : (splitChar '\n' (d :: ds)).getLast? = some p := by
                      rw [hcs, List.getLast?_cons_cons]
                      exact hp
                    exact ih (by simp)
                      (by rwa [List.getLast?_cons_cons] at hlast) hq2

theorem map_stripCr_id {ps : List Str} (h : ∀ p ∈ ps, ∀ c ∈ p, c ≠ '\r') :
    ps.map stripCr = ps := by
  induction ps with
  | nil => rfl
  | cons p ps2 ih =>
      rw [List.map_cons, stripCr_no (h p (List.mem_cons_self _ _)),
        ih (fun q hq => h q (List.mem_cons_of_mem _ hq))]

theorem rustLines_eq_splitChar {b : Str} (hcr : ∀ c ∈ b, c ≠ '\r') (hne : b ≠ [])
    (hlast : b.getLast? ≠ some '\n') : rustLines b = splitChar '\n' b := by
  have hpn := splitChar_ne_nil '\n' b
  have hg : (splitChar '\n' b).getLast? = some ((splitChar '\n' b).getLast hpn) :=
    List.getLast?_eq_getLast _ hpn
  have hpne : (splitChar '\n' b).getLast hpn ≠ [] :=
    splitChar_getLast_ne_nil hne hlast hg
  unfold rustLines
  dsimp only
  rw [hg]
  cases hp : (splitChar '\n' b).getLast hpn with
  | nil => exact absurd hp hpne
  | cons x xs =>
      dsimp only
      rw [map_stripCr_id
        (fun p hp2 c hc => hcr c (splitChar_chars '\n' b p (List.mem_of_mem_dropLast hp2) c hc))]
      rw [← hp]
      exact List.dropLast_append_getLast? _ hg

theorem rustLines_append_block {b : Str} (hcr : ∀ c ∈ b, c ≠ '\r') (rest : Str) :
    rustLines (b ++ '\n' :: rest) = splitChar '\n' b ++ rustLines rest := by
  unfold rustLines
  dsimp only
  rw [splitChar_sep]
  have hB := splitChar_ne_nil '\n' rest
  rw [List.dropLast_append_of_ne_nil _ hB, List.getLast?_append_of_ne_nil _ hB]
  rw [List.map_append]
  rw [map_stripCr_id (fun p hp2 c hc => hcr c (splitChar_chars '\n' b p hp2 c hc))]
  rw [List.append_assoc]

/-! ## One-step reductions of `Intent::from_markdown`'s loop (C5) -/

theorem mdStep_content_line (st : MdState) (l : Str) (hh : headerLine l = false)
    (hc1 : st.cur ≠ "dead_ends".data) (hc2 : st.cur ≠ "decisions".data) :
    mdStep st l =
      if st.content ≠ [] ∨ l ≠ [] then
        { st with content := (if st.content ≠ [] then st.content ++ ['\n'] else st.content) ++ l }
      else st := by
  unfold headerLine at hh
  unfold mdStep
  rw [if_neg (by intro hcon; rw [hcon] at hh; simp at hh),
    if_neg (by intro hcon; rw [hcon] at hh; simp at hh),
    if_neg (by intro hcon; rw [hcon] at hh; simp at hh),
    if_neg (by intro hcon; rw [hcon] at hh; simp at hh),
    if_neg (by intro hcon; rw [hcon] at hh; simp at hh),
    if_neg (by intro hcon; rw [hcon] at hh; simp at hh),
    if_neg hc1, if_neg hc2]

theorem mdStep_blank_nil (st : MdState) (hc : st.content = []) : mdStep st [] = st := by
  unfold mdStep
  rw [if_neg (by decide), if_neg (by decide), if_neg (by decide), if_neg (by decide),
    if_neg (by decide), if_neg (by decide)]
  by_cases hd : st.cur = "dead_ends".data
  · rw [if_pos hd]
    rfl
  · rw [if_neg hd]
    by_cases hd2 : st.cur = "decisions".data
    · rw [if_pos hd2]
      rfl
    · rw [if_neg hd2, if_neg (by simp [hc])]

theorem mdStep_blank_block (st : MdState) (h1 : st.cur ≠ "dead_ends".data)
    (h2 : st.cur ≠ "decisions".data) :
    mdStep st [] =
      { st with content := st.content ++ if st.content = [] then [] else ['\n'] } := by
  rw [mdStep_content_line st [] (by decide) h1 h2]
  by_cases hc : st.content = []
  · rw [if_neg (by simp [hc]), if_pos hc, List.append_nil]
  · rw [if_pos (Or.inl hc), if_pos hc, if_neg hc, List.append_nil]

theorem mdStep_goal_header (st : MdState) :
    mdStep st "## Interpreted Goal".data = mdSwitch st "goal".data := by
  unfold mdStep
  rw [if_neg (by decide), if_neg (by decide), if_pos (by decide)]

theorem mdStep_summary_header (st : MdState) :
    mdStep st "## Summary".data = mdSwitch st "summary".data := by
  unfold mdStep
  rw [if_neg (by decide), if_neg (by decide), if_neg (by decide), if_pos (by decide)]

theorem mdStep_de_header (st : MdState) :
    mdStep st "## Dead Ends".data = mdSwitch st "dead_ends".data := by
  unfold mdStep
  rw [if_neg (by decide), if_neg (by decide), if_neg (by decide), if_neg (by decide),
    if_pos (by decide)]

theorem mdStep_dec_header (st : MdState) :
    mdStep st "## Decisions".data = mdSwitch st "decisions".data := by
  unfold mdStep
  rw [if_neg (by decide), if_neg (by decide), if_neg (by decide), if_neg (by decide),
    if_neg (by decide), if_pos (by decide)]

theorem saveSection_other (st : MdState) (h1 : st.cur ≠ "intent".data)
    (h2 : st.cur ≠ "goal".data) (h3 : st.cur ≠ "summary".data) : saveSection st = st := by
  unfold saveSection
  dsimp only
  by_cases ht : trim st.content = []
  · rw [if_pos ht]
  · rw [if_neg ht, if_neg h1, if_neg h2, if_neg h3]

theorem saveSection_intent (st : MdState) (h : st.cur = "intent".data) :
    saveSection st = if trim st.content = [] then st
      else { st with original_request := trim st.content } := by
  unfold saveSection
  dsimp only
  by_cases ht : trim st.content = []
  · rw [if_pos ht, if_pos ht]
  · rw [if_neg ht, if_neg ht, if_pos h]

theorem saveSection_goal (st : MdState) (h : st.cur = "goal".data) :
    saveSection st = if trim st.content = [] then st
      else { st with interpreted_goal := some (trim st.content) } := by
  unfold saveSection
  dsimp only
  by_cases ht : trim st.content = []
  · rw [if_pos ht, if_pos ht]
  · rw [if_neg ht, if_neg ht, if_neg (by rw [h]; decide), if_pos h]

theorem saveSection_summary (st : MdState) (h : st.cur = "summary".data) :
    saveSection st = if trim st.content = [] then st
      else { st with summary := some (trim st.content) } := by
  unfold saveSection
  dsimp only
  by_cases ht : trim st.content = []
  · rw [if_pos ht, if_pos ht]
  · rw [if_neg ht, if_neg ht, if_neg (by rw [h]; decide), if_neg (by rw [h]; decide), if_pos h]

theorem saveSection_content (st : MdState) : (saveSection st).content = st.content := by
  unfold saveSection
  dsimp only
  split_ifs <;> rfl

theorem saveSection_cur (st : MdState) : (saveSection st).cur = st.cur := by
  unfold saveSection
  dsimp only
  split_ifs <;> rfl

theorem saveSection_dead_ends (st : MdState) : (saveSection st).dead_ends = st.dead_ends := by
  unfold saveSection
  dsimp only
  split_ifs <;> rfl

theorem saveSection_decisions (st : MdState) : (saveSection st).decisions = st.decisions := by
  unfold saveSection
  dsimp only
  split_ifs <;> rfl

theorem saveSection_pad (st : MdState) :
    saveSection { st with content := st.content ++ if st.content = [] then [] else ['\n'] } =
      { saveSection st with
        content := st.content ++ if st.content = [] then [] else ['\n'] } := by
  by_cases hc : st.content = []
  · rw [if_pos hc, List.append_nil]
    show saveSection st = { saveSection st with content := st.content }
    rw [← saveSection_content st]
  · rw [if_neg hc]
    unfold saveSection
    dsimp only
    rw [trim_append_nl]
    split_ifs <;> rfl

/-! ## First-occurrence splitting of a list item (C5) -/

theorem splitOnceSub_boundary (pat : Str) (hp : pat ≠ []) (a r : Str)
    (hno : containsSub pat ((a ++ pat).dropLast) = false) :
    splitOnceSub pat (a ++ (pat ++ r)) = some (a, r) := by
  induction a with
  | nil =>
      rw [List.nil_append]
      cases hpat : pat with
      | nil => exact absurd hpat hp
      | cons pc pcs =>
          rw [List.cons_append, splitOnceSub]
          rw [show pc :: (pcs ++ r) = (pc :: pcs) ++ r from rfl, ← hpat, startsWith_append]
          rw [if_pos rfl]
          rw [List.drop_left]
  | cons c a2 ih =>
      have hab : a2 ++ pat ≠ [] := by
        intro hcon
        exact hp (List.append_eq_nil.mp hcon).2
      have hdl : ((c :: a2) ++ pat).dropLast = c :: (a2 ++ pat).dropLast := by
        rw [List.cons_append]
        exact List.dropLast_cons_of_ne_nil hab
      rw [hdl, containsSub_cons, Bool.or_eq_false_iff] at hno
      have hsw : startsWith pat (c :: (a2 ++ (pat ++ r))) = false := by
        by_contra hcon
        rw [Bool.not_eq_false] at hcon
        have hpre := startsWith_iff.mp hcon
        have htk : (c :: (a2 ++ (pat ++ r))).take (a2.length + pat.length) =
            c :: (a2 ++ pat).dropLast := by
          rw [show c :: (a2 ++ (pat ++ r)) = (c :: (a2 ++ pat)) ++ r from by simp]
          rw [List.take_append_of_le_length
            (by simp only [List.length_cons, List.length_append]; omega)]
          rw [show a2.length + pat.length = (c :: (a2 ++ pat)).length - 1 from by simp]
          rw [← List.dropLast_eq_take]
          rw [← List.cons_append]
          exact hdl
        have hpre2 : pat <+: c :: (a2 ++ pat).dropLast := by
          rw [← htk]
          exact List.prefix_take_iff.mpr ⟨hpre, Nat.le_add_left _ _⟩
        have hsw2 : startsWith pat (c :: (a2 ++ pat).dropLast) = true :=
          startsWith_iff.mpr hpre2
        rw [hsw2] at hno
        simp at hno
      rw [show (c :: a2) ++ (pat ++ r) = c :: (a2 ++ (pat ++ r)) from rfl]
      rw [splitOnceSub, if_neg (by simp [hsw])]
      rw [ih hno.2]
      rfl

theorem not_contains_forall {l : Str} {a : Char} (h : l.contains a = false) :
    ∀ c ∈ l, c ≠ a := by
  intro c hc he
  subst he
  rw [List.contains_eq_any_beq, List.any_eq_false] at h
  exact h c hc (by simp)

/-! ## List-item lines of `Intent::from_markdown` (C5) -/

theorem mdStep_de_item (st : MdState) (hcur : st.cur = "dead_ends".data) (a r : Str)
    (hno : containsSub itemSep ((a ++ itemSep).dropLast) = false) :
    mdStep st ("- **".data ++ (a ++ (itemSep ++ r))) =
      { st with dead_ends := st.dead_ends ++ [{ approach := a, reason := r }] } := by
  have hline : "- **".data ++ (a ++ (itemSep ++ r)) =
      '-' :: (" **".data ++ (a ++ (itemSep ++ r))) := rfl
  unfold mdStep
  rw [hline]
  rw [show startsWith "# Intent".data ('-' :: (" **".data ++ (a ++ (itemSep ++ r)))) = false
      from startsWith_false_of_head (p := "# Intent".data) (c := '#') rfl (by decide) _,
    show startsWith "## Original Request".data
        ('-' :: (" **".data ++ (a ++ (itemSep ++ r)))) = false
      from startsWith_false_of_head (p := "## Original Request".data) (c := '#') rfl
        (by decide) _,
    show startsWith "## Interpreted Goal".data
        ('-' :: (" **".data ++ (a ++ (itemSep ++ r)))) = false
      from startsWith_false_of_head (p := "## Interpreted Goal".data) (c := '#') rfl
        (by decide) _,
    show startsWith "## Summary".data ('-' :: (" **".data ++ (a ++ (itemSep ++ r)))) = false
      from startsWith_false_of_head (p := "## Summary".data) (c := '#') rfl (by decide) _,
    show startsWith "## Dead Ends".data ('-' :: (" **".data ++ (a ++ (itemSep ++ r)))) = false
      from startsWith_false_of_head (p := "## Dead Ends".data) (c := '#') rfl (by decide) _,
    show startsWith "## Decisions".data ('-' :: (" **".data ++ (a ++ (itemSep ++ r)))) = false
      from startsWith_false_of_head (p := "## Decisions".data) (c := '#') rfl (by decide) _]
  simp only [Bool.false_eq_true, if_false]
  rw [if_pos hcur]
  rw [← hline, stripPre_append]
  dsimp only
  rw [show (['*', '*', ':', ' '] : Str) = itemSep from rfl]
  rw [splitOnceSub_boundary itemSep (by decide) a r hno]

theorem mdStep_dec_item (st : MdState) (hcur : st.cur = "decisions".data) (a r : Str)
    (hno : containsSub itemSep ((a ++ itemSep).dropLast) = false) :
    mdStep st ("- **".data ++ (a ++ (itemSep ++ r))) =
      { st with decisions := st.decisions ++ [{ description := a, rationale := r }] } := by
  have hline : "- **".data ++ (a ++ (itemSep ++ r)) =
      '-' :: (" **".data ++ (a ++ (itemSep ++ r))) := rfl
  unfold mdStep
  rw [hline]
  rw [show startsWith "# Intent".data ('-' :: (" **".data ++ (a ++ (itemSep ++ r)))) = false
      from startsWith_false_of_head (p := "# Intent".data) (c := '#') rfl (by decide) _,
    show startsWith "## Original Request".data
        ('-' :: (" **".data ++ (a ++ (itemSep ++ r)))) = false
      from startsWith_false_of_head (p := "## Original Request".data) (c := '#') rfl
        (by decide) _,
    show startsWith "## Interpreted Goal".data
        ('-' :: (" **".data ++ (a ++ (itemSep ++ r)))) = false
      from startsWith_false_of_head (p := "## Interpreted Goal".data) (c := '#') rfl
        (by decide) _,
    show startsWith "## Summary".data ('-' :: (" **".data ++ (a ++ (itemSep ++ r)))) = false
      from startsWith_false_of_head (p := "## Summary".data) (c := '#') rfl (by decide) _,
    show startsWith "## Dead Ends".data ('-' :: (" **".data ++ (a ++ (itemSep ++ r)))) = false
      from startsWith_false_of_head (p := "## Dead Ends".data) (c := '#') rfl (by decide) _,
    show startsWith "## Decisions".data ('-' :: (" **".data ++ (a ++ (itemSep ++ r)))) = false
      from startsWith_false_of_head (p := "## Decisions".data) (c := '#') rfl (by decide) _]
  simp only [Bool.false_eq_true, if_false]
  rw [if_neg (by rw [hcur]; decide), if_pos hcur]
  rw [← hline, stripPre_append]
  dsimp only
  rw [show (['*', '*', ':', ' '] : Str) = itemSep from rfl]
  rw [splitOnceSub_boundary itemSep (by decide) a r hno]

theorem itemSafe_fields {a r : Str} (hs : itemSafe a r = true) :
    a.contains '\n' = false ∧ r.contains '\n' = false ∧ a.contains '\r' = false ∧
    r.contains '\r' = false ∧ containsSub itemSep ((a ++ itemSep).dropLast) = false := by
  unfold itemSafe at hs
  simp only [Bool.and_eq_true, Bool.not_eq_true'] at hs
  exact ⟨hs.1.1.1.1, hs.1.1.1.2, hs.1.1.2, hs.1.2, hs.2⟩

theorem de_items_fold (des : List DeadEnd)
    (hsafe : ∀ de ∈ des, itemSafe de.approach de.reason = true) (st : MdState)
    (hcur : st.cur = "dead_ends".data) :
    List.foldl mdStep st
      (des.map (fun de => "- **".data ++ (de.approach ++ (itemSep ++ de.reason)))) =
      { st with dead_ends := st.dead_ends ++ des } := by
  induction des generalizing st with
  | nil =>
      rw [List.map_nil, List.foldl_nil, List.append_nil]
  | cons de des2 ih =>
      rw [List.map_cons, List.foldl_cons]
      have hno := (itemSafe_fields (hsafe de (List.mem_cons_self _ _))).2.2.2.2
      rw [mdStep_de_item st hcur de.approach de.reason hno]
      rw [ih (fun x hx => hsafe x (List.mem_cons_of_mem _ hx))
        { st with dead_ends := st.dead_ends ++ [de] } hcur]
      have he : (st.dead_ends ++ [de]) ++ des2 = st.dead_ends ++ de :: des2 := by simp
      rw [he]

theorem dec_items_fold (dcs : List Decision)
    (hsafe : ∀ d ∈ dcs, itemSafe d.description d.rationale = true) (st : MdState)
    (hcur : st.cur = "decisions".data) :
    List.foldl mdStep st
      (dcs.map (fun d => "- **".data ++ (d.description ++ (itemSep ++ d.rationale)))) =
      { st with decisions := st.decisions ++ dcs } := by
  induction dcs generalizing st with
  | nil =>
      rw [List.map_nil, List.foldl_nil, List.append_nil]
  | cons d dcs2 ih =>
      rw [List.map_cons, List.foldl_cons]
      have hno := (itemSafe_fields (hsafe d (List.mem_cons_self _ _))).2.2.2.2
      rw [mdStep_dec_item st hcur d.description d.rationale hno]
      rw [ih (fun x hx => hsafe x (List.mem_cons_of_mem _ hx))
        { st with decisions := st.decisions ++ [d] } hcur]
      have he : (st.decisions ++ [d]) ++ dcs2 = st.decisions ++ d :: dcs2 := by simp
      rw [he]

/-! ## Content accumulation over a section body (C5) -/

theorem content_fold_ne (ls : List Str) (hh : ∀ l ∈ ls, headerLine l = false) (st : MdState)
    (hc1 : st.cur ≠ "dead_ends".data) (hc2 : st.cur ≠ "decisions".data)
    (hcne : st.content ≠ []) :
    List.foldl mdStep st ls = { st with content := st.content ++ nlTail ls } := by
  induction ls generalizing st with
  | nil =>
      rw [List.foldl_nil]
      unfold nlTail
      rw [List.map_nil, List.flatten_nil, List.append_nil]
  | cons l ls2 ih =>
      rw [List.foldl_cons]
      rw [mdStep_content_line st l (hh l (List.mem_cons_self _ _)) hc1 hc2]
      rw [if_pos (Or.inl hcne), if_pos hcne]
      rw [ih (fun l2 hl2 => hh l2 (List.mem_cons_of_mem _ hl2))
        { st with content := (st.content ++ ['\n']) ++ l } hc1 hc2 (by simp)]
      have he : ((st.content ++ ['\n']) ++ l) ++ nlTail ls2 = st.content ++ nlTail (l :: ls2) := by
        unfold nlTail
        rw [List.map_cons, List.flatten_cons]
        simp
      rw [he]

theorem body_fold (b : Str) (hb : trim b = b)
    (hh : ∀ l ∈ splitChar '\n' b, headerLine l = false) (st : MdState)
    (hc1 : st.cur ≠ "dead_ends".data) (hc2 : st.cur ≠ "decisions".data)
    (hst : st.content = []) :
    List.foldl mdStep st (splitChar '\n' b) = { st with content := b } := by
  cases b with
  | nil =>
      rw [show splitChar '\n' ([] : Str) = [[]] from rfl, List.foldl_cons, List.foldl_nil]
      rw [mdStep_blank_nil st hst]
      have : ({ st with content := [] } : MdState) = st := by rw [← hst]
      rw [this]
  | cons c cs =>
      have hws := trim_head hb rfl
      have hcnl : c ≠ '\n' := by
        intro h
        rw [h] at hws
        exact absurd hws (by decide)
      obtain ⟨q, qs, hq⟩ : ∃ q qs, splitChar '\n' cs = q :: qs := by
        cases h : splitChar '\n' cs with
        | nil => exact absurd h (splitChar_ne_nil _ _)
        | cons q qs => exact ⟨q, qs, rfl⟩
      have hsp : splitChar '\n' (c :: cs) = (c :: q) :: qs := by
        rw [splitChar, if_neg hcnl, hq]
      rw [hsp, List.foldl_cons]
      rw [mdStep_content_line st (c :: q)
        (hh (c :: q) (by rw [hsp]; exact List.mem_cons_self _ _)) hc1 hc2]
      rw [if_pos (Or.inr (by simp)), if_neg (by simp [hst])]
      rw [hst, List.nil_append]
      rw [content_fold_ne qs (fun l hl => hh l (by rw [hsp]; exact List.mem_cons_of_mem _ hl))
        { st with content := c :: q } hc1 hc2 (by simp)]
      have hb2 : (c :: q) ++ nlTail qs = c :: cs := by
        have hj := splitChar_nlJoin (c :: cs)
        rw [hsp, nlJoin] at hj
        exact hj
      rw [hb2]

/-! ## Segment processing for the Markdown round trip (C5) -/

theorem mdStep_blank_ok (st : MdState)
    (hok : st.content = [] ∨ (st.cur ≠ "dead_ends".data ∧ st.cur ≠ "decisions".data)) :
    mdStep st [] =
      { st with content := st.content ++ if st.content = [] then [] else ['\n'] } := by
  rcases hok with hc | ⟨h1, h2⟩
  · rw [mdStep_blank_nil st hc, if_pos hc, List.append_nil]
  · exact mdStep_blank_block st h1 h2

theorem mdSwitch_eq (st : MdState) (next : Str) :
    mdSwitch st next = { saveSection st with cur := next, content := [] } := rfl

theorem items_lines {α : Type} (f g : α → Str) (xs : List α)
    (hx : ∀ x ∈ xs, itemSafe (f x) (g x) = true) (rest : Str) :
    rustLines
      ((xs.map (fun x => "- **".data ++ f x ++ "**: ".data ++ g x ++ ['\n'])).flatten ++ rest) =
      (xs.map (fun x => "- **".data ++ (f x ++ (itemSep ++ g x)))) ++ rustLines rest := by
  induction xs with
  | nil =>
      rw [List.map_nil, List.flatten_nil, List.nil_append, List.map_nil, List.nil_append]
  | cons x xs2 ih =>
      rw [List.map_cons, List.flatten_cons, List.map_cons]
      have hfx := itemSafe_fields (hx x (List.mem_cons_self _ _))
      have harr : ("- **".data ++ f x ++ "**: ".data ++ g x ++ ['\n']) ++
          ((xs2.map (fun y =>
            "- **".data ++ f y ++ "**: ".data ++ g y ++ ['\n'])).flatten ++ rest) =
          ("- **".data ++ (f x ++ (itemSep ++ g x))) ++
            '\n' :: ((xs2.map (fun y =>
              "- **".data ++ f y ++ "**: ".data ++ g y ++ ['\n'])).flatten ++ rest) := by
        rw [show itemSep = "**: ".data from rfl]
        simp [List.append_assoc]
      rw [List.append_assoc, harr]
      have hnl : ∀ c ∈ "- **".data ++ (f x ++ (itemSep ++ g x)), c ≠ '\n' := by
        intro c hc
        simp only [List.mem_append] at hc
        rcases hc with hc | hc | hc | hc
        · have hm : c ∈ (['-', ' ', '*', '*'] : Str) := hc
          fin_cases hm <;> decide
        · exact not_contains_forall hfx.1 c hc
        · have hm : c ∈ (['*', '*', ':', ' '] : Str) := hc
          fin_cases hm <;> decide
        · exact not_contains_forall hfx.2.1 c hc
      have hcr : ∀ c ∈ "- **".data ++ (f x ++ (itemSep ++ g x)), c ≠ '\r' := by
        intro c hc
        simp only [List.mem_append] at hc
        rcases hc with hc | hc | hc | hc
        · have hm : c ∈ (['-', ' ', '*', '*'] : Str) := hc
          fin_cases hm <;> decide
        · exact not_contains_forall hfx.2.2.1 c hc
        · have hm : c ∈ (['*', '*', ':', ' '] : Str) := hc
          fin_cases hm <;> decide
        · exact not_contains_forall hfx.2.2.2.1 c hc
      rw [rustLines_cons_line _ hnl hcr]
      rw [ih (fun y hy => hx y (List.mem_cons_of_mem _ hy))]
      rfl

theorem fold_dec (dcs : List Decision)
    (hsafe : ∀ d ∈ dcs, itemSafe d.description d.rationale = true)
    (st : MdState)
    (hok : st.content = [] ∨ (st.cur ≠ "dead_ends".data ∧ st.cur ≠ "decisions".data)) :
    (mdRun st (decSeg dcs)).original_request = (saveSection st).original_request ∧
    (mdRun st (decSeg dcs)).interpreted_goal = (saveSection st).interpreted_goal ∧
    (mdRun st (decSeg dcs)).summary = (saveSection st).summary ∧
    (mdRun st (decSeg dcs)).dead_ends = st.dead_ends ∧
    (mdRun st (decSeg dcs)).decisions = st.decisions ++ dcs := by
  by_cases hd : dcs = []
  · subst hd
    unfold mdRun decSeg
    rw [if_pos rfl]
    rw [show rustLines [] = [] from rfl, List.foldl_nil]
    exact ⟨rfl, rfl, rfl, saveSection_dead_ends st,
      by rw [saveSection_decisions, List.append_nil]⟩
  · unfold mdRun decSeg
    rw [if_neg hd]
    have hlines : rustLines ("\n## Decisions\n\n".data ++
        (dcs.map (fun d =>
          "- **".data ++ d.description ++ "**: ".data ++ d.rationale ++ ['\n'])).flatten) =
        [] :: "## Decisions".data :: [] ::
          (dcs.map (fun d => "- **".data ++ (d.description ++ (itemSep ++ d.rationale))) ++
            rustLines []) := by
      rw [show "\n## Decisions\n\n".data ++
          (dcs.map (fun d =>
            "- **".data ++ d.description ++ "**: ".data ++ d.rationale ++ ['\n'])).flatten =
          [] ++ '\n' :: ("## Decisions".data ++ '\n' :: ([] ++ '\n' ::
            ((dcs.map (fun d =>
              "- **".data ++ d.description ++ "**: ".data ++ d.rationale ++ ['\n'])).flatten
              ++ []))) from by simp]
      rw [rustLines_cons_line [] (by intro c hc; cases hc) (by intro c hc; cases hc)]
      rw [rustLines_cons_line "## Decisions".data (by decide) (by decide)]
      rw [rustLines_cons_line [] (by intro c hc; cases hc) (by intro c hc; cases hc)]
      rw [items_lines (fun d => d.description) (fun d => d.rationale) dcs hsafe []]
    rw [hlines]
    rw [List.foldl_cons, mdStep_blank_ok st hok]
    rw [List.foldl_cons, mdStep_dec_header]
    rw [mdSwitch_eq, saveSection_pad]
    rw [List.foldl_cons, mdStep_blank_nil _ rfl]
    rw [List.foldl_append]
    rw [dec_items_fold dcs hsafe _ rfl]
    rw [show rustLines ([] : Str) = [] from rfl, List.foldl_nil]
    rw [saveSection_other]
    · exact ⟨rfl, rfl, rfl, saveSection_dead_ends st,
        congrArg (fun l => l ++ dcs) (saveSection_decisions st)⟩
    · exact (by decide : ("decisions".data : Str) ≠ "intent".data)
    · exact (by decide : ("decisions".data : Str) ≠ "goal".data)
    · exact (by decide : ("decisions".data : Str) ≠ "summary".data)

theorem fold_de (des : List DeadEnd)
    (hde : ∀ de ∈ des, itemSafe de.approach de.reason = true)
    (dcs : List Decision)
    (hdc : ∀ d ∈ dcs, itemSafe d.description d.rationale = true)
    (st : MdState)
    (hok : st.content = [] ∨ (st.cur ≠ "dead_ends".data ∧ st.cur ≠ "decisions".data)) :
    (mdRun st (deSeg des ++ decSeg dcs)).original_request =
      (saveSection st).original_request ∧
    (mdRun st (deSeg des ++ decSeg dcs)).interpreted_goal =
      (saveSection st).interpreted_goal ∧
    (mdRun st (deSeg des ++ decSeg dcs)).summary = (saveSection st).summary ∧
    (mdRun st (deSeg des ++ decSeg dcs)).dead_ends = st.dead_ends ++ des ∧
    (mdRun st (deSeg des ++ decSeg dcs)).decisions = st.decisions ++ dcs := by
  by_cases hd : des = []
  · subst hd
    rw [show deSeg ([] : List DeadEnd) = [] from by unfold deSeg; rw [if_pos rfl],
      List.nil_append]
    obtain ⟨e1, e2, e3, e4, e5⟩ := fold_dec dcs hdc st hok
    exact ⟨e1, e2, e3, by rw [List.append_nil]; exact e4, e5⟩
  · unfold mdRun
    have hlines : rustLines (deSeg des ++ decSeg dcs) =
        [] :: "## Dead Ends".data :: [] ::
          (des.map (fun de => "- **".data ++ (de.approach ++ (itemSep ++ de.reason))) ++
            rustLines (decSeg dcs)) := by
      unfold deSeg
      rw [if_neg hd]
      rw [show ("\n## Dead Ends\n\n".data ++
          (des.map (fun de =>
            "- **".data ++ de.approach ++ "**: ".data ++ de.reason ++ ['\n'])).flatten) ++
            decSeg dcs =
          [] ++ '\n' :: ("## Dead Ends".data ++ '\n' :: ([] ++ '\n' ::
            ((des.map (fun de =>
              "- **".data ++ de.approach ++ "**: ".data ++ de.reason ++ ['\n'])).flatten
              ++ decSeg dcs))) from by simp]
      rw [rustLines_cons_line [] (by intro c hc; cases hc) (by intro c hc; cases hc)]
      rw [rustLines_cons_line "## Dead Ends".data (by decide) (by decide)]
      rw [rustLines_cons_line [] (by intro c hc; cases hc) (by intro c hc; cases hc)]
      rw [items_lines (fun de => de.approach) (fun de => de.reason) des hde (decSeg dcs)]
    rw [hlines]
    rw [List.foldl_cons, mdStep_blank_ok st hok]
    rw [List.foldl_cons, mdStep_de_header]
    rw [mdSwitch_eq, saveSection_pad]
    rw [List.foldl_cons, mdStep_blank_nil _ rfl]
    rw [List.foldl_append]
    rw [de_items_fold des hde _ rfl]
    obtain ⟨e1, e2, e3, e4, e5⟩ := fold_dec dcs hdc
      { original_request := (saveSection st).original_request
        interpreted_goal := (saveSection st).interpreted_goal
        summary := (saveSection st).summary
        dead_ends := (saveSection st).dead_ends ++ des
        decisions := (saveSection st).decisions
        cur := "dead_ends".data
        content := [] } (Or.inl rfl)
    refine ⟨e1.trans ?_, e2.trans ?_, e3.trans ?_, e4.trans ?_, e5.trans ?_⟩
    · rw [saveSection_other]
      · exact (by decide : ("dead_ends".data : Str) ≠ "intent".data)
      · exact (by decide : ("dead_ends".data : Str) ≠ "goal".data)
      · exact (by decide : ("dead_ends".data : Str) ≠ "summary".data)
    · rw [saveSection_other]
      · exact (by decide : ("dead_ends".data : Str) ≠ "intent".data)
      · exact (by decide : ("dead_ends".data : Str) ≠ "goal".data)
      · exact (by decide : ("dead_ends".data : Str) ≠ "summary".data)
    · rw [saveSection_other]
      · exact (by decide : ("dead_ends".data : Str) ≠ "intent".data)
      · exact (by decide : ("dead_ends".data : Str) ≠ "goal".data)
      · exact (by decide : ("dead_ends".data : Str) ≠ "summary".data)
    · rw [saveSection_dead_ends]
    · rw [saveSection_decisions]

theorem blockSafe_fields {s : Str} (h : blockSafe s = true) :
    trim s = s ∧ (∀ c ∈ s, c ≠ '\r') ∧ ∀ l ∈ rustLines s, headerLine l = false := by
  unfold blockSafe at h
  simp only [Bool.and_eq_true, decide_eq_true_eq, Bool.not_eq_true', List.all_eq_true] at h
  exact ⟨h.1.1, not_contains_forall h.1.2, h.2⟩

theorem blockSafe_splitChar_headers {s : Str} (hb : trim s = s) (hcr : ∀ c ∈ s, c ≠ '\r')
    (hhl : ∀ l ∈ rustLines s, headerLine l = false) (hne : s ≠ []) :
    ∀ l ∈ splitChar '\n' s, headerLine l = false := by
  have hlast : s.getLast? ≠ some '\n' := by
    intro hcon
    exact absurd (trim_last hb hcon) (by decide)
  rw [← rustLines_eq_splitChar hcr hne hlast]
  exact hhl

theorem fold_sum (sm : Option Str) (hsm : ∀ s ∈ sm, blockSafe s = true ∧ s ≠ [])
    (des : List DeadEnd) (hde : ∀ de ∈ des, itemSafe de.approach de.reason = true)
    (dcs : List Decision) (hdc : ∀ d ∈ dcs, itemSafe d.description d.rationale = true)
    (st : MdState)
    (hok : st.content = [] ∨ (st.cur ≠ "dead_ends".data ∧ st.cur ≠ "decisions".data)) :
    (mdRun st (sumSeg sm ++ (deSeg des ++ decSeg dcs))).original_request =
      (saveSection st).original_request ∧
    (mdRun st (sumSeg sm ++ (deSeg des ++ decSeg dcs))).interpreted_goal =
      (saveSection st).interpreted_goal ∧
    (mdRun st (sumSeg sm ++ (deSeg des ++ decSeg dcs))).summary =
      (match sm with | some s => some s | none => (saveSection st).summary) ∧
    (mdRun st (sumSeg sm ++ (deSeg des ++ decSeg dcs))).dead_ends = st.dead_ends ++ des ∧
    (mdRun st (sumSeg sm ++ (deSeg des ++ decSeg dcs))).decisions = st.decisions ++ dcs := by
  cases sm with
  | none =>
      rw [show sumSeg none = [] from rfl, List.nil_append]
      exact fold_de des hde dcs hdc st hok
  | some s =>
      obtain ⟨hbs, hsne⟩ := hsm s rfl
      obtain ⟨htr, hcr, hhl⟩ := blockSafe_fields hbs
      have hsc := blockSafe_splitChar_headers htr hcr hhl hsne
      unfold mdRun
      have hlines : rustLines (sumSeg (some s) ++ (deSeg des ++ decSeg dcs)) =
          [] :: "## Summary".data :: [] ::
            (splitChar '\n' s ++ rustLines (deSeg des ++ decSeg dcs)) := by
        rw [show sumSeg (some s) ++ (deSeg des ++ decSeg dcs) =
            [] ++ '\n' :: ("## Summary".data ++ '\n' :: ([] ++ '\n' ::
              (s ++ '\n' :: (deSeg des ++ decSeg dcs)))) from by
          unfold sumSeg
          simp]
        rw [rustLines_cons_line [] (by intro c hc; cases hc) (by intro c hc; cases hc)]
        rw [rustLines_cons_line "## Summary".data (by decide) (by decide)]
        rw [rustLines_cons_line [] (by intro c hc; cases hc) (by intro c hc; cases hc)]
        rw [rustLines_append_block hcr]
      rw [hlines]
      rw [List.foldl_cons, mdStep_blank_ok st hok]
      rw [List.foldl_cons, mdStep_summary_header]
      rw [mdSwitch_eq, saveSection_pad]
      rw [List.foldl_cons, mdStep_blank_nil _ rfl]
      rw [List.foldl_append]
      rw [body_fold s htr hsc _
        (by exact (by decide : ("summary".data : Str) ≠ "dead_ends".data))
        (by exact (by decide : ("summary".data : Str) ≠ "decisions".data)) rfl]
      obtain ⟨e1, e2, e3, e4, e5⟩ := fold_de des hde dcs hdc
        { original_request := (saveSection st).original_request
          interpreted_goal := (saveSection st).interpreted_goal
          summary := (saveSection st).summary
          dead_ends := (saveSection st).dead_ends
          decisions := (saveSection st).decisions
          cur := "summary".data
          content := s }
        (Or.inr ⟨(by decide : ("summary".data : Str) ≠ "dead_ends".data),
          (by decide : ("summary".data : Str) ≠ "decisions".data)⟩)
      refine ⟨e1.trans ?_, e2.trans ?_, e3.trans ?_, e4.trans ?_, e5.trans ?_⟩
      · rw [saveSection_summary _ rfl]
        dsimp only
        rw [htr, if_neg hsne]
      · rw [saveSection_summary _ rfl]
        dsimp only
        rw [htr, if_neg hsne]
      · rw [saveSection_summary _ rfl]
        dsimp only
        rw [htr, if_neg hsne]
      · rw [saveSection_dead_ends]
      · rw [saveSection_decisions]

theorem fold_goal (ig : Option Str) (hig : ∀ g ∈ ig, blockSafe g = true ∧ g ≠ [])
    (sm : Option Str) (hsm : ∀ s ∈ sm, blockSafe s = true ∧ s ≠ [])
    (des : List DeadEnd) (hde : ∀ de ∈ des, itemSafe de.approach de.reason = true)
    (dcs : List Decision) (hdc : ∀ d ∈ dcs, itemSafe d.description d.rationale = true)
    (st : MdState)
    (hok : st.content = [] ∨ (st.cur ≠ "dead_ends".data ∧ st.cur ≠ "decisions".data)) :
    (mdRun st (goalSeg ig ++ (sumSeg sm ++ (deSeg des ++ decSeg dcs)))).original_request =
      (saveSection st).original_request ∧
    (mdRun st (goalSeg ig ++ (sumSeg sm ++ (deSeg des ++ decSeg dcs)))).interpreted_goal =
      (match ig with | some g => some g | none => (saveSection st).interpreted_goal) ∧
    (mdRun st (goalSeg ig ++ (sumSeg sm ++ (deSeg des ++ decSeg dcs)))).summary =
      (match sm with | some s => some s | none => (saveSection st).summary) ∧
    (mdRun st (goalSeg ig ++ (sumSeg sm ++ (deSeg des ++ decSeg dcs)))).dead_ends =
      st.dead_ends ++ des ∧
    (mdRun st (goalSeg ig ++ (sumSeg sm ++ (deSeg des ++ decSeg dcs)))).decisions =
      st.decisions ++ dcs := by
  cases ig with
  | none =>
      rw [show goalSeg none = [] from rfl, List.nil_append]
      exact fold_sum sm hsm des hde dcs hdc st hok
  | some g =>
      obtain ⟨hbs, hgne⟩ := hig g rfl
      obtain ⟨htr, hcr, hhl⟩ := blockSafe_fields hbs
      have hsc := blockSafe_splitChar_headers htr hcr hhl hgne
      unfold mdRun
      have hlines : rustLines (goalSeg (some g) ++ (sumSeg sm ++ (deSeg des ++ decSeg dcs))) =
          [] :: "## Interpreted Goal".data :: [] ::
            (splitChar '\n' g ++ rustLines (sumSeg sm ++ (deSeg des ++ decSeg dcs))) := by
        rw [show goalSeg (some g) ++ (sumSeg sm ++ (deSeg des ++ decSeg dcs)) =
            [] ++ '\n' :: ("## Interpreted Goal".data ++ '\n' :: ([] ++ '\n' ::
              (g ++ '\n' :: (sumSeg sm ++ (deSeg des ++ decSeg dcs))))) from by
          unfold goalSeg
          simp]
        rw [rustLines_cons_line [] (by intro c hc; cases hc) (by intro c hc; cases hc)]
        rw [rustLines_cons_line "## Interpreted Goal".data (by decide) (by decide)]
        rw [rustLines_cons_line [] (by intro c hc; cases hc) (by intro c hc; cases hc)]
        rw [rustLines_append_block hcr]
      rw [hlines]
      rw [List.foldl_cons, mdStep_blank_ok st hok]
      rw [List.foldl_cons, mdStep_goal_header]
      rw [mdSwitch_eq, saveSection_pad]
      rw [List.foldl_cons, mdStep_blank_nil _ rfl]
      rw [List.foldl_append]
      rw [body_fold g htr hsc _
        (by exact (by decide : ("goal".data : Str) ≠ "dead_ends".data))
        (by exact (by decide : ("goal".data : Str) ≠ "decisions".data)) rfl]
      obtain ⟨e1, e2, e3, e4, e5⟩ := fold_sum sm hsm des hde dcs hdc
        { original_request := (saveSection st).original_request
          interpreted_goal := (saveSection st).interpreted_goal
          summary := (saveSection st).summary
          dead_ends := (saveSection st).dead_ends
          decisions := (saveSection st).decisions
          cur := "goal".data
          content := g }
        (Or.inr ⟨(by decide : ("goal".data : Str) ≠ "dead_ends".data),
          (by decide : ("goal".data : Str) ≠ "decisions".data)⟩)
      refine ⟨e1.trans ?_, e2.trans ?_, e3.trans ?_, e4.trans ?_, e5.trans ?_⟩
      · rw [saveSection_goal _ rfl]
        dsimp only
        rw [htr, if_neg hgne]
      · rw [saveSection_goal _ rfl]
        dsimp only
        rw [htr, if_neg hgne]
      · cases sm with
        | some s2 => rfl
        | none =>
            rw [saveSection_goal _ rfl]
            dsimp only
            rw [htr, if_neg hgne]
      · rw [saveSection_dead_ends]
      · rw [saveSection_decisions]

theorem option_all_forall {p : Str → Bool} {o : Option Str} (h : o.all p = true) :
    ∀ x ∈ o, p x = true := by
  intro x hx
  cases o with
  | none => cases hx
  | some y =>
      have hxy : y = x := by simpa using hx
      rw [← hxy]
      simpa [Option.all] using h

theorem safeIntent_fields {i : Intent} (h : safeIntent i = true) :
    blockSafe i.original_request = true ∧
    (∀ g ∈ i.interpreted_goal, blockSafe g = true ∧ g ≠ []) ∧
    (∀ s ∈ i.summary, blockSafe s = true ∧ s ≠ []) ∧
    (∀ de ∈ i.dead_ends, itemSafe de.approach de.reason = true) ∧
    (∀ d ∈ i.decisions, itemSafe d.description d.rationale = true) := by
  unfold safeIntent at h
  simp only [Bool.and_eq_true, List.all_eq_true] at h
  refine ⟨h.1.1.1.1, ?_, ?_, h.1.2, h.2⟩
  · intro g hg
    have := option_all_forall h.1.1.1.2 g hg
    simpa [Bool.and_eq_true, decide_eq_true_eq] using this
  · intro s hs
    have := option_all_forall h.1.1.2 s hs
    simpa [Bool.and_eq_true, decide_eq_true_eq] using this

theorem toMarkdown_eq (i : Intent) :
    toMarkdown i = "# Intent\n\n".data ++ (i.original_request ++ '\n' ::
      (goalSeg i.interpreted_goal ++ (sumSeg i.summary ++
        (deSeg i.dead_ends ++ decSeg i.decisions)))) := by
  unfold toMarkdown deSeg decSeg
  cases hg : i.interpreted_goal <;> cases hs : i.summary <;>
    simp [goalSeg, sumSeg, List.append_assoc]

theorem mdStep_first : mdStep ({} : MdState) "# Intent".data = {} := by
  unfold mdStep
  rw [if_pos (by decide)]

/-- The amended C5 round trip: every `safeIntent` renders to Markdown that
parses back to itself. -/
theorem markdown_roundtrip_safe (i : Intent) (h : safeIntent i = true) :
    fromMarkdown (toMarkdown i) = i := by
  obtain ⟨hreq, hig, hsm, hde, hdc⟩ := safeIntent_fields h
  obtain ⟨htr, hcr, hhl⟩ := blockSafe_fields hreq
  rw [toMarkdown_eq]
  unfold fromMarkdown
  have hlines : rustLines ("# Intent\n\n".data ++ (i.original_request ++ '\n' ::
      (goalSeg i.interpreted_goal ++ (sumSeg i.summary ++
        (deSeg i.dead_ends ++ decSeg i.decisions))))) =
      "# Intent".data :: [] :: (splitChar '\n' i.original_request ++
        rustLines (goalSeg i.interpreted_goal ++ (sumSeg i.summary ++
          (deSeg i.dead_ends ++ decSeg i.decisions)))) := by
    rw [show "# Intent\n\n".data ++ (i.original_request ++ '\n' ::
        (goalSeg i.interpreted_goal ++ (sumSeg i.summary ++
          (deSeg i.dead_ends ++ decSeg i.decisions)))) =
        "# Intent".data ++ '\n' :: ([] ++ '\n' :: (i.original_request ++ '\n' ::
          (goalSeg i.interpreted_goal ++ (sumSeg i.summary ++
            (deSeg i.dead_ends ++ decSeg i.decisions))))) from by simp]
    rw [rustLines_cons_line "# Intent".data (by decide) (by decide)]
    rw [rustLines_cons_line [] (by intro c hc; cases hc) (by intro c hc; cases hc)]
    rw [rustLines_append_block hcr]
  rw [hlines]
  rw [List.foldl_cons, mdStep_first]
  rw [List.foldl_cons, mdStep_blank_nil _ rfl]
  rw [List.foldl_append]
  have hsc : ∀ l ∈ splitChar '\n' i.original_request, headerLine l = false := by
    by_cases hne : i.original_request = []
    · rw [hne]
      intro l hl
      have : l = ([] : Str) := by
        rw [show splitChar '\n' ([] : Str) = [[]] from rfl] at hl
        simpa using hl
      rw [this]
      decide
    · exact blockSafe_splitChar_headers htr hcr hhl hne
  rw [body_fold i.original_request htr hsc {}
    (by exact (by decide : ("intent".data : Str) ≠ "dead_ends".data))
    (by exact (by decide : ("intent".data : Str) ≠ "decisions".data)) rfl]
  obtain ⟨e1, e2, e3, e4, e5⟩ := fold_goal i.interpreted_goal hig i.summary hsm
    i.dead_ends hde i.decisions hdc
    { original_request := []
      interpreted_goal := none
      summary := none
      dead_ends := []
      decisions := []
      cur := "intent".data
      content := i.original_request }
    (Or.inr ⟨(by decide : ("intent".data : Str) ≠ "dead_ends".data),
      (by decide : ("intent".data : Str) ≠ "decisions".data)⟩)
  have hsv : (saveSection
      { original_request := []
        interpreted_goal := none
        summary := none
        dead_ends := []
        decisions := []
        cur := "intent".data
        content := i.original_request }).original_request = i.original_request := by
    rw [saveSection_intent _ rfl]
    by_cases hne : trim i.original_request = []
    · rw [if_pos hne]
      rw [htr] at hne
      dsimp only
      exact hne.symm
    · rw [if_neg hne]
      dsimp only
      exact htr
  obtain ⟨req, ig, sm, des, dcs⟩ := i
  dsimp only at e1 e2 e3 e4 e5 hsv ⊢
  refine Intent.mk.injEq .. ▸ ?_
  refine ⟨e1.trans hsv, e2.trans ?_, e3.trans ?_, e4.trans (List.nil_append des),
    e5.trans (List.nil_append dcs)⟩
  · cases ig with
    | some g => rfl
    | none =>
        show (saveSection _).interpreted_goal = none
        rw [saveSection_intent _ rfl]
        split_ifs <;> rfl
  · cases sm with
    | some s => rfl
    | none =>
        show (saveSection _).summary = none
        rw [saveSection_intent _ rfl]
        split_ifs <;> rfl

/-- **C5, counterexample**: the claim as stated is false. `cexIntent` has only
section-header-safe field content (no line of any field begins with a section
heading), yet its dead-end approach contains the separator `**: `, so
`Intent::from_markdown(to_markdown(..))` splits the item at the wrong place
and does not return the original intent. -/
theorem C5_roundtrip_counterexample :
    sectionHeaderSafeIntent cexIntent = true ∧
    fromMarkdown (toMarkdown cexIntent) ≠ cexIntent := by
  exact ⟨by decide, by decide⟩

/-- **C5, amended** (`Intent::to_markdown` / `Intent::from_markdown`,
`engram-core/src/model/intent.rs`): for every Intent whose block fields
(original request, goal, summary) are trim-stable, free of carriage returns
and of heading-shaped lines, with the optional ones nonempty, and whose list
fields (dead ends, decisions) are single-line, carriage-return-free, and do
not smuggle an earlier occurrence of the `**: ` separator, parsing the
rendered Markdown yields the original Intent. -/
theorem C5_markdown_roundtrip (i : Intent) (hs : safeIntent i = true) :
    fromMarkdown (toMarkdown i) = i :=
  markdown_roundtrip_safe i hs

/-- Witness for the amended C5 at a fully populated safe intent. -/
theorem C5_markdown_roundtrip_witness :
    safeIntent wIntent = true ∧ fromMarkdown (toMarkdown wIntent) = wIntent :=
  ⟨by decide, C5_markdown_roundtrip wIntent (by decide)⟩

end EngramSpec
